import Mathlib

/-!
# XOR filter + Rabin–Karp: a shallow embedding of `xor_rk.c`

The C program is embedded as pure functions on naturals and lists.

* `u64`/`u32` values are naturals; every operation that can wrap carries an explicit
  reduction modulo `2 ^ 64` / `2 ^ 32`.
* A C array (pointer plus length) is a `List Nat`; reading cell `i` is `List.getD _ i 0`
  and writing it is `List.set`.  Pointer arithmetic `p + i` is `List.drop i`.
* Bytes are naturals below `256`.
-/

namespace XorFilter

/-! ## Constants (`xor_rk.c` lines 20-22) -/

def FNV_OFFSET : Nat := 14695981039346656037
def FNV_PRIME : Nat := 1099511628211
def GOLDEN : Nat := 0x9E3779B97F4A7C15

/-- Reduction of an arithmetic result to the `u64` range. -/
def wrap64 (x : Nat) : Nat := x % 2 ^ 64

/-- Reduction of an arithmetic result to the `u32` range (the cast `(u32)x`). -/
def wrap32 (x : Nat) : Nat := x % 2 ^ 32

/-- The cast `(int)x` of a `size_t` value: reduction modulo `2 ^ 32` into the signed
32-bit range (the conversion every mainstream compiler implements). -/
def toInt32 (x : Nat) : Int :=
  if x % 2 ^ 32 < 2 ^ 31 then ((x % 2 ^ 32 : Nat) : Int) else ((x % 2 ^ 32 : Nat) : Int) - 2 ^ 32

/-! ## Hashing (`xor_rk.c` lines 59-88) -/

/-- Function `fnv1a_64(data, len)`: the loop `h ^= data[i]; h *= FNV_PRIME` for `i = 0 .. len-1`. -/
def fnv1a_64 (data : List Nat) (len : Nat) : Nat :=
  (List.range len).foldl (fun h i => wrap64 ((h ^^^ data.getD i 0) * FNV_PRIME)) FNV_OFFSET

/-- Function `mix64(x)`: three xor-shifts interleaved with two wrapping multiplications. -/
def mix64 (x : Nat) : Nat :=
  let x := x ^^^ (x >>> 30)
  let x := wrap64 (x * 0xBF58476D1CE4E5B9)
  let x := x ^^^ (x >>> 27)
  let x := wrap64 (x * 0x94D049BB133111EB)
  let x := x ^^^ (x >>> 31)
  x

/-- The record `keyinfo_t` (lines 133-136): three bucket indices and a fingerprint. -/
structure keyinfo_t where
  i0 : Nat
  i1 : Nat
  i2 : Nat
  fp : Nat
deriving DecidableEq, Repr, Inhabited

/-- Function `derive_hashes(h, &o0, &o1, &o2, &fp, capacity)`; the four out-parameters are returned
as one record.  `a % capacity` with `capacity = 0` is undefined in C; here it follows
Lean's `x % 0 = x`, and every caller guards against it. -/
def derive_hashes (h : Nat) (capacity : Nat) : keyinfo_t :=
  let a := mix64 h
  let b := mix64 (wrap64 (h + GOLDEN))
  let c := mix64 (wrap64 (h + wrap64 (2 * GOLDEN)))
  { i0 := wrap32 (a % capacity)
    i1 := wrap32 (b % capacity)
    i2 := wrap32 (c % capacity)
    fp := (mix64 h &&& 0xFF) % 256 }

/-! ## Rabin–Karp (`xor_rk.c` lines 90-119) -/

/-- Function `rk_hash(s, m, base)`: the loop `h = h * base + s[i]` in wrapping 64-bit arithmetic;
`s` is read through `const byte *`, i.e. as unsigned bytes. -/
def rk_hash (s : List Nat) (m : Nat) (base : Nat) : Nat :=
  (List.range m).foldl (fun h i => wrap64 (h * base + s.getD i 0)) 0

/-- The conversion `(u64)text[i]` of a plain `char` holding the byte `c`.  Whether plain
`char` is signed is implementation-defined: when it is (`signedChar = true`, the default
of gcc and clang on x86), a byte `c ≥ 128` is the negative value `c - 256` and converts to
`2 ^ 64 - 256 + c`; when it is not, the conversion is the identity. -/
def charToU64 (signedChar : Bool) (c : Nat) : Nat :=
  if signedChar && decide (128 ≤ c) then 2 ^ 64 - 256 + c else c

/-- Modelled from the C standard library: `memcmp(a, b, m)` compares the first `m` bytes
and returns `0` exactly when they agree, otherwise the difference at the first mismatch. -/
def memcmp : List Nat → List Nat → Nat → Int
  | _, _, 0 => 0
  | a, b, m + 1 =>
    if a.getD 0 0 = b.getD 0 0 then memcmp (a.drop 1) (b.drop 1) m
    else (a.getD 0 0 : Int) - (b.getD 0 0 : Int)

/-- The constant `base` of `rabin_karp_search` (line 103). -/
def RK_BASE : Nat := 911382323

/-- The loop of line 106: `pow_m = base ^ (m - 1)` in wrapping arithmetic. -/
def rk_pow (m : Nat) : Nat :=
  (List.range (m - 1)).foldl (fun p _ => wrap64 (p * RK_BASE)) 1

/-- The sliding loop of lines 110-117, `for (i = 1; i + m <= n; ++i)`.  The first argument
is the number of iterations still to run (`n - m` at entry), `i` the loop index and
`window` the rolling hash carried from the previous iteration. -/
def rk_scan (signedChar : Bool) (text pat : List Nat) (m pat_h pow_m : Nat) :
    Nat → Nat → Nat → Int
  | 0, _, _ => -1
  | r + 1, i, window =>
    let window := wrap64 (window + 2 ^ 64 -
      wrap64 (charToU64 signedChar (text.getD (i - 1) 0) * pow_m))
    let window := wrap64 (window * RK_BASE + charToU64 signedChar (text.getD (i + m - 1) 0))
    if window = pat_h ∧ memcmp (text.drop i) pat m = 0 then toInt32 i
    else rk_scan signedChar text pat m pat_h pow_m r (i + 1) window

/-- Function `rabin_karp_search(text, n, pat, m)`; the result is the C `int` (`-1` = not found). -/
def rabin_karp_search (signedChar : Bool) (text : List Nat) (n : Nat) (pat : List Nat)
    (m : Nat) : Int :=
  if m = 0 ∨ n < m then -1
  else
    let pat_h := rk_hash pat m RK_BASE
    let pow_m := rk_pow m
    let window := rk_hash text m RK_BASE
    if window = pat_h ∧ memcmp text pat m = 0 then 0
    else rk_scan signedChar text pat m pat_h pow_m (n - m) 1 window

/-- Function `rabin_karp(txt, pat)` of `updatedxor.c` (lines 67-76): the brute-force scan
`for (i = 0; i <= n - m; i++) if (memcmp(txt + i, pat, m) == 0) return i;`.
The first argument counts the iterations still to run. -/
def rabin_karp_from (txt pat : List Nat) (m : Nat) : Nat → Nat → Int
  | 0, _ => -1
  | r + 1, i => if memcmp (txt.drop i) pat m = 0 then toInt32 i
                else rabin_karp_from txt pat m r (i + 1)

/-- The brute-force reference: both lengths are taken from the lists (`strlen`), and the
loop runs for `i = 0 .. n - m` (no iteration when `n < m`). -/
def rabin_karp (txt pat : List Nat) : Int :=
  rabin_karp_from txt pat pat.length (txt.length + 1 - pat.length) 0

/-! ## The XOR filter (`xor_rk.c` lines 24-28, 121-308) -/

/-- The struct `xor8_t`: `capacity` buckets and the fingerprint array `finger`
(the empty list stands for the `NULL` pointer left by `xor8_free`). -/
structure xor8_t where
  capacity : Nat
  finger : List Nat
deriving DecidableEq, Repr, Inhabited

/-- Function `xor8_init(xf, capacity)`: both fields are overwritten, the array is zeroed. -/
def xor8_init (_xf : xor8_t) (capacity : Nat) : xor8_t :=
  { capacity := capacity, finger := List.replicate capacity 0 }

/-- Function `xor8_free(xf)`: the array is released, `finger = NULL`, `capacity = 0`. -/
def xor8_free (_xf : xor8_t) : xor8_t :=
  { capacity := 0, finger := [] }

/-- The value `ceil(1.5 * (double)nkeys)`.  For a `u32` argument the product `1.5 * nkeys`
is a multiple of `1/2` below `2 ^ 33`, hence exactly representable in a `double`, so the
floating-point computation is exact and equals the integer `⌈3 * nkeys / 2⌉`. -/
def ceil_three_halves (nkeys : Nat) : Nat := (3 * nkeys + 1) / 2

/-- Function `xor8_capacity_for_n(nkeys)`: `(u32)ceil(1.5 * nkeys) + 16` in `u32` arithmetic,
raised to `3` when smaller. -/
def xor8_capacity_for_n (nkeys : Nat) : Nat :=
  let cap := wrap32 (wrap32 (ceil_three_halves nkeys) + 16)
  if cap < 3 then 3 else cap

/-- The statement `a[b]++`. -/
def bump (a : List Nat) (b : Nat) : List Nat := a.set b (a.getD b 0 + 1)

/-- Lines 171-175: the counting pass over all keys. -/
def count_refs (kinfo : List keyinfo_t) (counts : List Nat) : List Nat :=
  kinfo.foldl (fun c k => bump (bump (bump c k.i0) k.i1) k.i2) counts

/-- The statement `bucket_lists[b][fill_pos[b]++] = i`: key `i` is stored in the next free
slot of the list of bucket `b`. -/
def append_key (lists : List (List Nat)) (b i : Nat) : List (List Nat) :=
  lists.set b (lists.getD b [] ++ [i])

/-- Lines 187-193: the fill pass.  The second argument is the index `i` of the first key
of the list; the state is the pair `(bucket_lists, degree)`. -/
def fill_lists : List keyinfo_t → Nat → List (List Nat) × List Nat → List (List Nat) × List Nat
  | [], _, s => s
  | k :: rest, i, s =>
    fill_lists rest (i + 1)
      (append_key (append_key (append_key s.1 k.i0 i) k.i1 i) k.i2 i,
       bump (bump (bump s.2 k.i0) k.i1) k.i2)

/-- Line 199: every bucket of degree exactly 1 is pushed, in increasing order of `b`
(the top of the stack is the head of the list). -/
def seed_stack (degree : List Nat) (capacity : Nat) : List Nat :=
  (List.range capacity).foldl (fun s b => if degree.getD b 0 = 1 then b :: s else s) []

/-- The mutable state of the peeling loop (lines 196-242).  `bucket_stack` has its top at
the head (`stack_top` is its length); `peel` holds the pairs
`(peel_key[p], peel_bucket[p])` with the most recent one first (`peel_top` is its length). -/
structure peel_state where
  degree : List Nat
  bucket_stack : List Nat
  key_removed : List Nat
  peel : List (Nat × Nat)
deriving DecidableEq, Repr

/-- Lines 214-219: the first key of the scanned bucket list that is not removed;
`none` stands for the sentinel `UINT32_MAX`. -/
def find_key (key_removed : List Nat) : List Nat → Option Nat
  | [] => none
  | k :: rest => if key_removed.getD k 0 = 0 then some k else find_key key_removed rest

/-- Lines 236-240: one pass of the inner `for` loop on the bucket `ob`; the state is the
pair `(degree, bucket_stack)`. -/
def release_bucket (s : List Nat × List Nat) (ob : Nat) : List Nat × List Nat :=
  if 0 < s.1.getD ob 0 then
    let d := s.1.set ob (s.1.getD ob 0 - 1)
    if d.getD ob 0 = 1 then (d, ob :: s.2) else (d, s.2)
  else s

/-- Lines 231-234: the buckets of the key that differ from `b`, in the order `b0, b1, b2`
(the array `others`; it has two slots, and at most two entries are stored because the key
found in the list of `b` references `b`). -/
def other_buckets (k : keyinfo_t) (b : Nat) : List Nat :=
  [k.i0, k.i1, k.i2].filter (fun x => decide (x ≠ b))

/-- One iteration of the `while` loop (lines 211-241) after `b` has been popped and `rest`
is what remains of the stack. -/
def peel_iter (kinfo : List keyinfo_t) (bucket_counts : List Nat)
    (bucket_lists : List (List Nat)) (st : peel_state) (b : Nat) (rest : List Nat) :
    peel_state :=
  if st.degree.getD b 0 ≠ 1 then { st with bucket_stack := rest }
  else
    match find_key st.key_removed
        ((bucket_lists.getD b []).take (bucket_counts.getD b 0)) with
    | none => { st with bucket_stack := rest }
    | some found_key =>
      let s := (other_buckets (kinfo.getD found_key default) b).foldl release_bucket
        (st.degree, rest)
      { degree := s.1
        bucket_stack := s.2
        key_removed := st.key_removed.set found_key 1
        peel := (found_key, b) :: st.peel }

/-- The loop `while (stack_top > 0)`, run for at most `fuel` iterations. -/
def peel_loop (kinfo : List keyinfo_t) (bucket_counts : List Nat)
    (bucket_lists : List (List Nat)) : Nat → peel_state → peel_state
  | 0, st => st
  | fuel + 1, st =>
    match st.bucket_stack with
    | [] => st
    | b :: rest =>
      peel_loop kinfo bucket_counts bucket_lists fuel
        (peel_iter kinfo bucket_counts bucket_lists st b rest)

/-- Lines 252-267: one step of the reverse replay for the pair `e = (kidx, assign_bucket)`. -/
def assign_fingerprint (kinfo : List keyinfo_t) (finger : List Nat) (e : Nat × Nat) :
    List Nat :=
  let k := kinfo.getD e.1 default
  let v0 := finger.getD k.i0 0
  let v1 := finger.getD k.i1 0
  let v2 := finger.getD k.i2 0
  let other_xor :=
    if e.2 = k.i0 then v1 ^^^ v2 else if e.2 = k.i1 then v0 ^^^ v2 else v0 ^^^ v1
  finger.set e.2 (k.fp ^^^ other_xor)

/-- Lines 162-164: the `kinfo` array of a key array for a given capacity. -/
def key_infos (keys : List Nat) (capacity : Nat) : List keyinfo_t :=
  keys.map (fun h => derive_hashes h capacity)

/-- Lines 166-242 of `xor8_populate_from_keys`: the state in which the peeling loop ends.
The loop is run with `capacity + 6 * nkeys` units of fuel, which always suffice
(`peel_keys_stack_empty`). -/
def peel_keys (keys : List Nat) (capacity : Nat) : peel_state :=
  let kinfo := key_infos keys capacity
  let bucket_counts := count_refs kinfo (List.replicate capacity 0)
  let filled := fill_lists kinfo 0 (List.replicate capacity [], List.replicate capacity 0)
  peel_loop kinfo bucket_counts filled.1 (capacity + 6 * keys.length)
    { degree := filled.2
      bucket_stack := seed_stack filled.2 capacity
      key_removed := List.replicate keys.length 0
      peel := [] }

/-- Lines 251-268: the body of the replay loop run for the indices `p = count - 1, …, 0`.
Entry `p` of the arrays `peel_key` / `peel_bucket` is element `peel.length - 1 - p` of the
newest-first list `peel`. -/
def reverse_assign_loop (kinfo : List keyinfo_t) (peel : List (Nat × Nat)) :
    Nat → List Nat → List Nat
  | 0, finger => finger
  | p + 1, finger =>
    reverse_assign_loop kinfo peel p
      (assign_fingerprint kinfo finger (peel.getD (peel.length - 1 - p) default))

/-- Line 251: the loop `for (int p = (int)peel_top - 1; p >= 0; --p)`.  The start index is
the `int` cast of the `u32` counter `peel_top`, less one; when it is negative the body never
runs and the array is left as it is.  (At `peel_top = 2 ^ 31` the subtraction leaves the range
of `int`; the model takes its mathematical value, which is negative.) -/
def reverse_assign (kinfo : List keyinfo_t) (peel : List (Nat × Nat)) (finger : List Nat) :
    List Nat :=
  let start := toInt32 peel.length - 1
  if start < 0 then finger
  else reverse_assign_loop kinfo peel (start.toNat + 1) finger

/-- Function `xor8_populate_from_keys(xf, keys, nkeys)` with `nkeys = keys.length`; the result is the
returned `int` together with the filter left in `*xf`.  The `u32` scratch counters of the fill
and peel passes are kept as naturals; the `int` index of the replay loop is modelled with its
cast (`reverse_assign`). -/
def xor8_populate_from_keys (xf : xor8_t) (keys : List Nat) : Nat × xor8_t :=
  if keys.length = 0 then (1, xf)
  else
    let capacity := xor8_capacity_for_n keys.length
    let xf := xor8_init xf capacity
    let st := peel_keys keys capacity
    if st.peel.length ≠ keys.length then (0, xor8_free xf)
    else (1, { xf with finger := reverse_assign (key_infos keys capacity) st.peel xf.finger })

/-- The loop of `xor8_build_with_retries` with `attempts` attempts left. -/
def build_attempts (keys : List Nat) : Nat → xor8_t → Nat × xor8_t
  | 0, xf => (0, xf)
  | attempts + 1, xf =>
    if (xor8_populate_from_keys xf keys).1 ≠ 0 then (1, (xor8_populate_from_keys xf keys).2)
    else build_attempts keys attempts (xor8_populate_from_keys xf keys).2

/-- Function `xor8_build_with_retries(xf, keys, nkeys)`: at most `max_attempts = 5` attempts. -/
def xor8_build_with_retries (xf : xor8_t) (keys : List Nat) : Nat × xor8_t :=
  build_attempts keys 5 xf

/-- Function `xor8_contains_hash(xf, keyhash)`; `none` is the `NULL` pointer. -/
def xor8_contains_hash (xf : Option xor8_t) (keyhash : Nat) : Nat :=
  match xf with
  | none => 1
  | some f =>
    if f.capacity = 0 then 1
    else
      let k := derive_hashes keyhash f.capacity
      let x := f.finger.getD k.i0 0 ^^^ f.finger.getD k.i1 0 ^^^ f.finger.getD k.i2 0
      if x = k.fp then 1 else 0

/-- Function `build_substring_keys(text, text_len, m, &out_nkeys)`: the array of the hashes of all
windows of length `m` (empty, with `out_nkeys = 0`, when `text_len < m`); the key count is
the `u32` cast of `text_len - m + 1`. -/
def build_substring_keys (text : List Nat) (text_len m : Nat) : List Nat :=
  if text_len < m then []
  else (List.range (wrap32 (text_len - m + 1))).map (fun i => fnv1a_64 (text.drop i) m)

/-! ## Notions used to state the invariants of the construction -/

/-- The number of references (with multiplicity) of a key to the bucket `b`. -/
def refs (k : keyinfo_t) (b : Nat) : Nat :=
  (if k.i0 = b then 1 else 0) + (if k.i1 = b then 1 else 0) + (if k.i2 = b then 1 else 0)

/-- The number of references (with multiplicity) to the bucket `b` from keys that are not
yet removed. -/
def live_refs (kinfo : List keyinfo_t) (key_removed : List Nat) (b : Nat) : Nat :=
  ∑ i in Finset.range kinfo.length,
    if key_removed.getD i 0 = 0 then refs (kinfo.getD i default) b else 0

/-- The fingerprint equation of a key in a fingerprint array. -/
def key_matches (finger : List Nat) (k : keyinfo_t) : Prop :=
  finger.getD k.i0 0 ^^^ finger.getD k.i1 0 ^^^ finger.getD k.i2 0 = k.fp

/-- Well-formedness of a peel order (most recent pair first): the assigned bucket of each
pair is a valid index referenced exactly once by its key, and the key of a pair is
different from every key peeled before it and references none of the buckets assigned
before it. -/
def peel_order_ok (kinfo : List keyinfo_t) (capacity : Nat) : List (Nat × Nat) → Prop
  | [] => True
  | e :: rest =>
    refs (kinfo.getD e.1 default) e.2 = 1 ∧ e.2 < capacity ∧
    (∀ e' ∈ rest, refs (kinfo.getD e.1 default) e'.2 = 0 ∧ e'.1 ≠ e.1) ∧
    peel_order_ok kinfo capacity rest

/-- The invariant of the peeling loop. -/
structure peel_inv (kinfo : List keyinfo_t) (capacity : Nat) (st : peel_state) : Prop where
  removed_length : st.key_removed.length = kinfo.length
  degree_length : st.degree.length = capacity
  degree_ok : ∀ b, b < capacity →
    st.degree.getD b 0 = live_refs kinfo st.key_removed b ∨
    (live_refs kinfo st.key_removed b = 0 ∧ st.degree.getD b 0 = 1)
  peel_removed : ∀ e ∈ st.peel, e.1 < kinfo.length ∧ st.key_removed.getD e.1 0 ≠ 0
  peel_dead : ∀ e ∈ st.peel, live_refs kinfo st.key_removed e.2 = 0
  peel_ordered : peel_order_ok kinfo capacity st.peel

/-- The quantity that decreases at every iteration of the peeling loop. -/
def peel_measure (st : peel_state) : Nat :=
  st.bucket_stack.length + 2 * st.degree.sum

/-! ## The variable `window` of `rabin_karp_search` as a sequence -/

/-- Lines 112-113: the value of `window` after the update of iteration `i`, from its value
before the update. -/
def rk_step (signedChar : Bool) (text : List Nat) (m pow_m i window : Nat) : Nat :=
  wrap64 (wrap64 (window + 2 ^ 64 -
      wrap64 (charToU64 signedChar (text.getD (i - 1) 0) * pow_m)) * RK_BASE
    + charToU64 signedChar (text.getD (i + m - 1) 0))

/-- The value of the variable `window` at loop position `i`: the value of line 108 for
`i = 0`, the value after the update of iteration `i` for `i ≥ 1`. -/
def rk_window (signedChar : Bool) (text : List Nat) (m : Nat) : Nat → Nat
  | 0 => rk_hash text m RK_BASE
  | i + 1 => rk_step signedChar text m (rk_pow m) (i + 1) (rk_window signedChar text m i)

/-! ## The fixed-table variant (`updatedxor.c`)

`mix64` and `fnv1a_64` of `updatedxor.c` are the functions of `xor_rk.c` above. -/

namespace UpdatedXor

/-- The constant `TABLE_SIZE` (line 6). -/
def TABLE_SIZE : Nat := 256

/-- Function `derive_hashes(h, &h0, &h1, &h2, &fp)` of `updatedxor.c` (lines 34-39); the
out-parameters `h0, h1, h2, fp` are the fields `i0, i1, i2, fp` of the record. -/
def derive_hashes (h : Nat) : keyinfo_t :=
  { i0 := wrap32 (mix64 h % TABLE_SIZE)
    i1 := wrap32 (mix64 (wrap64 (h + GOLDEN)) % TABLE_SIZE)
    i2 := wrap32 (mix64 (wrap64 (h + wrap64 (2 * GOLDEN))) % TABLE_SIZE)
    fp := mix64 h % 256 }

/-- The global array `xor_filter` as initialised (line 12): `TABLE_SIZE` zero bytes. -/
def xor_filter : List Nat := List.replicate TABLE_SIZE 0

/-- Function `xor_filter_insert(key)` (lines 43-53) on the table passed in; `key` is the
list of the bytes before the terminating NUL, so `strlen(key)` is its length. -/
def xor_filter_insert (table : List Nat) (key : List Nat) : List Nat :=
  let k := derive_hashes (fnv1a_64 key key.length)
  let table := table.set k.i0 (table.getD k.i0 0 ^^^ k.fp)
  let table := table.set k.i1 (table.getD k.i1 0 ^^^ k.fp)
  let table := table.set k.i2 (table.getD k.i2 0 ^^^ k.fp)
  table

/-- Function `xor_filter_maybe_contains(key)` (lines 55-63) on the table passed in; the
result is the C `int` of the comparison. -/
def xor_filter_maybe_contains (table : List Nat) (key : List Nat) : Nat :=
  let k := derive_hashes (fnv1a_64 key key.length)
  if table.getD k.i0 0 ^^^ table.getD k.i1 0 ^^^ table.getD k.i2 0 = k.fp then 1 else 0

/-- The loop of `main` (lines 102-104) for an arbitrary list of keys: the keys are inserted
one after the other into the table. -/
def insert_all (table : List Nat) (keys : List (List Nat)) : List Nat :=
  keys.foldl xor_filter_insert table

end UpdatedXor

/-! ## The peeling loop of a key array, step by step -/

/-- The array `bucket_counts` of a key array after the counting pass (lines 169-175). -/
def bucket_counts_of (keys : List Nat) (capacity : Nat) : List Nat :=
  count_refs (key_infos keys capacity) (List.replicate capacity 0)

/-- The pair `(bucket_lists, degree)` of a key array after the fill pass (lines 177-193). -/
def filled_of (keys : List Nat) (capacity : Nat) : List (List Nat) × List Nat :=
  fill_lists (key_infos keys capacity) 0 (List.replicate capacity [], List.replicate capacity 0)

/-- The state in which the peeling loop is entered (lines 196-207). -/
def peel_init (keys : List Nat) (capacity : Nat) : peel_state :=
  { degree := (filled_of keys capacity).2
    bucket_stack := seed_stack (filled_of keys capacity).2 capacity
    key_removed := List.replicate keys.length 0
    peel := [] }

/-- The state of the peeling loop of a key array after `steps` iterations (or at its end,
when it ends earlier). -/
def peel_after (keys : List Nat) (capacity steps : Nat) : peel_state :=
  peel_loop (key_infos keys capacity) (bucket_counts_of keys capacity)
    (filled_of keys capacity).1 steps (peel_init keys capacity)

/-- The buckets pushed during an iteration that started with `rest` below the popped
bucket and ended in the state `st'`: what lies on the stack above `rest`. -/
def pushed_by (rest : List Nat) (st' : peel_state) : List Nat :=
  st'.bucket_stack.take (st'.bucket_stack.length - rest.length)

/-- The buckets pushed (line 239) during the first `steps` iterations of the loop started
in the state `st`, in the order of the iterations. -/
def push_log (kinfo : List keyinfo_t) (bucket_counts : List Nat)
    (bucket_lists : List (List Nat)) : Nat → peel_state → List Nat
  | 0, _ => []
  | steps + 1, st =>
    match st.bucket_stack with
    | [] => []
    | b :: rest =>
      pushed_by rest (peel_iter kinfo bucket_counts bucket_lists st b rest) ++
        push_log kinfo bucket_counts bucket_lists steps
          (peel_iter kinfo bucket_counts bucket_lists st b rest)

/-- The invariant of the peeling loop, extended to the stack and to the exactness of the
degrees. -/
structure peel_inv_stack (kinfo : List keyinfo_t) (capacity : Nat) (st : peel_state) :
    Prop where
  base : peel_inv kinfo capacity st
  degree_exact : ∀ b, b < capacity → b ∉ st.peel.map Prod.snd →
    st.degree.getD b 0 = live_refs kinfo st.key_removed b
  removed_peeled : ∀ i, i < kinfo.length → st.key_removed.getD i 0 ≠ 0 →
    i ∈ st.peel.map Prod.fst
  stack_nodup : st.bucket_stack.Nodup
  stack_degree : ∀ x ∈ st.bucket_stack, st.degree.getD x 0 ≤ 1 ∧ x < capacity
  stack_fresh : ∀ x ∈ st.bucket_stack, x ∉ st.peel.map Prod.snd
  ones_stacked : ∀ b, b < capacity → st.degree.getD b 0 = 1 → b ∉ st.peel.map Prod.snd →
    b ∈ st.bucket_stack

/-- A non-empty 2-core: a non-empty sub-multiset of the keys in which no bucket is
referenced exactly once (counting multiplicity), so that peeling can remove none of them. -/
def has_core (kinfo : List keyinfo_t) : Prop :=
  ∃ T : Multiset keyinfo_t, T ≤ (kinfo : Multiset keyinfo_t) ∧ T ≠ 0 ∧
    ∀ b, (T.map (fun k => refs k b)).sum ≠ 1

/-! ## Auxiliary facts about arrays and loops -/

theorem getD_set_eq {α : Type} (l : List α) (i : Nat) (v d : α) (h : i < l.length) :
    (l.set i v).getD i d = v := by
  simp [List.getD_eq_getElem?_getD, List.getElem?_set, h]

theorem getD_set_ne {α : Type} (l : List α) (i j : Nat) (v d : α) (h : i ≠ j) :
    (l.set i v).getD j d = l.getD j d := by
  simp [List.getD_eq_getElem?_getD, List.getElem?_set, h]

theorem getD_take_lt {α : Type} (l : List α) (n i : Nat) (d : α) (h : i < n) :
    (l.take n).getD i d = l.getD i d := by
  simp [List.getD_eq_getElem?_getD, List.getElem?_take, h]

theorem getD_drop_add {α : Type} (l : List α) (i j : Nat) (d : α) :
    (l.drop i).getD j d = l.getD (i + j) d := by
  simp [List.getD_eq_getElem?_getD, List.getElem?_drop]

/-- A counted loop reading cells `0 .. len-1` of an array is the left fold over the list. -/
theorem foldl_range_getD (f : Nat → Nat → Nat) (s : List Nat) (init : Nat) :
    (List.range s.length).foldl (fun h i => f h (s.getD i 0)) init = s.foldl f init := by
  induction s using List.reverseRecOn with
  | nil => rfl
  | append_singleton s b ih =>
    rw [List.length_append, List.length_singleton, List.range_succ, List.foldl_append,
      List.foldl_append]
    have hpre : (List.range s.length).foldl (fun h i => f h ((s ++ [b]).getD i 0)) init
        = (List.range s.length).foldl (fun h i => f h (s.getD i 0)) init := by
      apply List.foldl_ext
      intro a i hi
      rw [List.getD_append _ _ _ _ (List.mem_range.mp hi)]
    rw [hpre, ih]
    simp [List.getD_eq_getElem?_getD]

/-- A counted loop only depends on the cells it reads. -/
theorem foldl_range_congr (f : Nat → Nat → Nat) (s t : List Nat) (m init : Nat)
    (h : ∀ i, i < m → s.getD i 0 = t.getD i 0) :
    (List.range m).foldl (fun a i => f a (s.getD i 0)) init
      = (List.range m).foldl (fun a i => f a (t.getD i 0)) init := by
  apply List.foldl_ext
  intro a i hi
  rw [h i (List.mem_range.mp hi)]

theorem toInt32_of_lt (x : Nat) (h : x < 2 ^ 31) : toInt32 x = (x : Int) := by
  have h2 : x % 2 ^ 32 = x := Nat.mod_eq_of_lt (by omega)
  unfold toInt32
  rw [h2, if_pos h]

theorem memcmp_eq_zero_iff (a b : List Nat) (m : Nat) :
    memcmp a b m = 0 ↔ ∀ j, j < m → a.getD j 0 = b.getD j 0 := by
  induction m generalizing a b with
  | zero => simp [memcmp]
  | succ m ih =>
    unfold memcmp
    by_cases h0 : a.getD 0 0 = b.getD 0 0
    · rw [if_pos h0, ih]
      constructor
      · intro h j hj
        cases j with
        | zero => exact h0
        | succ j =>
          have := h j (by omega)
          rw [getD_drop_add, getD_drop_add] at this
          simpa [Nat.add_comm] using this
      · intro h j hj
        rw [getD_drop_add, getD_drop_add]
        have := h (j + 1) (by omega)
        simpa [Nat.add_comm] using this
    · rw [if_neg h0]
      constructor
      · intro h
        exfalso
        apply h0
        have : (a.getD 0 0 : Int) = (b.getD 0 0 : Int) := by omega
        exact_mod_cast this
      · intro h
        exact absurd (h 0 (by omega)) h0

theorem ceil_three_halves_eq (n : Nat) : ⌈(3 / 2 : ℚ) * n⌉₊ = ceil_three_halves n := by
  unfold ceil_three_halves
  obtain ⟨k, hk | hk⟩ := Nat.even_or_odd' n
  · subst hk
    have h1 : (3 / 2 : ℚ) * ((2 * k : ℕ) : ℚ) = ((3 * k : ℕ) : ℚ) := by push_cast; ring
    rw [h1, Nat.ceil_natCast]
    omega
  · subst hk
    have h2 : (3 * (2 * k + 1) + 1) / 2 = 3 * k + 2 := by omega
    rw [h2, Nat.ceil_eq_iff (by omega)]
    constructor
    · push_cast
      linarith
    · push_cast; linarith

/-- The guard of line 102. -/
theorem rabin_karp_search_early_exit (signedChar : Bool) (text : List Nat) (n : Nat)
    (pat : List Nat) (m : Nat) (h : m = 0 ∨ n < m) :
    rabin_karp_search signedChar text n pat m = -1 := by
  unfold rabin_karp_search
  rw [if_pos h]

/-! ## Claims about hashing -/

/-- C8: for every seed `h` and every capacity with `1 ≤ capacity < 2 ^ 32` (a `u32`),
`derive_hashes` returns the three bucket indices `mix64(h) mod capacity`,
`mix64((h + GOLDEN) mod 2^64) mod capacity`, `mix64((h + 2*GOLDEN) mod 2^64) mod capacity`,
each of them below `capacity`, and the fingerprint `mix64(h) mod 256` (its low 8 bits). -/
theorem derive_hashes_spec (h capacity : Nat) (hpos : 1 ≤ capacity)
    (hcap : capacity < 2 ^ 32) :
    (derive_hashes h capacity).i0 = mix64 h % capacity ∧
    (derive_hashes h capacity).i1 = mix64 ((h + GOLDEN) % 2 ^ 64) % capacity ∧
    (derive_hashes h capacity).i2 = mix64 ((h + 2 * GOLDEN) % 2 ^ 64) % capacity ∧
    (derive_hashes h capacity).i0 < capacity ∧
    (derive_hashes h capacity).i1 < capacity ∧
    (derive_hashes h capacity).i2 < capacity ∧
    (derive_hashes h capacity).fp = mix64 h % 2 ^ 8 ∧
    (derive_hashes h capacity).fp < 256 := by
  have hlt : ∀ x : Nat, x % capacity < capacity := fun x => Nat.mod_lt _ (by omega)
  have hw : ∀ x : Nat, wrap32 (x % capacity) = x % capacity := fun x =>
    Nat.mod_eq_of_lt (lt_trans (hlt x) hcap)
  have hfp : (mix64 h &&& 0xFF) % 256 = mix64 h % 2 ^ 8 := by
    have := Nat.and_pow_two_sub_one_eq_mod (mix64 h) 8
    norm_num at this
    rw [this]
    norm_num
  have h2 : wrap64 (h + wrap64 (2 * GOLDEN)) = (h + 2 * GOLDEN) % 2 ^ 64 := by
    unfold wrap64
    rw [Nat.add_mod_mod]
  refine ⟨?_, ?_, ?_, ?_, ?_, ?_, ?_, ?_⟩
  · simp only [derive_hashes, hw]
  · simp only [derive_hashes, hw, wrap64]
  · simp only [derive_hashes, hw, h2]
  · simp only [derive_hashes, hw]; exact hlt _
  · simp only [derive_hashes, hw]; exact hlt _
  · simp only [derive_hashes, hw]; exact hlt _
  · simp only [derive_hashes]; exact hfp
  · simp only [derive_hashes]; exact Nat.mod_lt _ (by norm_num)

theorem derive_hashes_spec_witness :
    (derive_hashes 1 19).i0 = mix64 1 % 19 ∧
    (derive_hashes 1 19).i1 = mix64 ((1 + GOLDEN) % 2 ^ 64) % 19 ∧
    (derive_hashes 1 19).i2 = mix64 ((1 + 2 * GOLDEN) % 2 ^ 64) % 19 ∧
    (derive_hashes 1 19).i0 < 19 ∧
    (derive_hashes 1 19).i1 < 19 ∧
    (derive_hashes 1 19).i2 < 19 ∧
    (derive_hashes 1 19).fp = mix64 1 % 2 ^ 8 ∧
    (derive_hashes 1 19).fp < 256 :=
  derive_hashes_spec 1 19 (by decide) (by decide)

/-- C9: `fnv1a_64` of the empty sequence is the offset basis `14695981039346656037`;
appending a byte `b` to `s` turns the hash `x` of `s` into `((x XOR b) * 1099511628211)
mod 2^64`; hence `fnv1a_64` is the left fold of the FNV-1a recurrence over the bytes. -/
theorem fnv1a_64_spec :
    fnv1a_64 [] 0 = 14695981039346656037 ∧
    (∀ (s : List Nat) (b : Nat),
      fnv1a_64 (s ++ [b]) (s ++ [b]).length
        = ((fnv1a_64 s s.length ^^^ b) * 1099511628211) % 2 ^ 64) ∧
    (∀ s : List Nat,
      fnv1a_64 s s.length
        = s.foldl (fun x b => ((x ^^^ b) * 1099511628211) % 2 ^ 64) 14695981039346656037) := by
  have hfold : ∀ s : List Nat, fnv1a_64 s s.length
      = s.foldl (fun x b => ((x ^^^ b) * 1099511628211) % 2 ^ 64) 14695981039346656037 := by
    intro s
    exact foldl_range_getD (fun x b => ((x ^^^ b) * 1099511628211) % 2 ^ 64) s _
  refine ⟨rfl, ?_, hfold⟩
  intro s b
  rw [hfold, hfold, List.foldl_append]
  rfl

/-! ## Claims about the exact matcher -/

/-- C7: `rabin_karp_search` returns `-1` whenever the pattern is empty (`m = 0`) or longer
than the text (`n < m`), whatever the text (the empty text included). -/
theorem rabin_karp_search_degenerate (signedChar : Bool) (text : List Nat) (n : Nat)
    (pat : List Nat) (m : Nat) (h : m = 0 ∨ n < m) :
    rabin_karp_search signedChar text n pat m = -1 :=
  rabin_karp_search_early_exit signedChar text n pat m h

theorem rabin_karp_search_degenerate_witness :
    rabin_karp_search true [] 0 [97] 1 = -1 ∧ rabin_karp_search true [97, 98] 2 [] 0 = -1 :=
  ⟨rabin_karp_search_degenerate true [] 0 [97] 1 (Or.inr (by decide)),
   rabin_karp_search_degenerate true [97, 98] 2 [] 0 (Or.inl rfl)⟩

/-! ## Claims about the filter query and the capacity -/

/-- C4: `xor8_contains_hash` returns `1` exactly when the capacity is `0` or the XOR of the
three cells selected by `derive_hashes(keyhash, capacity)` equals the derived fingerprint;
it returns `0` otherwise, and a capacity-0 filter answers `1` to every query. -/
theorem xor8_contains_hash_spec (xf : xor8_t) (keyhash : Nat) :
    (xor8_contains_hash (some xf) keyhash = 1 ↔
      (xf.capacity = 0 ∨
        xf.finger.getD (derive_hashes keyhash xf.capacity).i0 0
          ^^^ xf.finger.getD (derive_hashes keyhash xf.capacity).i1 0
          ^^^ xf.finger.getD (derive_hashes keyhash xf.capacity).i2 0
          = (derive_hashes keyhash xf.capacity).fp)) ∧
    (xor8_contains_hash (some xf) keyhash = 1 ∨ xor8_contains_hash (some xf) keyhash = 0) ∧
    xor8_contains_hash (some { capacity := 0, finger := xf.finger }) keyhash = 1 := by
  refine ⟨?_, ?_, ?_⟩
  · unfold xor8_contains_hash
    by_cases hc : xf.capacity = 0
    · simp [hc]
    · simp only [hc, if_false, false_or]
      split_ifs with hx
      · exact ⟨fun _ => hx, fun _ => rfl⟩
      · exact ⟨fun h => absurd h (by decide), fun h => absurd h hx⟩
  · unfold xor8_contains_hash
    by_cases hc : xf.capacity = 0
    · simp [hc]
    · simp only [hc, if_false]
      split_ifs <;> simp
  · simp [xor8_contains_hash]

theorem xor8_capacity_for_n_eq (nkeys : Nat) (h : ceil_three_halves nkeys + 16 < 2 ^ 32) :
    xor8_capacity_for_n nkeys = ceil_three_halves nkeys + 16 := by
  unfold xor8_capacity_for_n wrap32
  have h1 : ceil_three_halves nkeys % 2 ^ 32 = ceil_three_halves nkeys :=
    Nat.mod_eq_of_lt (by omega)
  have h2 : (ceil_three_halves nkeys + 16) % 2 ^ 32 = ceil_three_halves nkeys + 16 :=
    Nat.mod_eq_of_lt h
  simp only [h1, h2]
  rw [if_neg (by omega)]

theorem xor8_populate_capacity (xf : xor8_t) (keys : List Nat) (hne : 1 ≤ keys.length)
    (hok : (xor8_populate_from_keys xf keys).1 = 1) :
    (xor8_populate_from_keys xf keys).2.capacity = xor8_capacity_for_n keys.length := by
  unfold xor8_populate_from_keys at hok ⊢
  rw [if_neg (by omega)] at hok ⊢
  by_cases hp : (peel_keys keys (xor8_capacity_for_n keys.length)).peel.length ≠ keys.length
  · simp [hp] at hok
  · simp [hp, xor8_init]

/-- C10: whenever `⌈3 * nkeys / 2⌉ + 16 < 2 ^ 32`, `xor8_capacity_for_n nkeys` is exactly
`⌈1.5 * nkeys⌉ + 16`; it is then at least `max 3 ⌈1.23 * nkeys⌉`; and a filter successfully
built from `nkeys ≥ 1` keys has exactly this capacity. -/
theorem xor8_capacity_for_n_spec (nkeys : Nat)
    (h : ⌈(3 * nkeys : ℚ) / 2⌉₊ + 16 < 2 ^ 32) :
    xor8_capacity_for_n nkeys = ⌈(3 / 2 : ℚ) * nkeys⌉₊ + 16 ∧
    max 3 ⌈(123 / 100 : ℚ) * nkeys⌉₊ ≤ xor8_capacity_for_n nkeys ∧
    (∀ (xf : xor8_t) (keys : List Nat), keys.length = nkeys → 1 ≤ nkeys →
      (xor8_populate_from_keys xf keys).1 = 1 →
      (xor8_populate_from_keys xf keys).2.capacity = ⌈(3 / 2 : ℚ) * nkeys⌉₊ + 16) := by
  have hq : (3 * nkeys : ℚ) / 2 = (3 / 2 : ℚ) * nkeys := by ring
  rw [hq, ceil_three_halves_eq] at h
  have hcap := xor8_capacity_for_n_eq nkeys h
  rw [ceil_three_halves_eq]
  refine ⟨hcap, ?_, ?_⟩
  · rw [hcap]
    apply max_le
    · omega
    · rw [Nat.ceil_le]
      have h1 : (3 / 2 : ℚ) * nkeys ≤ ((ceil_three_halves nkeys : ℕ) : ℚ) := by
        rw [← ceil_three_halves_eq]
        exact Nat.le_ceil _
      have h0 : (0 : ℚ) ≤ nkeys := Nat.cast_nonneg _
      push_cast
      linarith
  · intro xf keys hlen hpos hok
    rw [← hcap, ← hlen]
    exact xor8_populate_capacity xf keys (by omega) hok

theorem xor8_capacity_for_n_spec_witness :
    ⌈(3 * (3 : ℕ) : ℚ) / 2⌉₊ + 16 < 2 ^ 32 ∧
    xor8_capacity_for_n 3 = ⌈(3 / 2 : ℚ) * (3 : ℕ)⌉₊ + 16 ∧
    max 3 ⌈(123 / 100 : ℚ) * (3 : ℕ)⌉₊ ≤ xor8_capacity_for_n 3 ∧
    (xor8_populate_from_keys { capacity := 0, finger := [] } [1, 2, 3]).1 = 1 ∧
    (xor8_populate_from_keys { capacity := 0, finger := [] } [1, 2, 3]).2.capacity
      = ⌈(3 / 2 : ℚ) * (3 : ℕ)⌉₊ + 16 := by
  have hhyp : ⌈(3 * (3 : ℕ) : ℚ) / 2⌉₊ + 16 < 2 ^ 32 := by
    have hq : (3 * (3 : ℕ) : ℚ) / 2 = (3 / 2 : ℚ) * (3 : ℕ) := by ring
    rw [hq, ceil_three_halves_eq]
    decide
  have hok : (xor8_populate_from_keys { capacity := 0, finger := [] } [1, 2, 3]).1 = 1 := by
    decide
  obtain ⟨h1, h2, h3⟩ := xor8_capacity_for_n_spec 3 hhyp
  exact ⟨hhyp, h1, h2, hok, h3 _ [1, 2, 3] rfl (by decide) hok⟩

/-- C5 (evaluation): called with zero keys on a filter that still holds a 3-cell zero
array, `xor8_populate_from_keys` and `xor8_build_with_retries` report success and leave
the filter untouched, and the query for key hash `1` then answers `0`. -/
theorem xor8_populate_zero_keys_stale_filter :
    xor8_populate_from_keys { capacity := 3, finger := [0, 0, 0] } []
      = (1, { capacity := 3, finger := [0, 0, 0] }) ∧
    xor8_build_with_retries { capacity := 3, finger := [0, 0, 0] } []
      = (1, { capacity := 3, finger := [0, 0, 0] }) ∧
    xor8_contains_hash
      (some (xor8_populate_from_keys { capacity := 3, finger := [0, 0, 0] } []).2) 1 = 0 := by
  decide

/-! ## Soundness of the exact matcher -/

theorem rk_hash_congr (s t : List Nat) (m base : Nat)
    (h : ∀ i, i < m → s.getD i 0 = t.getD i 0) : rk_hash s m base = rk_hash t m base :=
  foldl_range_congr (fun a x => wrap64 (a * base + x)) s t m 0 h

theorem memcmp_congr (a a' b b' : List Nat) (m : Nat)
    (ha : ∀ j, j < m → a.getD j 0 = a'.getD j 0)
    (hb : ∀ j, j < m → b.getD j 0 = b'.getD j 0) :
    memcmp a b m = 0 ↔ memcmp a' b' m = 0 := by
  rw [memcmp_eq_zero_iff, memcmp_eq_zero_iff]
  constructor
  · intro h j hj
    rw [← ha j hj, ← hb j hj]
    exact h j hj
  · intro h j hj
    rw [ha j hj, hb j hj]
    exact h j hj

/-- The sliding loop reads only `text[0 .. n)` and `pat[0 .. m)`. -/
theorem rk_scan_congr (signedChar : Bool) (text text' pat pat' : List Nat)
    (m pat_h pow_m n : Nat)
    (ht : ∀ i, i < n → text.getD i 0 = text'.getD i 0)
    (hp : ∀ j, j < m → pat.getD j 0 = pat'.getD j 0) (hm : 1 ≤ m) :
    ∀ (r i window : Nat), 1 ≤ i → i + r + m ≤ n + 1 →
      rk_scan signedChar text pat m pat_h pow_m r i window
        = rk_scan signedChar text' pat' m pat_h pow_m r i window := by
  intro r
  induction r with
  | zero => intro i window _ _; rfl
  | succ r ih =>
    intro i window hi hb
    unfold rk_scan
    have h1 : text.getD (i - 1) 0 = text'.getD (i - 1) 0 := ht _ (by omega)
    have h2 : text.getD (i + m - 1) 0 = text'.getD (i + m - 1) 0 := ht _ (by omega)
    have h3 : memcmp (text.drop i) pat m = 0 ↔ memcmp (text'.drop i) pat' m = 0 := by
      apply memcmp_congr _ _ _ _ _ _ hp
      intro j hj
      rw [getD_drop_add, getD_drop_add]
      exact ht _ (by omega)
    simp only [h1, h2]
    by_cases hc : memcmp (text.drop i) pat m = 0
    · have hc' := h3.mp hc
      simp only [hc, hc', and_true]
      split_ifs
      · rfl
      · exact ih _ _ (by omega) (by omega)
    · have hc' : ¬ memcmp (text'.drop i) pat' m = 0 := fun h => hc (h3.mpr h)
      simp only [hc, hc', and_false, if_false]
      exact ih _ _ (by omega) (by omega)

/-- The function `rabin_karp_search` reads only `text[0 .. n)` and `pat[0 .. m)`. -/
theorem rabin_karp_search_congr (signedChar : Bool) (text text' pat pat' : List Nat)
    (n m : Nat)
    (ht : ∀ i, i < n → text.getD i 0 = text'.getD i 0)
    (hp : ∀ j, j < m → pat.getD j 0 = pat'.getD j 0) :
    rabin_karp_search signedChar text n pat m = rabin_karp_search signedChar text' n pat' m := by
  unfold rabin_karp_search
  by_cases h : m = 0 ∨ n < m
  · rw [if_pos h, if_pos h]
  · rw [if_neg h, if_neg h]
    have hm : 1 ≤ m := by omega
    have hmn : m ≤ n := by omega
    have e1 : rk_hash pat m RK_BASE = rk_hash pat' m RK_BASE := rk_hash_congr _ _ _ _ hp
    have e2 : rk_hash text m RK_BASE = rk_hash text' m RK_BASE :=
      rk_hash_congr _ _ _ _ (fun i hi => ht i (by omega))
    have e3 : memcmp text pat m = 0 ↔ memcmp text' pat' m = 0 :=
      memcmp_congr _ _ _ _ _ (fun j hj => ht j (by omega)) hp
    have e4 := rk_scan_congr signedChar text text' pat pat' m (rk_hash pat' m RK_BASE)
      (rk_pow m) n ht hp hm (n - m) 1 (rk_hash text' m RK_BASE) (le_refl 1) (by omega)
    simp only [e1, e2]
    by_cases hc : memcmp text pat m = 0
    · have hc' := e3.mp hc
      simp only [hc, hc', and_true]
      split_ifs
      · rfl
      · exact e4
    · have hc' : ¬ memcmp text' pat' m = 0 := fun h => hc (e3.mpr h)
      simp only [hc, hc', and_false, if_false]
      exact e4

/-- A non-negative result of the sliding loop is the cast of an index it visited at which
the byte comparison succeeded. -/
theorem rk_scan_sound (signedChar : Bool) (text pat : List Nat) (m pat_h pow_m : Nat) :
    ∀ (r i window : Nat), 0 ≤ rk_scan signedChar text pat m pat_h pow_m r i window →
      ∃ k, i ≤ k ∧ k < i + r ∧
        rk_scan signedChar text pat m pat_h pow_m r i window = toInt32 k ∧
        memcmp (text.drop k) pat m = 0 := by
  intro r
  induction r with
  | zero =>
    intro i window h
    simp [rk_scan] at h
  | succ r ih =>
    intro i window h
    unfold rk_scan at h ⊢
    simp only at h ⊢
    split_ifs at h ⊢ with hc
    · exact ⟨i, le_refl i, by omega, rfl, hc.2⟩
    · obtain ⟨k, hk1, hk2, hk3, hk4⟩ := ih _ _ h
      exact ⟨k, by omega, by omega, hk3, hk4⟩

theorem toInt32_nonneg_eq (k : Nat) (hk : k < 2 ^ 32) (h : 0 ≤ toInt32 k) :
    toInt32 k = (k : Int) := by
  have h2 : k % 2 ^ 32 = k := Nat.mod_eq_of_lt hk
  unfold toInt32 at h ⊢
  rw [h2] at h ⊢
  split_ifs at h ⊢ with hlt
  · rfl
  · exfalso
    have : (k : Int) < 2 ^ 32 := by exact_mod_cast hk
    omega

/-- C6 (amended): for every text and pattern whose window positions fit in 32 bits
(`n - m < 2 ^ 32`), a result `≥ 0` of `rabin_karp_search` is an index `k` with `m ≥ 1`,
`k + m ≤ n` and `text[k .. k+m)` equal to the pattern byte for byte, whatever the rolling
hashes are; and the result depends on nothing but `text[0 .. n)` and `pat[0 .. m)`
(no position at or beyond `n` is read). -/
theorem rabin_karp_search_sound (signedChar : Bool) (text : List Nat) (n : Nat)
    (pat : List Nat) (m : Nat) (hn : n - m < 2 ^ 32)
    (hres : 0 ≤ rabin_karp_search signedChar text n pat m) :
    1 ≤ m ∧
    (∃ k : Nat, rabin_karp_search signedChar text n pat m = (k : Int) ∧ k + m ≤ n ∧
      ∀ j, j < m → text.getD (k + j) 0 = pat.getD j 0) ∧
    rabin_karp_search signedChar (text.take n) n (pat.take m) m
      = rabin_karp_search signedChar text n pat m := by
  refine ⟨?_, ?_, ?_⟩
  · by_contra hm
    rw [rabin_karp_search_early_exit signedChar text n pat m (Or.inl (by omega))] at hres
    exact absurd hres (by decide)
  · by_cases h : m = 0 ∨ n < m
    · rw [rabin_karp_search_early_exit signedChar text n pat m h] at hres
      exact absurd hres (by decide)
    · unfold rabin_karp_search at hres ⊢
      rw [if_neg h] at hres ⊢
      simp only at hres ⊢
      split_ifs at hres ⊢ with hc
      · refine ⟨0, rfl, by omega, ?_⟩
        intro j hj
        have := (memcmp_eq_zero_iff text pat m).mp hc.2 j hj
        simpa using this
      · obtain ⟨k, hk1, hk2, hk3, hk4⟩ := rk_scan_sound _ _ _ _ _ _ _ _ _ hres
        rw [hk3] at hres ⊢
        refine ⟨k, toInt32_nonneg_eq k (by omega) hres, by omega, ?_⟩
        intro j hj
        have := (memcmp_eq_zero_iff (text.drop k) pat m).mp hk4 j hj
        rw [getD_drop_add] at this
        exact this
  · apply rabin_karp_search_congr
    · intro i hi
      exact getD_take_lt text n i 0 hi
    · intro j hj
      exact getD_take_lt pat m j 0 hj

theorem rabin_karp_search_sound_witness :
    (3 : Nat) - 2 < 2 ^ 32 ∧ 0 ≤ rabin_karp_search true [97, 98, 99] 3 [98, 99] 2 ∧
    1 ≤ 2 ∧
    (∃ k : Nat, rabin_karp_search true [97, 98, 99] 3 [98, 99] 2 = (k : Int) ∧ k + 2 ≤ 3 ∧
      ∀ j, j < 2 → [97, 98, 99].getD (k + j) 0 = [98, 99].getD j 0) ∧
    rabin_karp_search true ([97, 98, 99].take 3) 3 ([98, 99].take 2) 2
      = rabin_karp_search true [97, 98, 99] 3 [98, 99] 2 :=
  ⟨by decide, by decide,
   rabin_karp_search_sound true [97, 98, 99] 3 [98, 99] 2 (by decide) (by decide)⟩

/-- On a text of `N ≥ 1` zero bytes followed by the byte `1`, the search for the one-byte
pattern `1` runs through all `N` windows and returns the cast of the index `N`. -/
theorem rk_scan_zero_run (signedChar : Bool) (text : List Nat) (N : Nat)
    (hz : ∀ j, j < N → text.getD j 0 = 0) (h1 : text.getD N 0 = 1) :
    ∀ (r i : Nat), 1 ≤ i → i + r = N →
      rk_scan signedChar text [1] 1 1 1 (r + 1) i 0 = toInt32 N := by
  have hc0 : charToU64 signedChar 0 = 0 := by cases signedChar <;> rfl
  have hc1 : charToU64 signedChar 1 = 1 := by cases signedChar <;> rfl
  intro r
  induction r with
  | zero =>
    intro i hi hN
    have hiN : i = N := by omega
    subst hiN
    unfold rk_scan
    have e1 : text.getD (i - 1) 0 = 0 := hz _ (by omega)
    have e2 : text.getD (i + 1 - 1) 0 = 1 := by
      rw [Nat.add_sub_cancel]; exact h1
    have e3 : memcmp (text.drop i) [1] 1 = 0 := by
      rw [memcmp_eq_zero_iff]
      intro j hj
      have hj0 : j = 0 := by omega
      subst hj0
      rw [getD_drop_add]
      simpa using h1
    simp only [e1, e2, e3, hc0, hc1]
    have e4 : wrap64 (wrap64 (0 + 2 ^ 64 - wrap64 (0 * 1)) * RK_BASE + 1) = 1 := by decide
    rw [e4]
    simp
  | succ r ih =>
    intro i hi hN
    unfold rk_scan
    have e1 : text.getD (i - 1) 0 = 0 := hz _ (by omega)
    have e2 : text.getD (i + 1 - 1) 0 = 0 := hz _ (by omega)
    simp only [e1, e2, hc0]
    have e4 : wrap64 (wrap64 (0 + 2 ^ 64 - wrap64 (0 * 1)) * RK_BASE + 0) = 0 := by decide
    rw [e4]
    have hne : ¬ ((0 : Nat) = 1 ∧ memcmp (text.drop i) [1] 1 = 0) := by
      intro h; exact absurd h.1 (by decide)
    rw [if_neg hne]
    exact ih (i + 1) (by omega) (by omega)

theorem rabin_karp_search_zero_run (signedChar : Bool) (text : List Nat) (N : Nat)
    (hN : 1 ≤ N) (hz : ∀ j, j < N → text.getD j 0 = 0) (h1 : text.getD N 0 = 1) :
    rabin_karp_search signedChar text (N + 1) [1] 1 = toInt32 N := by
  unfold rabin_karp_search
  rw [if_neg (by omega)]
  have ep : rk_hash [1] 1 RK_BASE = 1 := by decide
  have ew : rk_hash text 1 RK_BASE = 0 := by
    have : rk_hash text 1 RK_BASE = wrap64 (0 * RK_BASE + text.getD 0 0) := rfl
    rw [this, hz 0 (by omega)]
    decide
  have epow : rk_pow 1 = 1 := by decide
  simp only [ep, ew, epow]
  have hne : ¬ ((0 : Nat) = 1 ∧ memcmp text [1] 1 = 0) := by
    intro h; exact absurd h.1 (by decide)
  rw [if_neg hne]
  have hr : N + 1 - 1 = (N - 1) + 1 := by omega
  rw [hr]
  exact rk_scan_zero_run signedChar text N hz h1 (N - 1) 1 (le_refl 1) (by omega)

/-- C6 (counterexample): on the text of `2 ^ 32` zero bytes followed by the byte `1` and the
one-byte pattern `1`, `rabin_karp_search` returns `0` (the index `2 ^ 32` cast to `int`),
although `text[0] = 0` differs from the pattern. -/
theorem rabin_karp_search_index_wraps :
    rabin_karp_search true (List.replicate (2 ^ 32) 0 ++ [1]) (2 ^ 32 + 1) [1] 1 = 0 ∧
    (List.replicate (2 ^ 32) 0 ++ [1]).getD 0 0 ≠ [1].getD 0 0 := by
  have hz : ∀ j, j < 2 ^ 32 → (List.replicate (2 ^ 32) 0 ++ [1]).getD j 0 = 0 := by
    intro j hj
    rw [List.getD_append _ _ _ _ (by rw [List.length_replicate]; exact hj)]
    rw [List.getD_eq_getElem _ _ (by rw [List.length_replicate]; exact hj)]
    exact List.getElem_replicate _ _
  have h1 : (List.replicate (2 ^ 32) 0 ++ [1]).getD (2 ^ 32) 0 = 1 := by
    rw [List.getD_eq_getElem?_getD, List.getElem?_append_right (by rw [List.length_replicate])]
    rw [List.length_replicate, Nat.sub_self]
    rfl
  constructor
  · rw [rabin_karp_search_zero_run true _ (2 ^ 32) (by norm_num) hz h1]
    decide
  · rw [hz 0 (by norm_num)]
    decide

/-! ## The construction: arrays -/

theorem bump_length (a : List Nat) (b : Nat) : (bump a b).length = a.length := by
  simp [bump]

theorem bump_getD (a : List Nat) (b x : Nat) (hb : b < a.length) :
    (bump a b).getD x 0 = a.getD x 0 + (if b = x then 1 else 0) := by
  unfold bump
  by_cases h : b = x
  · subst h
    rw [getD_set_eq _ _ _ _ hb, if_pos rfl]
  · rw [getD_set_ne _ _ _ _ _ h, if_neg h, Nat.add_zero]

theorem bump3_getD (a : List Nat) (k : keyinfo_t) (x : Nat) (h0 : k.i0 < a.length)
    (h1 : k.i1 < a.length) (h2 : k.i2 < a.length) :
    (bump (bump (bump a k.i0) k.i1) k.i2).getD x 0 = a.getD x 0 + refs k x := by
  rw [bump_getD _ _ _ (by simpa [bump_length] using h2),
    bump_getD _ _ _ (by simpa [bump_length] using h1), bump_getD _ _ _ h0]
  unfold refs
  omega

theorem set_sum (l : List Nat) (i v : Nat) (h : i < l.length) :
    (l.set i v).sum + l.getD i 0 = l.sum + v := by
  induction l generalizing i with
  | nil => simp at h
  | cons a l ih =>
    cases i with
    | zero => simp [List.getD_eq_getElem?_getD]; omega
    | succ i =>
      have := ih i (by simpa using h)
      simp [List.getD_eq_getElem?_getD] at this ⊢
      omega

theorem bump_sum (a : List Nat) (b : Nat) (hb : b < a.length) :
    (bump a b).sum = a.sum + 1 := by
  have := set_sum a b (a.getD b 0 + 1) hb
  unfold bump
  omega

theorem append_key_mem (lists : List (List Nat)) (b i x k : Nat)
    (h : k ∈ (append_key lists b i).getD x []) :
    k ∈ lists.getD x [] ∨ (k = i ∧ x = b) := by
  unfold append_key at h
  by_cases hx : b = x
  · subst hx
    by_cases hb : b < lists.length
    · rw [getD_set_eq _ _ _ _ hb] at h
      rcases List.mem_append.mp h with h | h
      · exact Or.inl h
      · exact Or.inr ⟨by simpa using h, rfl⟩
    · rw [List.set_eq_of_length_le (by omega)] at h
      exact Or.inl h
  · rw [getD_set_ne _ _ _ _ _ hx] at h
    exact Or.inl h

theorem refs_pos_iff (k : keyinfo_t) (x : Nat) :
    1 ≤ refs k x ↔ (k.i0 = x ∨ k.i1 = x ∨ k.i2 = x) := by
  unfold refs
  by_cases h0 : k.i0 = x <;> by_cases h1 : k.i1 = x <;> by_cases h2 : k.i2 = x <;>
    simp [h0, h1, h2]

theorem refs_eq_zero_iff (k : keyinfo_t) (x : Nat) :
    refs k x = 0 ↔ (k.i0 ≠ x ∧ k.i1 ≠ x ∧ k.i2 ≠ x) := by
  unfold refs
  by_cases h0 : k.i0 = x <;> by_cases h1 : k.i1 = x <;> by_cases h2 : k.i2 = x <;>
    simp [h0, h1, h2]

/-- Every entry of a bucket list is the index of a key that references the bucket. -/
theorem fill_lists_mem (kinfo : List keyinfo_t) :
    ∀ (rest : List keyinfo_t) (i : Nat) (s : List (List Nat) × List Nat),
      kinfo.drop i = rest →
      (∀ x k, k ∈ s.1.getD x [] → k < kinfo.length ∧ 1 ≤ refs (kinfo.getD k default) x) →
      ∀ x k, k ∈ (fill_lists rest i s).1.getD x [] →
        k < kinfo.length ∧ 1 ≤ refs (kinfo.getD k default) x := by
  intro rest
  induction rest with
  | nil => intro i s _ hs; exact hs
  | cons e rest ih =>
    intro i s hdrop hs
    unfold fill_lists
    have hi : i < kinfo.length := by
      by_contra hge
      rw [List.drop_eq_nil_of_le (by omega)] at hdrop
      exact absurd hdrop (by simp)
    have he : kinfo.getD i default = e := by
      have h1 : (kinfo.drop i).getD 0 default = kinfo.getD i default := by
        rw [getD_drop_add]; rfl
      rw [← h1, hdrop]; rfl
    have hdrop' : kinfo.drop (i + 1) = rest := by
      have h2 : kinfo.drop (i + 1) = (kinfo.drop i).drop 1 := by
        rw [List.drop_drop]
      rw [h2, hdrop]; rfl
    apply ih (i + 1) _ hdrop'
    intro x k hk
    rcases append_key_mem _ _ _ _ _ hk with hk | ⟨hki, hx⟩
    · rcases append_key_mem _ _ _ _ _ hk with hk | ⟨hki, hx⟩
      · rcases append_key_mem _ _ _ _ _ hk with hk | ⟨hki, hx⟩
        · exact hs x k hk
        · subst hki; rw [he]; exact ⟨hi, (refs_pos_iff _ _).mpr (Or.inl hx.symm)⟩
      · subst hki; rw [he]; exact ⟨hi, (refs_pos_iff _ _).mpr (Or.inr (Or.inl hx.symm))⟩
    · subst hki; rw [he]; exact ⟨hi, (refs_pos_iff _ _).mpr (Or.inr (Or.inr hx.symm))⟩

/-- After the fill pass `degree[x]` has grown by the number of references to `x`; the
length of the array and the sum of its cells are as expected. -/
theorem fill_lists_degree :
    ∀ (rest : List keyinfo_t) (i : Nat) (s : List (List Nat) × List Nat),
      (∀ e ∈ rest, e.i0 < s.2.length ∧ e.i1 < s.2.length ∧ e.i2 < s.2.length) →
      (fill_lists rest i s).2.length = s.2.length ∧
      (fill_lists rest i s).2.sum = s.2.sum + 3 * rest.length ∧
      ∀ x, (fill_lists rest i s).2.getD x 0
        = s.2.getD x 0 + ∑ j in Finset.range rest.length, refs (rest.getD j default) x := by
  intro rest
  induction rest with
  | nil => intro i s _; simp [fill_lists]
  | cons e rest ih =>
    intro i s hb
    unfold fill_lists
    obtain ⟨h0, h1, h2⟩ := hb e (List.mem_cons_self _ _)
    have hlen : (bump (bump (bump s.2 e.i0) e.i1) e.i2).length = s.2.length := by
      simp [bump_length]
    obtain ⟨ih1, ih2, ih3⟩ := ih (i + 1)
      (append_key (append_key (append_key s.1 e.i0 i) e.i1 i) e.i2 i,
        bump (bump (bump s.2 e.i0) e.i1) e.i2)
      (by
        intro e' he'
        simp only [hlen]
        exact hb e' (List.mem_cons_of_mem _ he'))
    refine ⟨by rw [ih1, hlen], ?_, ?_⟩
    · rw [ih2]
      simp only
      rw [bump_sum _ _ (by simpa [bump_length] using h2),
        bump_sum _ _ (by simpa [bump_length] using h1), bump_sum _ _ h0]
      simp only [List.length_cons]
      omega
    · intro x
      rw [ih3 x]
      simp only
      rw [bump3_getD _ _ _ h0 h1 h2, List.length_cons, Finset.sum_range_succ']
      simp only [List.getD_cons_succ, List.getD_cons_zero]
      omega

/-! ## The construction: live references -/

theorem live_refs_ge (kinfo : List keyinfo_t) (removed : List Nat) (k x : Nat)
    (hk : k < kinfo.length) (hlive : removed.getD k 0 = 0) :
    refs (kinfo.getD k default) x ≤ live_refs kinfo removed x := by
  unfold live_refs
  have h := Finset.single_le_sum
    (f := fun i => if removed.getD i 0 = 0 then refs (kinfo.getD i default) x else 0)
    (s := Finset.range kinfo.length) (fun i _ => Nat.zero_le _) (Finset.mem_range.mpr hk)
  simp only [hlive, if_true] at h
  exact h

theorem live_refs_remove (kinfo : List keyinfo_t) (removed : List Nat) (k x : Nat)
    (hk : k < kinfo.length) (hlen : removed.length = kinfo.length)
    (hlive : removed.getD k 0 = 0) :
    live_refs kinfo (removed.set k 1) x + refs (kinfo.getD k default) x
      = live_refs kinfo removed x := by
  unfold live_refs
  have hmem : k ∈ Finset.range kinfo.length := Finset.mem_range.mpr hk
  rw [← Finset.add_sum_erase _ _ hmem, ← Finset.add_sum_erase _ _ hmem]
  have hk1 : (removed.set k 1).getD k 0 = 1 := getD_set_eq _ _ _ _ (by omega)
  have hrest : ∑ i in (Finset.range kinfo.length).erase k,
        (if (removed.set k 1).getD i 0 = 0 then refs (kinfo.getD i default) x else 0)
      = ∑ i in (Finset.range kinfo.length).erase k,
        (if removed.getD i 0 = 0 then refs (kinfo.getD i default) x else 0) := by
    apply Finset.sum_congr rfl
    intro i hi
    have hne : k ≠ i := fun h => (Finset.mem_erase.mp hi).1 h.symm
    rw [getD_set_ne _ _ _ _ _ hne]
  rw [hrest, hk1, if_pos hlive, if_neg (by decide)]
  omega

theorem live_refs_anti (kinfo : List keyinfo_t) (removed : List Nat) (k x : Nat)
    (hk : k < kinfo.length) (hlen : removed.length = kinfo.length)
    (hlive : removed.getD k 0 = 0) :
    live_refs kinfo (removed.set k 1) x ≤ live_refs kinfo removed x := by
  have := live_refs_remove kinfo removed k x hk hlen hlive
  omega

theorem getD_replicate_zero (n i : Nat) : (List.replicate n 0).getD i 0 = 0 := by
  by_cases h : i < n
  · rw [List.getD_eq_getElem _ _ (by simpa using h)]
    exact List.getElem_replicate _ _
  · exact List.getD_eq_default _ _ (by simpa using h)

theorem live_refs_initial (kinfo : List keyinfo_t) (n x : Nat) :
    live_refs kinfo (List.replicate n 0) x
      = ∑ j in Finset.range kinfo.length, refs (kinfo.getD j default) x := by
  unfold live_refs
  apply Finset.sum_congr rfl
  intro i _
  rw [getD_replicate_zero, if_pos rfl]

/-! ## The construction: one iteration of the peeling loop -/

theorem find_key_some (removed : List Nat) :
    ∀ (l : List Nat) (k : Nat), find_key removed l = some k →
      k ∈ l ∧ removed.getD k 0 = 0 := by
  intro l
  induction l with
  | nil => intro k h; simp [find_key] at h
  | cons a l ih =>
    intro k h
    unfold find_key at h
    split_ifs at h with ha
    · have hak : a = k := by simpa using h
      subst hak
      exact ⟨List.mem_cons_self _ _, ha⟩
    · obtain ⟨h1, h2⟩ := ih k h
      exact ⟨List.mem_cons_of_mem _ h1, h2⟩

theorem release_bucket_degree (s : List Nat × List Nat) (ob x : Nat) :
    (release_bucket s ob).1.length = s.1.length ∧
    (release_bucket s ob).1.getD x 0 = s.1.getD x 0 - (if ob = x then 1 else 0) := by
  unfold release_bucket
  by_cases hpos : 0 < s.1.getD ob 0
  · have hob : ob < s.1.length := by
      by_contra hge
      rw [List.getD_eq_default _ _ (by omega)] at hpos
      exact absurd hpos (by decide)
    rw [if_pos hpos]
    have hcell : (if (s.1.set ob (s.1.getD ob 0 - 1)).getD ob 0 = 1
          then (s.1.set ob (s.1.getD ob 0 - 1), ob :: s.2)
          else (s.1.set ob (s.1.getD ob 0 - 1), s.2)).1 = s.1.set ob (s.1.getD ob 0 - 1) := by
      split_ifs <;> rfl
    simp only [hcell]
    refine ⟨by simp, ?_⟩
    by_cases h : ob = x
    · subst h
      rw [getD_set_eq _ _ _ _ hob, if_pos rfl]
    · rw [getD_set_ne _ _ _ _ _ h, if_neg h, Nat.sub_zero]
  · rw [if_neg hpos]
    refine ⟨rfl, ?_⟩
    by_cases h : ob = x
    · subst h
      rw [if_pos rfl]
      omega
    · rw [if_neg h, Nat.sub_zero]

theorem release_fold_degree :
    ∀ (others : List Nat) (s : List Nat × List Nat) (x : Nat),
      (others.foldl release_bucket s).1.length = s.1.length ∧
      (others.foldl release_bucket s).1.getD x 0 = s.1.getD x 0 - others.count x := by
  intro others
  induction others with
  | nil => intro s x; simp
  | cons ob others ih =>
    intro s x
    rw [List.foldl_cons]
    obtain ⟨h1, h2⟩ := ih (release_bucket s ob) x
    obtain ⟨h3, h4⟩ := release_bucket_degree s ob x
    refine ⟨by rw [h1, h3], ?_⟩
    rw [h2, h4, List.count_cons]
    by_cases h : ob = x
    · simp [h]; omega
    · simp [h]

theorem count_other_buckets (k : keyinfo_t) (b x : Nat) :
    (other_buckets k b).count x = if x = b then 0 else refs k x := by
  unfold other_buckets refs
  by_cases hxb : x = b
  · subst hxb
    rw [if_pos rfl]
    apply List.count_eq_zero_of_not_mem
    intro hmem
    have := (List.mem_filter.mp hmem).2
    simp at this
  · rw [if_neg hxb]
    by_cases h0 : k.i0 = b <;> by_cases h1 : k.i1 = b <;> by_cases h2 : k.i2 = b <;>
      by_cases g0 : k.i0 = x <;> by_cases g1 : k.i1 = x <;> by_cases g2 : k.i2 = x <;>
      simp_all [List.filter, List.count_cons]

/-- One iteration of the peeling loop preserves the invariant. -/
theorem peel_iter_inv (kinfo : List keyinfo_t) (capacity : Nat) (bucket_counts : List Nat)
    (bucket_lists : List (List Nat))
    (hidx : ∀ k, k < kinfo.length → ∀ x, 1 ≤ refs (kinfo.getD k default) x → x < capacity)
    (hlists : ∀ x k, k ∈ bucket_lists.getD x [] →
      k < kinfo.length ∧ 1 ≤ refs (kinfo.getD k default) x)
    (st : peel_state) (b : Nat) (rest : List Nat) (hinv : peel_inv kinfo capacity st) :
    peel_inv kinfo capacity (peel_iter kinfo bucket_counts bucket_lists st b rest) := by
  unfold peel_iter
  by_cases hdeg : st.degree.getD b 0 ≠ 1
  · rw [if_pos hdeg]
    exact ⟨hinv.removed_length, hinv.degree_length, hinv.degree_ok, hinv.peel_removed,
      hinv.peel_dead, hinv.peel_ordered⟩
  · rw [if_neg hdeg]
    have hdeg1 : st.degree.getD b 0 = 1 := not_not.mp hdeg
    cases hfind : find_key st.key_removed
        ((bucket_lists.getD b []).take (bucket_counts.getD b 0)) with
    | none =>
      exact ⟨hinv.removed_length, hinv.degree_length, hinv.degree_ok, hinv.peel_removed,
        hinv.peel_dead, hinv.peel_ordered⟩
    | some k =>
      obtain ⟨hmem, hlive⟩ := find_key_some _ _ _ hfind
      obtain ⟨hk, hrefs⟩ := hlists b k (List.mem_of_mem_take hmem)
      have hb : b < capacity := hidx k hk b hrefs
      have hge := live_refs_ge kinfo st.key_removed k b hk hlive
      have hliveb : live_refs kinfo st.key_removed b = 1 := by
        rcases hinv.degree_ok b hb with h | ⟨h, _⟩
        · rw [← h]; exact hdeg1
        · omega
      have hrefs1 : refs (kinfo.getD k default) b = 1 := by omega
      have hrem := fun x => live_refs_remove kinfo st.key_removed k x hk
        hinv.removed_length hlive
      have hfold := fun x => release_fold_degree
        (other_buckets (kinfo.getD k default) b) (st.degree, rest) x
      have hklen : k < st.key_removed.length := by rw [hinv.removed_length]; exact hk
      refine ⟨?_, ?_, ?_, ?_, ?_, ?_⟩
      · simp [hinv.removed_length]
      · exact (hfold 0).1.trans hinv.degree_length
      · intro x hx
        simp only
        rw [(hfold x).2, count_other_buckets]
        by_cases hxb : x = b
        · subst hxb
          rw [if_pos rfl, Nat.sub_zero]
          right
          have := hrem x
          exact ⟨by omega, hdeg1⟩
        · rw [if_neg hxb]
          have h1 := hrem x
          rcases hinv.degree_ok x hx with h | ⟨h, h'⟩
          · left
            simp only at h ⊢
            omega
          · right
            have h0 : refs (kinfo.getD k default) x = 0 := by omega
            rw [h0, Nat.sub_zero]
            exact ⟨by omega, h'⟩
      · intro e he
        simp only
        rcases List.mem_cons.mp he with he | he
        · subst he
          exact ⟨hk, by rw [getD_set_eq _ _ _ _ hklen]; decide⟩
        · obtain ⟨h1, h2⟩ := hinv.peel_removed e he
          refine ⟨h1, ?_⟩
          by_cases hke : k = e.1
          · rw [← hke, getD_set_eq _ _ _ _ hklen]; decide
          · rw [getD_set_ne _ _ _ _ _ hke]; exact h2
      · intro e he
        simp only
        rcases List.mem_cons.mp he with he | he
        · subst he
          have := hrem b
          simp only
          omega
        · have h1 := hinv.peel_dead e he
          have h2 := hrem e.2
          omega
      · refine ⟨hrefs1, hb, ?_, hinv.peel_ordered⟩
        intro e he
        constructor
        · have h1 := hinv.peel_dead e he
          have h2 := live_refs_ge kinfo st.key_removed k e.2 hk hlive
          simp only at h2 ⊢
          omega
        · intro hek
          have := (hinv.peel_removed e he).2
          rw [hek] at this
          exact this hlive

theorem peel_loop_inv (kinfo : List keyinfo_t) (capacity : Nat) (bucket_counts : List Nat)
    (bucket_lists : List (List Nat))
    (hidx : ∀ k, k < kinfo.length → ∀ x, 1 ≤ refs (kinfo.getD k default) x → x < capacity)
    (hlists : ∀ x k, k ∈ bucket_lists.getD x [] →
      k < kinfo.length ∧ 1 ≤ refs (kinfo.getD k default) x) :
    ∀ (fuel : Nat) (st : peel_state), peel_inv kinfo capacity st →
      peel_inv kinfo capacity (peel_loop kinfo bucket_counts bucket_lists fuel st) := by
  intro fuel
  induction fuel with
  | zero => intro st h; exact h
  | succ fuel ih =>
    intro st h
    unfold peel_loop
    cases hs : st.bucket_stack with
    | nil => exact h
    | cons b rest =>
      exact ih _ (peel_iter_inv kinfo capacity bucket_counts bucket_lists hidx hlists st b rest h)

/-! ## The construction: termination of the peeling loop -/

theorem release_bucket_measure (s : List Nat × List Nat) (ob : Nat) :
    (release_bucket s ob).2.length + 2 * (release_bucket s ob).1.sum
      ≤ s.2.length + 2 * s.1.sum := by
  unfold release_bucket
  by_cases hpos : 0 < s.1.getD ob 0
  · have hob : ob < s.1.length := by
      by_contra hge
      rw [List.getD_eq_default _ _ (by omega)] at hpos
      exact absurd hpos (by decide)
    rw [if_pos hpos]
    have hsum := set_sum s.1 ob (s.1.getD ob 0 - 1) hob
    simp only
    split_ifs
    · simp only [List.length_cons]; omega
    · simp only; omega
  · rw [if_neg hpos]

theorem release_fold_measure :
    ∀ (others : List Nat) (s : List Nat × List Nat),
      (others.foldl release_bucket s).2.length + 2 * (others.foldl release_bucket s).1.sum
        ≤ s.2.length + 2 * s.1.sum := by
  intro others
  induction others with
  | nil => intro s; simp
  | cons ob others ih =>
    intro s
    rw [List.foldl_cons]
    exact (ih _).trans (release_bucket_measure s ob)

theorem peel_iter_measure (kinfo : List keyinfo_t) (bucket_counts : List Nat)
    (bucket_lists : List (List Nat)) (st : peel_state) (b : Nat) (rest : List Nat)
    (hs : st.bucket_stack = b :: rest) :
    peel_measure (peel_iter kinfo bucket_counts bucket_lists st b rest) + 1
      ≤ peel_measure st := by
  unfold peel_iter peel_measure
  rw [hs]
  split_ifs with hdeg
  · simp only [List.length_cons]; omega
  · cases hfind : find_key st.key_removed
        ((bucket_lists.getD b []).take (bucket_counts.getD b 0)) with
    | none => simp only [List.length_cons]; omega
    | some k =>
      have := release_fold_measure (other_buckets (kinfo.getD k default) b) (st.degree, rest)
      simp only [List.length_cons] at this ⊢
      omega

/-- With at least `peel_measure st` units of fuel the loop runs until the stack is empty. -/
theorem peel_loop_stack_empty (kinfo : List keyinfo_t) (bucket_counts : List Nat)
    (bucket_lists : List (List Nat)) :
    ∀ (fuel : Nat) (st : peel_state), peel_measure st ≤ fuel →
      (peel_loop kinfo bucket_counts bucket_lists fuel st).bucket_stack = [] := by
  intro fuel
  induction fuel with
  | zero =>
    intro st h
    unfold peel_loop
    have : st.bucket_stack.length = 0 := by unfold peel_measure at h; omega
    exact List.length_eq_zero.mp this
  | succ fuel ih =>
    intro st h
    unfold peel_loop
    cases hs : st.bucket_stack with
    | nil => exact hs
    | cons b rest =>
      apply ih
      have := peel_iter_measure kinfo bucket_counts bucket_lists st b rest hs
      omega

theorem seed_stack_length (degree : List Nat) (capacity : Nat) :
    (seed_stack degree capacity).length ≤ capacity := by
  unfold seed_stack
  induction capacity with
  | zero => simp
  | succ c ih =>
    rw [List.range_succ, List.foldl_append]
    simp only [List.foldl_cons, List.foldl_nil]
    split_ifs
    · simp only [List.length_cons]; omega
    · omega

/-! ## The construction: the state in which peeling ends -/

theorem getD_replicate_self {α : Type} (n i : Nat) (d : α) :
    (List.replicate n d).getD i d = d := by
  by_cases h : i < n
  · rw [List.getD_eq_getElem _ _ (by simpa using h)]
    exact List.getElem_replicate _ _
  · exact List.getD_eq_default _ _ (by simpa using h)

theorem wrap32_le (x : Nat) : wrap32 x ≤ x := Nat.mod_le _ _

theorem derive_hashes_lt (h capacity : Nat) (hpos : 1 ≤ capacity) :
    (derive_hashes h capacity).i0 < capacity ∧ (derive_hashes h capacity).i1 < capacity ∧
    (derive_hashes h capacity).i2 < capacity := by
  have hlt : ∀ x : Nat, wrap32 (x % capacity) < capacity := fun x =>
    lt_of_le_of_lt (wrap32_le _) (Nat.mod_lt _ (by omega))
  exact ⟨hlt _, hlt _, hlt _⟩

theorem key_infos_length (keys : List Nat) (capacity : Nat) :
    (key_infos keys capacity).length = keys.length := by
  simp [key_infos]

theorem key_infos_getD (keys : List Nat) (capacity i : Nat) (hi : i < keys.length) :
    (key_infos keys capacity).getD i default = derive_hashes (keys.getD i 0) capacity := by
  unfold key_infos
  rw [List.getD_eq_getElem _ _ (by simpa using hi), List.getD_eq_getElem _ _ hi]
  simp

theorem key_infos_lt (keys : List Nat) (capacity : Nat) (hpos : 1 ≤ capacity) :
    ∀ e ∈ key_infos keys capacity, e.i0 < capacity ∧ e.i1 < capacity ∧ e.i2 < capacity := by
  intro e he
  unfold key_infos at he
  obtain ⟨h, _, rfl⟩ := List.mem_map.mp he
  exact derive_hashes_lt h capacity hpos

theorem key_infos_refs_lt (keys : List Nat) (capacity : Nat) (hpos : 1 ≤ capacity) :
    ∀ k, k < (key_infos keys capacity).length →
      ∀ x, 1 ≤ refs ((key_infos keys capacity).getD k default) x → x < capacity := by
  intro k hk x hx
  rw [key_infos_length] at hk
  rw [key_infos_getD _ _ _ hk] at hx
  obtain ⟨h0, h1, h2⟩ := derive_hashes_lt (keys.getD k 0) capacity hpos
  rcases (refs_pos_iff _ _).mp hx with h | h | h <;> omega

theorem xor8_capacity_for_n_ge (nkeys : Nat) : 3 ≤ xor8_capacity_for_n nkeys := by
  unfold xor8_capacity_for_n
  simp only
  split_ifs <;> omega

/-- The invariant holds in the state in which the peeling loop ends. -/
theorem peel_keys_inv (keys : List Nat) (capacity : Nat) (hpos : 1 ≤ capacity) :
    peel_inv (key_infos keys capacity) capacity (peel_keys keys capacity) := by
  unfold peel_keys
  have hdeg := fill_lists_degree (key_infos keys capacity) 0
    (List.replicate capacity [], List.replicate capacity 0)
    (by simpa using key_infos_lt keys capacity hpos)
  apply peel_loop_inv _ _ _ _ (key_infos_refs_lt keys capacity hpos)
  · apply fill_lists_mem (key_infos keys capacity) (key_infos keys capacity) 0 _ rfl
    intro x k hk
    rw [getD_replicate_self] at hk
    exact absurd hk (List.not_mem_nil _)
  · refine ⟨?_, ?_, ?_, ?_, ?_, ?_⟩
    · simp [key_infos_length]
    · simpa using hdeg.1
    · intro b _
      left
      simp only
      rw [hdeg.2.2 b, live_refs_initial, getD_replicate_self, Nat.zero_add]
    · intro e he; exact absurd he (List.not_mem_nil _)
    · intro e he; exact absurd he (List.not_mem_nil _)
    · exact trivial

/-- The fuel given to the peeling loop is enough: it ends with an empty stack. -/
theorem peel_keys_stack_empty (keys : List Nat) (capacity : Nat) (hpos : 1 ≤ capacity) :
    (peel_keys keys capacity).bucket_stack = [] := by
  unfold peel_keys
  have hdeg := fill_lists_degree (key_infos keys capacity) 0
    (List.replicate capacity [], List.replicate capacity 0)
    (by simpa using key_infos_lt keys capacity hpos)
  apply peel_loop_stack_empty
  unfold peel_measure
  simp only
  have h1 := seed_stack_length
    (fill_lists (key_infos keys capacity) 0
      (List.replicate capacity [], List.replicate capacity 0)).2 capacity
  have h2 := hdeg.2.1
  have h3 : (List.replicate capacity 0).sum = 0 := by simp
  simp only [h3, key_infos_length] at h2
  omega

/-! ## The reverse replay -/

theorem assign_fingerprint_length (kinfo : List keyinfo_t) (finger : List Nat)
    (e : Nat × Nat) : (assign_fingerprint kinfo finger e).length = finger.length := by
  simp [assign_fingerprint]

theorem assign_fingerprint_frame (kinfo : List keyinfo_t) (finger : List Nat)
    (e : Nat × Nat) (x : Nat) (hx : e.2 ≠ x) :
    (assign_fingerprint kinfo finger e).getD x 0 = finger.getD x 0 := by
  unfold assign_fingerprint
  exact getD_set_ne _ _ _ _ _ hx

theorem xor_fix_first (a x y : Nat) : (a ^^^ (x ^^^ y)) ^^^ x ^^^ y = a := by
  rw [Nat.xor_assoc (a ^^^ (x ^^^ y)) x y]
  exact Nat.xor_cancel_right (x ^^^ y) a

theorem xor_fix_second (a x y : Nat) : x ^^^ (a ^^^ (x ^^^ y)) ^^^ y = a := by
  rw [Nat.xor_comm x (a ^^^ (x ^^^ y))]
  exact xor_fix_first a x y

theorem xor_fix_third (a x y : Nat) : x ^^^ y ^^^ (a ^^^ (x ^^^ y)) = a := by
  rw [Nat.xor_comm (x ^^^ y)]
  exact Nat.xor_cancel_right (x ^^^ y) a

theorem assign_cell_matches (finger : List Nat) (i0 i1 i2 fp b : Nat)
    (href : refs { i0 := i0, i1 := i1, i2 := i2, fp := fp } b = 1) (hb : b < finger.length) :
    (finger.set b (fp ^^^ (if b = i0 then finger.getD i1 0 ^^^ finger.getD i2 0
        else if b = i1 then finger.getD i0 0 ^^^ finger.getD i2 0
        else finger.getD i0 0 ^^^ finger.getD i1 0))).getD i0 0
      ^^^ (finger.set b (fp ^^^ (if b = i0 then finger.getD i1 0 ^^^ finger.getD i2 0
        else if b = i1 then finger.getD i0 0 ^^^ finger.getD i2 0
        else finger.getD i0 0 ^^^ finger.getD i1 0))).getD i1 0
      ^^^ (finger.set b (fp ^^^ (if b = i0 then finger.getD i1 0 ^^^ finger.getD i2 0
        else if b = i1 then finger.getD i0 0 ^^^ finger.getD i2 0
        else finger.getD i0 0 ^^^ finger.getD i1 0))).getD i2 0
      = fp := by
  unfold refs at href
  simp only at href
  by_cases h0 : b = i0
  · subst h0
    have h1 : b ≠ i1 := by
      intro h; rw [if_pos rfl, if_pos h.symm] at href; omega
    have h2 : b ≠ i2 := by
      intro h; rw [if_pos rfl, if_pos h.symm] at href; omega
    rw [if_pos rfl, getD_set_eq _ _ _ _ hb, getD_set_ne _ _ _ _ _ h1,
      getD_set_ne _ _ _ _ _ h2]
    exact xor_fix_first _ _ _
  · by_cases h1 : b = i1
    · subst h1
      have h2 : b ≠ i2 := by
        intro h; rw [if_pos rfl, if_pos h.symm] at href; omega
      rw [if_neg h0, if_pos rfl, getD_set_eq _ _ _ _ hb, getD_set_ne _ _ _ _ _ h0,
        getD_set_ne _ _ _ _ _ h2]
      exact xor_fix_second _ _ _
    · have h2 : b = i2 := by
        by_contra h
        rw [if_neg (Ne.symm h0), if_neg (Ne.symm h1), if_neg (Ne.symm h)] at href
        omega
      subst h2
      rw [if_neg h0, if_neg h1, getD_set_eq _ _ _ _ hb, getD_set_ne _ _ _ _ _ h0,
        getD_set_ne _ _ _ _ _ h1]
      exact xor_fix_third _ _ _

/-- Assigning the bucket of a pair makes the fingerprint equation of its key hold, provided
the key references that bucket exactly once. -/
theorem assign_fingerprint_matches (kinfo : List keyinfo_t) (finger : List Nat)
    (e : Nat × Nat) (href : refs (kinfo.getD e.1 default) e.2 = 1)
    (hb : e.2 < finger.length) :
    key_matches (assign_fingerprint kinfo finger e) (kinfo.getD e.1 default) := by
  unfold key_matches assign_fingerprint
  exact assign_cell_matches finger _ _ _ _ e.2 href hb

theorem replay_length (kinfo : List keyinfo_t) :
    ∀ (l : List (Nat × Nat)) (finger : List Nat),
      (l.foldl (assign_fingerprint kinfo) finger).length = finger.length := by
  intro l
  induction l with
  | nil => intro finger; rfl
  | cons e l ih =>
    intro finger
    rw [List.foldl_cons, ih, assign_fingerprint_length]

theorem replay_frame (kinfo : List keyinfo_t) (x : Nat) :
    ∀ (l : List (Nat × Nat)) (finger : List Nat), (∀ e ∈ l, e.2 ≠ x) →
      (l.foldl (assign_fingerprint kinfo) finger).getD x 0 = finger.getD x 0 := by
  intro l
  induction l with
  | nil => intro finger _; rfl
  | cons e l ih =>
    intro finger h
    rw [List.foldl_cons, ih _ (fun e' he' => h e' (List.mem_cons_of_mem _ he')),
      assign_fingerprint_frame _ _ _ _ (h e (List.mem_cons_self _ _))]

/-- After the replay of a well-formed peel order every key of the order satisfies its
fingerprint equation. -/
theorem replay_matches (kinfo : List keyinfo_t) (capacity : Nat) :
    ∀ (l : List (Nat × Nat)) (finger : List Nat), peel_order_ok kinfo capacity l →
      finger.length = capacity →
      ∀ e ∈ l, key_matches (l.foldl (assign_fingerprint kinfo) finger)
        (kinfo.getD e.1 default) := by
  intro l
  induction l with
  | nil => intro finger _ _ e he; exact absurd he (List.not_mem_nil _)
  | cons e l ih =>
    intro finger hok hlen e' he'
    obtain ⟨href, hb, hfree, hrest⟩ := hok
    rw [List.foldl_cons]
    rcases List.mem_cons.mp he' with he' | he'
    · subst he'
      have hm := assign_fingerprint_matches kinfo finger e' href (by omega)
      unfold key_matches at hm ⊢
      have hfr : ∀ x, 1 ≤ refs (kinfo.getD e'.1 default) x →
          (l.foldl (assign_fingerprint kinfo) (assign_fingerprint kinfo finger e')).getD x 0
            = (assign_fingerprint kinfo finger e').getD x 0 := by
        intro x hx
        apply replay_frame
        intro e'' he'' heq
        have := (hfree e'' he'').1
        rw [heq] at this
        omega
      rw [hfr _ ((refs_pos_iff _ _).mpr (Or.inl rfl)),
        hfr _ ((refs_pos_iff _ _).mpr (Or.inr (Or.inl rfl))),
        hfr _ ((refs_pos_iff _ _).mpr (Or.inr (Or.inr rfl)))]
      exact hm
    · exact ih _ hrest (by rw [assign_fingerprint_length]; exact hlen) e' he'

theorem peel_order_nodup (kinfo : List keyinfo_t) (capacity : Nat) :
    ∀ l : List (Nat × Nat), peel_order_ok kinfo capacity l → (l.map Prod.fst).Nodup := by
  intro l
  induction l with
  | nil => intro _; exact List.nodup_nil
  | cons e l ih =>
    intro hok
    obtain ⟨_, _, hfree, hrest⟩ := hok
    rw [List.map_cons, List.nodup_cons]
    refine ⟨?_, ih hrest⟩
    intro hmem
    obtain ⟨e', he', heq⟩ := List.mem_map.mp hmem
    exact (hfree e' he').2 heq

theorem nodup_cover (l : List Nat) (n : Nat) (hnd : l.Nodup) (hlt : ∀ x ∈ l, x < n)
    (hlen : l.length = n) : ∀ i, i < n → i ∈ l := by
  intro i hi
  have hsub : l.toFinset ⊆ Finset.range n := by
    intro x hx
    exact Finset.mem_range.mpr (hlt x (List.mem_toFinset.mp hx))
  have hcard : (Finset.range n).card ≤ l.toFinset.card := by
    rw [List.toFinset_card_of_nodup hnd, Finset.card_range, hlen]
  have heq := Finset.eq_of_subset_of_card_le hsub hcard
  have : i ∈ l.toFinset := by rw [heq]; exact Finset.mem_range.mpr hi
  exact List.mem_toFinset.mp this

/-- When the peel order has as many pairs as there are keys, every key occurs in it. -/
theorem peel_keys_cover (keys : List Nat) (capacity : Nat) (hpos : 1 ≤ capacity)
    (hfull : (peel_keys keys capacity).peel.length = keys.length) :
    ∀ i, i < keys.length → ∃ e ∈ (peel_keys keys capacity).peel, e.1 = i := by
  intro i hi
  have hinv := peel_keys_inv keys capacity hpos
  have hmem := nodup_cover ((peel_keys keys capacity).peel.map Prod.fst) keys.length
    (peel_order_nodup _ _ _ hinv.peel_ordered)
    (by
      intro x hx
      obtain ⟨e, he, rfl⟩ := List.mem_map.mp hx
      have := (hinv.peel_removed e he).1
      rwa [key_infos_length] at this)
    (by rw [List.length_map]; exact hfull) i hi
  obtain ⟨e, he, heq⟩ := List.mem_map.mp hmem
  exact ⟨e, he, heq⟩

/-- The replay loop run for `count` indices takes the last `count` entries of the
newest-first peel list, front to back. -/
theorem reverse_assign_loop_eq (kinfo : List keyinfo_t) (peel : List (Nat × Nat)) :
    ∀ (count : Nat) (finger : List Nat), count ≤ peel.length →
      reverse_assign_loop kinfo peel count finger
        = (peel.drop (peel.length - count)).foldl (assign_fingerprint kinfo) finger := by
  intro count
  induction count with
  | zero =>
    intro finger _
    simp [reverse_assign_loop]
  | succ c ih =>
    intro finger hc
    have hlt : peel.length - (c + 1) < peel.length := by omega
    have hdrop : peel.drop (peel.length - (c + 1))
        = peel.getD (peel.length - 1 - c) default :: peel.drop (peel.length - c) := by
      rw [List.drop_eq_getElem_cons hlt]
      have h1 : peel.length - (c + 1) = peel.length - 1 - c := by omega
      have h2 : peel.length - (c + 1) + 1 = peel.length - c := by omega
      rw [h2, List.getD_eq_getElem _ _ (by omega)]
      simp only [h1]
    rw [reverse_assign_loop, ih _ (by omega), hdrop, List.foldl_cons]

/-- Below `2 ^ 31` peeled keys the `int` index of the replay loop is exact: the loop
replays the whole peel order, newest pair first. -/
theorem reverse_assign_eq_foldl (kinfo : List keyinfo_t) (peel : List (Nat × Nat))
    (finger : List Nat) (hsz : peel.length < 2 ^ 31) :
    reverse_assign kinfo peel finger = peel.foldl (assign_fingerprint kinfo) finger := by
  unfold reverse_assign
  simp only
  rw [toInt32_of_lt _ hsz]
  by_cases h0 : peel.length = 0
  · have hnil : peel = [] := List.length_eq_zero.mp h0
    subst hnil
    simp
  · have hge : ¬ ((peel.length : Int) - 1 < 0) := by omega
    rw [if_neg hge]
    have hk : ((peel.length : Int) - 1).toNat + 1 = peel.length := by omega
    rw [hk, reverse_assign_loop_eq kinfo peel peel.length finger (le_refl _)]
    simp

/-- The outcome of `xor8_populate_from_keys` on a non-empty key array: success exactly when
every key was peeled, and then the filter holds the array left by the replay loop. -/
theorem xor8_populate_success (xf : xor8_t) (keys : List Nat) (hn : 1 ≤ keys.length)
    (hok : (xor8_populate_from_keys xf keys).1 = 1) :
    (peel_keys keys (xor8_capacity_for_n keys.length)).peel.length = keys.length ∧
    (xor8_populate_from_keys xf keys).2 =
      { capacity := xor8_capacity_for_n keys.length
        finger := reverse_assign (key_infos keys (xor8_capacity_for_n keys.length))
          (peel_keys keys (xor8_capacity_for_n keys.length)).peel
          (List.replicate (xor8_capacity_for_n keys.length) 0) } := by
  unfold xor8_populate_from_keys at hok ⊢
  rw [if_neg (by omega)] at hok ⊢
  by_cases hp : (peel_keys keys (xor8_capacity_for_n keys.length)).peel.length ≠ keys.length
  · simp [hp] at hok
  · simp only [hp, if_false]
    exact ⟨not_not.mp hp, rfl⟩

/-- After a successful build of fewer than `2 ^ 31` keys every key satisfies its fingerprint
equation in the array. -/
theorem xor8_populate_matches (xf : xor8_t) (keys : List Nat) (hn : 1 ≤ keys.length)
    (hsz : keys.length < 2 ^ 31)
    (hok : (xor8_populate_from_keys xf keys).1 = 1) (i : Nat) (hi : i < keys.length) :
    (xor8_populate_from_keys xf keys).2.capacity = xor8_capacity_for_n keys.length ∧
    key_matches (xor8_populate_from_keys xf keys).2.finger
      (derive_hashes (keys.getD i 0) (xor8_capacity_for_n keys.length)) := by
  obtain ⟨hfull, hres⟩ := xor8_populate_success xf keys hn hok
  have hpos : 1 ≤ xor8_capacity_for_n keys.length := by
    have := xor8_capacity_for_n_ge keys.length; omega
  have hinv := peel_keys_inv keys _ hpos
  obtain ⟨e, he, hei⟩ := peel_keys_cover keys _ hpos hfull i hi
  have hm := replay_matches _ _ _ (List.replicate (xor8_capacity_for_n keys.length) 0)
    hinv.peel_ordered (by simp) e he
  rw [hei, key_infos_getD _ _ _ hi] at hm
  rw [hres, reverse_assign_eq_foldl _ _ _ (by rw [hfull]; exact hsz)]
  exact ⟨rfl, hm⟩

theorem fnv1a_64_congr (s t : List Nat) (m : Nat)
    (h : ∀ j, j < m → s.getD j 0 = t.getD j 0) : fnv1a_64 s m = fnv1a_64 t m :=
  foldl_range_congr (fun a x => wrap64 ((a ^^^ x) * FNV_PRIME)) s t m FNV_OFFSET h

theorem build_substring_keys_getD (text : List Nat) (text_len m i : Nat)
    (hsize : text_len - m + 1 < 2 ^ 32) (hi : i + m ≤ text_len) :
    i < (build_substring_keys text text_len m).length ∧
    (build_substring_keys text text_len m).getD i 0 = fnv1a_64 (text.drop i) m := by
  unfold build_substring_keys
  rw [if_neg (by omega)]
  have hw : wrap32 (text_len - m + 1) = text_len - m + 1 := Nat.mod_eq_of_lt hsize
  rw [hw]
  have hlt : i < text_len - m + 1 := by omega
  refine ⟨by simpa using hlt, ?_⟩
  rw [List.getD_eq_getElem _ _ (by simpa using hlt)]
  simp

/-- On a non-empty key array the outcome does not depend on the filter passed in. -/
theorem xor8_populate_indep (xf xf' : xor8_t) (keys : List Nat) (hn : 1 ≤ keys.length) :
    xor8_populate_from_keys xf keys = xor8_populate_from_keys xf' keys := by
  have h0 : ¬ keys.length = 0 := by omega
  simp only [xor8_populate_from_keys, h0, if_false, xor8_init, xor8_free]

theorem xor8_populate_fst (xf : xor8_t) (keys : List Nat) :
    (xor8_populate_from_keys xf keys).1 = 1 ∨ (xor8_populate_from_keys xf keys).1 = 0 := by
  unfold xor8_populate_from_keys
  simp only
  split_ifs <;> simp

/-- A successful `xor8_build_with_retries` leaves the filter of a successful single call. -/
theorem build_attempts_success (keys : List Nat) (hn : 1 ≤ keys.length) :
    ∀ (attempts : Nat) (xf : xor8_t), (build_attempts keys attempts xf).1 = 1 →
      (xor8_populate_from_keys xf keys).1 = 1 ∧
      (build_attempts keys attempts xf).2 = (xor8_populate_from_keys xf keys).2 := by
  intro attempts
  induction attempts with
  | zero => intro xf h; simp [build_attempts] at h
  | succ a ih =>
    intro xf h
    unfold build_attempts at h ⊢
    by_cases hp : (xor8_populate_from_keys xf keys).1 ≠ 0
    · rw [if_pos hp]
      rcases xor8_populate_fst xf keys with h1 | h0
      · exact ⟨h1, rfl⟩
      · exact absurd h0 hp
    · rw [if_neg hp] at h
      obtain ⟨h1, _⟩ := ih _ h
      rw [xor8_populate_indep _ xf keys hn] at h1
      exact absurd (not_not.mp hp) (by omega)

/-- The filter stage of the pipeline has no false negative on a text with fewer than
`2 ^ 31` windows: when the filter is built over the windows of length `m` of the text and the
pattern occurs at position `i`, the query on the hash of the pattern answers `1`. -/
theorem pipeline_filter_hit (xf : xor8_t) (text : List Nat) (text_len : Nat)
    (pat : List Nat) (m i : Nat) (hsize : text_len - m + 1 < 2 ^ 31)
    (hbuild : (xor8_build_with_retries xf (build_substring_keys text text_len m)).1 = 1)
    (hi : i + m ≤ text_len) (hocc : ∀ j, j < m → text.getD (i + j) 0 = pat.getD j 0) :
    xor8_contains_hash
      (some (xor8_build_with_retries xf (build_substring_keys text text_len m)).2)
      (fnv1a_64 pat m) = 1 := by
  obtain ⟨hlt, hkey⟩ := build_substring_keys_getD text text_len m i (by omega) hi
  have hn : 1 ≤ (build_substring_keys text text_len m).length := by omega
  have hsz : (build_substring_keys text text_len m).length < 2 ^ 31 := by
    unfold build_substring_keys
    rw [if_neg (by omega), List.length_map, List.length_range]
    exact lt_of_le_of_lt (Nat.mod_le _ _) hsize
  obtain ⟨hok, hres⟩ := build_attempts_success _ hn 5 xf hbuild
  have hpat : fnv1a_64 pat m = (build_substring_keys text text_len m).getD i 0 := by
    rw [hkey]
    apply fnv1a_64_congr
    intro j hj
    rw [getD_drop_add]
    exact (hocc j hj).symm
  obtain ⟨hcap, hm⟩ := xor8_populate_matches xf _ hn hsz hok i hlt
  have hge := xor8_capacity_for_n_ge (build_substring_keys text text_len m).length
  unfold xor8_build_with_retries
  rw [hres, hpat]
  unfold xor8_contains_hash
  unfold key_matches at hm
  simp only [hcap]
  rw [if_neg (by omega), if_pos hm]

/-- C3 (evaluation): on the 6-byte text `80 'q' 'u' 'i' 'c' 'k'` and the pattern `quick`
(`m = 5`), with a signed plain `char`: the filter over the 2 window hashes is built, the
pattern occurs at index 1, the filter query answers `1`, and `rabin_karp_search` returns
`-1`, so the pipeline reports a false positive for a pattern that is in the text. -/
theorem pipeline_misses_after_high_byte :
    (xor8_build_with_retries { capacity := 0, finger := [] }
      (build_substring_keys [0x80, 113, 117, 105, 99, 107] 6 5)).1 = 1 ∧
    (∀ j, j < 5 →
      [0x80, 113, 117, 105, 99, 107].getD (1 + j) 0 = [113, 117, 105, 99, 107].getD j 0) ∧
    xor8_contains_hash
      (some (xor8_build_with_retries { capacity := 0, finger := [] }
        (build_substring_keys [0x80, 113, 117, 105, 99, 107] 6 5)).2)
      (fnv1a_64 [113, 117, 105, 99, 107] 5) = 1 ∧
    rabin_karp_search true [0x80, 113, 117, 105, 99, 107] 6 [113, 117, 105, 99, 107] 5 = -1 := by
  refine ⟨by decide, by decide, by decide, by decide⟩

/-- The first scenario of the specification: on the text `the quick brown fox` the filter is
built over 15 window hashes, the query for `quick` answers `1`, and the exact matcher
confirms the pattern at index 4 (for either signedness of `char`). -/
theorem pipeline_quick_brown_fox :
    (build_substring_keys [116, 104, 101, 32, 113, 117, 105, 99, 107, 32, 98, 114, 111, 119,
      110, 32, 102, 111, 120] 19 5).length = 15 ∧
    (xor8_build_with_retries { capacity := 0, finger := [] }
      (build_substring_keys [116, 104, 101, 32, 113, 117, 105, 99, 107, 32, 98, 114, 111, 119,
        110, 32, 102, 111, 120] 19 5)).1 = 1 ∧
    xor8_contains_hash
      (some (xor8_build_with_retries { capacity := 0, finger := [] }
        (build_substring_keys [116, 104, 101, 32, 113, 117, 105, 99, 107, 32, 98, 114, 111,
          119, 110, 32, 102, 111, 120] 19 5)).2)
      (fnv1a_64 [113, 117, 105, 99, 107] 5) = 1 ∧
    rabin_karp_search true [116, 104, 101, 32, 113, 117, 105, 99, 107, 32, 98, 114, 111, 119,
      110, 32, 102, 111, 120] 19 [113, 117, 105, 99, 107] 5 = 4 ∧
    rabin_karp_search false [116, 104, 101, 32, 113, 117, 105, 99, 107, 32, 98, 114, 111, 119,
      110, 32, 102, 111, 120] 19 [113, 117, 105, 99, 107] 5 = 4 := by
  refine ⟨by rfl, by rfl, by rfl, by rfl, by rfl⟩

/-! ## The rolling hash when text bytes convert without sign extension -/

theorem wrap64_lt (x : Nat) : wrap64 x < 2 ^ 64 := Nat.mod_lt _ (by norm_num)

theorem cast_wrap64 (x : Nat) : ((wrap64 x : Nat) : ZMod (2 ^ 64)) = (x : ZMod (2 ^ 64)) := by
  unfold wrap64
  exact ZMod.natCast_mod x (2 ^ 64)

theorem eq_of_cast_eq (a b : Nat) (ha : a < 2 ^ 64) (hb : b < 2 ^ 64)
    (h : (a : ZMod (2 ^ 64)) = (b : ZMod (2 ^ 64))) : a = b := by
  have := (ZMod.natCast_eq_natCast_iff' a b (2 ^ 64)).mp h
  rwa [Nat.mod_eq_of_lt ha, Nat.mod_eq_of_lt hb] at this

theorem rk_hash_succ (s : List Nat) (m base : Nat) :
    rk_hash s (m + 1) base = wrap64 (rk_hash s m base * base + s.getD m 0) := by
  unfold rk_hash
  rw [List.range_succ, List.foldl_append]
  rfl

theorem rk_hash_lt (s : List Nat) (m base : Nat) : rk_hash s m base < 2 ^ 64 := by
  cases m with
  | zero => simp [rk_hash]
  | succ m => rw [rk_hash_succ]; exact wrap64_lt _

/-- The hash of `s[0 .. m+1)` splits into the weighted first byte and the hash of the
following `m` bytes. -/
theorem cast_rk_hash_head (s : List Nat) (base : Nat) :
    ∀ m : Nat, ((rk_hash s (m + 1) base : Nat) : ZMod (2 ^ 64))
      = (s.getD 0 0 : ZMod (2 ^ 64)) * (base : ZMod (2 ^ 64)) ^ m
        + ((rk_hash (s.drop 1) m base : Nat) : ZMod (2 ^ 64)) := by
  intro m
  induction m with
  | zero =>
    rw [rk_hash_succ, cast_wrap64]
    simp [rk_hash]
  | succ m ih =>
    rw [rk_hash_succ, cast_wrap64, rk_hash_succ (s.drop 1), cast_wrap64]
    push_cast
    rw [ih, getD_drop_add, Nat.add_comm 1 m]
    ring

theorem cast_rk_pow (m : Nat) :
    ((rk_pow m : Nat) : ZMod (2 ^ 64)) = (RK_BASE : ZMod (2 ^ 64)) ^ (m - 1) := by
  unfold rk_pow
  generalize m - 1 = k
  induction k with
  | zero => simp
  | succ k ih =>
    rw [List.range_succ, List.foldl_append]
    simp only [List.foldl_cons, List.foldl_nil]
    rw [cast_wrap64]
    push_cast
    rw [ih]
    ring

/-- Wrapping subtraction `w - y` on `u64` values. -/
theorem cast_wrap_sub (w y : Nat) :
    ((wrap64 (w + 2 ^ 64 - wrap64 y) : Nat) : ZMod (2 ^ 64))
      = (w : ZMod (2 ^ 64)) - (y : ZMod (2 ^ 64)) := by
  have hle : wrap64 y ≤ w + 2 ^ 64 := le_trans (le_of_lt (wrap64_lt _)) (Nat.le_add_left _ _)
  rw [cast_wrap64, Nat.cast_sub hle, Nat.cast_add, cast_wrap64, ZMod.natCast_self, add_zero]

/-- The rolling update of lines 112-113, applied to the hash of `s[0 .. m)` with the bytes
`s[0]` and `s[m]` taken unsigned, gives the hash of `s[1 .. m+1)`. -/
theorem rk_roll (s : List Nat) (m : Nat) (hm : 1 ≤ m) :
    wrap64 (wrap64 (rk_hash s m RK_BASE + 2 ^ 64 - wrap64 (s.getD 0 0 * rk_pow m)) * RK_BASE
        + s.getD m 0)
      = rk_hash (s.drop 1) m RK_BASE := by
  obtain ⟨k, rfl⟩ : ∃ k, m = k + 1 := ⟨m - 1, by omega⟩
  apply eq_of_cast_eq _ _ (wrap64_lt _) (rk_hash_lt _ _ _)
  rw [cast_wrap64, rk_hash_succ (s.drop 1), cast_wrap64, Nat.cast_add, Nat.cast_mul,
    cast_wrap_sub, Nat.cast_add, Nat.cast_mul, Nat.cast_mul, cast_rk_hash_head, cast_rk_pow,
    getD_drop_add, Nat.add_comm 1 k, Nat.add_sub_cancel]
  ring

theorem drop_pred_drop_one (text : List Nat) (i : Nat) (hi : 1 ≤ i) :
    (text.drop (i - 1)).drop 1 = text.drop i := by
  rw [List.drop_drop]
  congr 1
  omega

/-- When the bytes of the text convert to `u64` unchanged, the sliding loop started with the
hash of the window before `i` is the brute-force scan from `i`. -/
theorem rk_scan_eq_brute (signedChar : Bool) (text pat : List Nat) (m : Nat) (hm : 1 ≤ m)
    (hconv : ∀ j, charToU64 signedChar (text.getD j 0) = text.getD j 0) :
    ∀ (r i : Nat), 1 ≤ i →
      rk_scan signedChar text pat m (rk_hash pat m RK_BASE) (rk_pow m) r i
          (rk_hash (text.drop (i - 1)) m RK_BASE)
        = rabin_karp_from text pat m r i := by
  intro r
  induction r with
  | zero => intro i _; rfl
  | succ r ih =>
    intro i hi
    unfold rk_scan rabin_karp_from
    have hroll := rk_roll (text.drop (i - 1)) m hm
    rw [getD_drop_add, getD_drop_add, drop_pred_drop_one text i hi] at hroll
    have e1 : i - 1 + 0 = i - 1 := rfl
    have e2 : i - 1 + m = i + m - 1 := by omega
    rw [e1, e2] at hroll
    simp only [hconv, hroll]
    by_cases hc : memcmp (text.drop i) pat m = 0
    · have hh : rk_hash (text.drop i) m RK_BASE = rk_hash pat m RK_BASE :=
        rk_hash_congr _ _ _ _ ((memcmp_eq_zero_iff _ _ _).mp hc)
      rw [if_pos ⟨hh, hc⟩, if_pos hc]
    · rw [if_neg (fun h => hc h.2), if_neg hc]
      have := ih (i + 1) (by omega)
      rw [Nat.add_sub_cancel] at this
      exact this

/-- Rolling-hash exactness where no sign extension occurs (plain `char` unsigned, or all
text bytes below 128): for a non-empty pattern `rabin_karp_search` returns what the
brute-force scan `rabin_karp` of `updatedxor.c` returns. -/
theorem rabin_karp_search_eq_brute (signedChar : Bool) (text pat : List Nat)
    (hpat : pat ≠ [])
    (hconv : ∀ j, charToU64 signedChar (text.getD j 0) = text.getD j 0) :
    rabin_karp_search signedChar text text.length pat pat.length = rabin_karp text pat := by
  have hm : 1 ≤ pat.length := by
    cases pat with
    | nil => exact absurd rfl hpat
    | cons a l => simp
  unfold rabin_karp_search rabin_karp
  by_cases hlen : text.length < pat.length
  · rw [if_pos (Or.inr hlen)]
    have : text.length + 1 - pat.length = 0 := by omega
    rw [this]
    rfl
  · rw [if_neg (by omega)]
    have hr : text.length + 1 - pat.length = (text.length - pat.length) + 1 := by omega
    rw [hr]
    unfold rabin_karp_from
    simp only [List.drop_zero]
    by_cases hc : memcmp text pat pat.length = 0
    · have hh : rk_hash text pat.length RK_BASE = rk_hash pat pat.length RK_BASE :=
        rk_hash_congr _ _ _ _ ((memcmp_eq_zero_iff _ _ _).mp hc)
      rw [if_pos ⟨hh, hc⟩, if_pos hc]
      rfl
    · rw [if_neg (fun h => hc h.2), if_neg hc]
      have := rk_scan_eq_brute signedChar text pat pat.length hm hconv
        (text.length - pat.length) 1 (le_refl 1)
      simpa using this

/-- The brute-force scan returns the cast of the lowest matching position among those it
visits, and `-1` when there is none. -/
theorem rabin_karp_from_spec (txt pat : List Nat) (m : Nat) :
    ∀ (r i : Nat),
      (∃ k, i ≤ k ∧ k < i + r ∧ memcmp (txt.drop k) pat m = 0 ∧
          (∀ k', i ≤ k' → k' < k → memcmp (txt.drop k') pat m ≠ 0) ∧
          rabin_karp_from txt pat m r i = toInt32 k) ∨
      ((∀ k, i ≤ k → k < i + r → memcmp (txt.drop k) pat m ≠ 0) ∧
          rabin_karp_from txt pat m r i = -1) := by
  intro r
  induction r with
  | zero =>
    intro i
    right
    exact ⟨fun k h1 h2 => absurd h2 (by omega), rfl⟩
  | succ r ih =>
    intro i
    unfold rabin_karp_from
    by_cases hc : memcmp (txt.drop i) pat m = 0
    · left
      rw [if_pos hc]
      exact ⟨i, le_refl i, by omega, hc, fun k' h1 h2 => absurd h2 (by omega), rfl⟩
    · rw [if_neg hc]
      rcases ih (i + 1) with ⟨k, h1, h2, h3, h4, h5⟩ | ⟨h1, h2⟩
      · left
        refine ⟨k, by omega, by omega, h3, ?_, h5⟩
        intro k' hk1 hk2
        by_cases hk : k' = i
        · rw [hk]; exact hc
        · exact h4 k' (by omega) hk2
      · right
        refine ⟨?_, h2⟩
        intro k hk1 hk2
        by_cases hk : k = i
        · rw [hk]; exact hc
        · exact h1 k (by omega) (by omega)

/-- Rolling-hash exactness where no sign extension occurs, in the words of the
specification: for a text of fewer than `2 ^ 31` bytes and a non-empty pattern,
`rabin_karp_search` returns the lowest position at which the pattern occurs, and `-1` when
it occurs nowhere. -/
theorem rabin_karp_search_lowest (signedChar : Bool) (text pat : List Nat) (hpat : pat ≠ [])
    (hconv : ∀ j, charToU64 signedChar (text.getD j 0) = text.getD j 0)
    (hn : text.length < 2 ^ 31) :
    (∃ k : Nat, k + pat.length ≤ text.length ∧
        (∀ j, j < pat.length → text.getD (k + j) 0 = pat.getD j 0) ∧
        (∀ k', k' < k → ¬ ∀ j, j < pat.length → text.getD (k' + j) 0 = pat.getD j 0) ∧
        rabin_karp_search signedChar text text.length pat pat.length = (k : Int)) ∨
    ((∀ k, k + pat.length ≤ text.length →
        ¬ ∀ j, j < pat.length → text.getD (k + j) 0 = pat.getD j 0) ∧
      rabin_karp_search signedChar text text.length pat pat.length = -1) := by
  have hiff : ∀ k, memcmp (text.drop k) pat pat.length = 0 ↔
      ∀ j, j < pat.length → text.getD (k + j) 0 = pat.getD j 0 := by
    intro k
    rw [memcmp_eq_zero_iff]
    constructor
    · intro h j hj
      have := h j hj
      rwa [getD_drop_add] at this
    · intro h j hj
      rw [getD_drop_add]
      exact h j hj
  rw [rabin_karp_search_eq_brute signedChar text pat hpat hconv]
  unfold rabin_karp
  rcases rabin_karp_from_spec text pat pat.length (text.length + 1 - pat.length) 0 with
    ⟨k, _, h2, h3, h4, h5⟩ | ⟨h1, h2⟩
  · left
    refine ⟨k, by omega, (hiff k).mp h3, ?_, ?_⟩
    · intro k' hk' hmatch
      exact h4 k' (Nat.zero_le _) hk' ((hiff k').mpr hmatch)
    · rw [h5]
      exact toInt32_of_lt k (by omega)
  · right
    refine ⟨?_, h2⟩
    intro k hk hmatch
    exact h1 k (Nat.zero_le _) (by omega) ((hiff k).mpr hmatch)

/-! ## The rolling hash under sign extension -/

/-- C2 (evaluation): with a signed plain `char`, on the text `80 61` (hex) and the pattern
`61`, `rabin_karp_search` returns `-1` although the brute-force scan `rabin_karp` finds the
pattern at index `1`. -/
theorem rabin_karp_search_misses_after_high_byte :
    rabin_karp_search true [0x80, 0x61] 2 [0x61] 1 = -1 ∧
    rabin_karp [0x80, 0x61] [0x61] = 1 := by
  decide

/-! ## Claims about the key array and the retry loop -/

theorem fnv1a_64_take (s : List Nat) (m : Nat) : fnv1a_64 (s.take m) m = fnv1a_64 s m :=
  fnv1a_64_congr _ _ _ (fun j hj => getD_take_lt s m j 0 hj)

/-- C11 (amended): for every text and window length with `text_len - m + 1 < 2 ^ 32` (the
range of the `u32` key count): when `m ≤ text_len`, `build_substring_keys` produces exactly
`text_len - m + 1` keys and `keys[i]` is `fnv1a_64` of `text[i .. i+m)` for every
`i ≤ text_len - m`; when `text_len < m` it produces no key. -/
theorem build_substring_keys_spec (text : List Nat) (text_len m : Nat)
    (hsize : text_len - m + 1 < 2 ^ 32) :
    (m ≤ text_len →
      (build_substring_keys text text_len m).length = text_len - m + 1 ∧
      ∀ i, i ≤ text_len - m →
        (build_substring_keys text text_len m).getD i 0
          = fnv1a_64 ((text.drop i).take m) m) ∧
    (text_len < m → build_substring_keys text text_len m = []) := by
  constructor
  · intro hm
    constructor
    · unfold build_substring_keys
      rw [if_neg (by omega), List.length_map, List.length_range]
      exact Nat.mod_eq_of_lt hsize
    · intro i hi
      rw [(build_substring_keys_getD text text_len m i hsize (by omega)).2, fnv1a_64_take]
  · intro hlt
    unfold build_substring_keys
    rw [if_pos hlt]

theorem build_substring_keys_spec_witness :
    (19 : Nat) - 5 + 1 < 2 ^ 32 ∧
    (build_substring_keys [116, 104, 101, 32, 113, 117, 105, 99, 107, 32, 98, 114, 111, 119,
      110, 32, 102, 111, 120] 19 5).length = 15 ∧
    (build_substring_keys [116, 104, 101, 32, 113, 117, 105, 99, 107, 32, 98, 114, 111, 119,
      110, 32, 102, 111, 120] 19 5).getD 4 0 = fnv1a_64 [113, 117, 105, 99, 107] 5 ∧
    build_substring_keys [97, 98] 2 3 = [] :=
  ⟨by decide,
   ((build_substring_keys_spec [116, 104, 101, 32, 113, 117, 105, 99, 107, 32, 98, 114, 111,
      119, 110, 32, 102, 111, 120] 19 5 (by decide)).1 (by decide)).1,
   ((build_substring_keys_spec [116, 104, 101, 32, 113, 117, 105, 99, 107, 32, 98, 114, 111,
      119, 110, 32, 102, 111, 120] 19 5 (by decide)).1 (by decide)).2 4 (by decide),
   (build_substring_keys_spec [97, 98] 2 3 (by decide)).2 (by decide)⟩

/-- C11 (counterexample): for a text of `2 ^ 32` bytes and `m = 1` the key count
`text_len - m + 1 = 2 ^ 32` is cast to `u32`, and `build_substring_keys` produces no key
at all instead of `2 ^ 32` keys. -/
theorem build_substring_keys_count_wraps :
    1 ≤ 2 ^ 32 ∧
    (build_substring_keys (List.replicate (2 ^ 32) 0) (2 ^ 32) 1).length = 0 ∧
    (build_substring_keys (List.replicate (2 ^ 32) 0) (2 ^ 32) 1).length ≠ 2 ^ 32 - 1 + 1 := by
  have h : (build_substring_keys (List.replicate (2 ^ 32) 0) (2 ^ 32) 1).length = 0 := by
    unfold build_substring_keys
    rw [if_neg (by norm_num), List.length_map, List.length_range]
    decide
  refine ⟨by norm_num, h, ?_⟩
  rw [h]
  norm_num

theorem xor8_populate_failure (xf : xor8_t) (keys : List Nat)
    (hfail : (xor8_populate_from_keys xf keys).1 ≠ 1) :
    1 ≤ keys.length ∧
    (peel_keys keys (xor8_capacity_for_n keys.length)).peel.length ≠ keys.length ∧
    xor8_populate_from_keys xf keys = (0, { capacity := 0, finger := [] }) := by
  unfold xor8_populate_from_keys at hfail ⊢
  by_cases h0 : keys.length = 0
  · rw [if_pos h0] at hfail
    exact absurd rfl hfail
  · rw [if_neg h0] at hfail ⊢
    by_cases hp : (peel_keys keys (xor8_capacity_for_n keys.length)).peel.length ≠ keys.length
    · refine ⟨by omega, hp, ?_⟩
      dsimp only
      rw [if_pos hp]
      rfl
    · simp only [hp, if_false] at hfail
      exact absurd rfl hfail

theorem build_attempts_failure (keys : List Nat) (xf : xor8_t)
    (hfail : (xor8_populate_from_keys xf keys).1 ≠ 1) :
    ∀ (attempts : Nat) (xf' : xor8_t), 1 ≤ attempts →
      build_attempts keys attempts xf' = (0, { capacity := 0, finger := [] }) := by
  obtain ⟨hn, _, hres⟩ := xor8_populate_failure xf keys hfail
  have hall : ∀ xf' : xor8_t,
      xor8_populate_from_keys xf' keys = (0, { capacity := 0, finger := [] }) := by
    intro xf'
    rw [xor8_populate_indep xf' xf keys hn]
    exact hres
  intro attempts
  induction attempts with
  | zero => intro xf' h; exact absurd h (by decide)
  | succ a ih =>
    intro xf' _
    unfold build_attempts
    rw [hall xf']
    simp only [ne_eq, not_true_eq_false, if_false]
    cases a with
    | zero => rfl
    | succ a => exact ih _ (by omega)

theorem build_attempts_of_success (keys : List Nat) (xf : xor8_t) (attempts : Nat)
    (hok : (xor8_populate_from_keys xf keys).1 = 1) :
    build_attempts keys (attempts + 1) xf = (1, (xor8_populate_from_keys xf keys).2) := by
  unfold build_attempts
  rw [if_pos (by rw [hok]; decide)]

/-- C12: `xor8_build_with_retries` returns `1` exactly when a single call of
`xor8_populate_from_keys` on the same keys returns `1`, and then leaves the filter of that
single call; when the single call fails, every attempt, whatever filter the previous one
left, has the same outcome (`0`, filter released), and the loop returns `0` with the
released filter after its 5 attempts. -/
theorem xor8_build_with_retries_spec (xf : xor8_t) (keys : List Nat) :
    ((xor8_build_with_retries xf keys).1 = 1 ↔ (xor8_populate_from_keys xf keys).1 = 1) ∧
    ((xor8_populate_from_keys xf keys).1 = 1 →
      (xor8_build_with_retries xf keys).2 = (xor8_populate_from_keys xf keys).2) ∧
    ((xor8_populate_from_keys xf keys).1 ≠ 1 →
      (∀ xf' : xor8_t,
        xor8_populate_from_keys xf' keys = (0, { capacity := 0, finger := [] })) ∧
      xor8_build_with_retries xf keys = build_attempts keys 5 xf ∧
      xor8_build_with_retries xf keys = (0, { capacity := 0, finger := [] })) := by
  have hsucc : (xor8_populate_from_keys xf keys).1 = 1 →
      xor8_build_with_retries xf keys = (1, (xor8_populate_from_keys xf keys).2) :=
    fun hok => build_attempts_of_success keys xf 4 hok
  have hfail : (xor8_populate_from_keys xf keys).1 ≠ 1 →
      xor8_build_with_retries xf keys = (0, { capacity := 0, finger := [] }) :=
    fun hf => build_attempts_failure keys xf hf 5 xf (by decide)
  refine ⟨?_, ?_, ?_⟩
  · constructor
    · intro h
      by_contra hf
      rw [hfail hf] at h
      exact absurd h (by decide)
    · intro hok
      rw [hsucc hok]
  · intro hok
    rw [hsucc hok]
  · intro hf
    refine ⟨?_, rfl, hfail hf⟩
    intro xf'
    obtain ⟨hn, _, hres⟩ := xor8_populate_failure xf keys hf
    rw [xor8_populate_indep xf' xf keys hn]
    exact hres

theorem peel_keys_length_le (keys : List Nat) (capacity : Nat) (hpos : 1 ≤ capacity) :
    (peel_keys keys capacity).peel.length ≤ keys.length := by
  have hinv := peel_keys_inv keys capacity hpos
  have hnd := peel_order_nodup _ _ _ hinv.peel_ordered
  have hsub : ((peel_keys keys capacity).peel.map Prod.fst).toFinset ⊆
      Finset.range keys.length := by
    intro x hx
    obtain ⟨e, he, rfl⟩ := List.mem_map.mp (List.mem_toFinset.mp hx)
    have := (hinv.peel_removed e he).1
    rw [key_infos_length] at this
    exact Finset.mem_range.mpr this
  have hcard := Finset.card_le_card hsub
  rw [List.toFinset_card_of_nodup hnd, Finset.card_range, List.length_map] at hcard
  exact hcard

/-- C13: for every key array with `nkeys ≥ 1`: the peel order never has more than `nkeys`
pairs; when it is shorter than `nkeys`, `xor8_populate_from_keys` returns `0` and leaves the
filter released (`capacity = 0`, no fingerprint array); and it returns `1` exactly when the
peel order has length `nkeys`. -/
theorem xor8_populate_failure_spec (xf : xor8_t) (keys : List Nat) (hn : 1 ≤ keys.length) :
    (peel_keys keys (xor8_capacity_for_n keys.length)).peel.length ≤ keys.length ∧
    ((peel_keys keys (xor8_capacity_for_n keys.length)).peel.length < keys.length →
      xor8_populate_from_keys xf keys = (0, { capacity := 0, finger := [] })) ∧
    ((xor8_populate_from_keys xf keys).1 = 1 ↔
      (peel_keys keys (xor8_capacity_for_n keys.length)).peel.length = keys.length) := by
  have hge := xor8_capacity_for_n_ge keys.length
  have hle := peel_keys_length_le keys (xor8_capacity_for_n keys.length) (by omega)
  have h0 : ¬ keys.length = 0 := by omega
  refine ⟨hle, ?_, ?_⟩
  · intro hlt
    have hp : (peel_keys keys (xor8_capacity_for_n keys.length)).peel.length ≠ keys.length := by
      omega
    simp only [xor8_populate_from_keys, h0, if_false, hp, if_true, xor8_free, ne_eq,
      not_false_eq_true]
  · constructor
    · intro hok
      exact (xor8_populate_success xf keys hn hok).1
    · intro hfull
      simp only [xor8_populate_from_keys, h0, if_false, hfull, ne_eq, not_true_eq_false]

theorem xor8_populate_failure_spec_witness :
    1 ≤ [7, 7].length ∧
    (peel_keys [7, 7] (xor8_capacity_for_n [7, 7].length)).peel.length < [7, 7].length ∧
    xor8_populate_from_keys { capacity := 5, finger := [1, 2, 3, 4, 5] } [7, 7]
      = (0, { capacity := 0, finger := [] }) :=
  ⟨by decide, by decide,
   (xor8_populate_failure_spec { capacity := 5, finger := [1, 2, 3, 4, 5] } [7, 7]
      (by decide)).2.1 (by decide)⟩

/-! ## The variable `window` -/

/-- One iteration of the sliding loop updates `window` by `rk_step`. -/
theorem rk_scan_succ (signedChar : Bool) (text pat : List Nat) (m pat_h pow_m r i window : Nat) :
    rk_scan signedChar text pat m pat_h pow_m (r + 1) i window
      = if rk_step signedChar text m pow_m i window = pat_h ∧ memcmp (text.drop i) pat m = 0
        then toInt32 i
        else rk_scan signedChar text pat m pat_h pow_m r (i + 1)
          (rk_step signedChar text m pow_m i window) := rfl

/-- The sliding loop of `rabin_karp_search` carries the values `rk_window`: entered at
position `i + 1` with `rk_window i`, it tests `rk_window (i + 1)` and passes it on. -/
theorem rk_scan_window (signedChar : Bool) (text pat : List Nat) (m pat_h r i : Nat) :
    rk_scan signedChar text pat m pat_h (rk_pow m) (r + 1) (i + 1)
        (rk_window signedChar text m i)
      = if rk_window signedChar text m (i + 1) = pat_h ∧
            memcmp (text.drop (i + 1)) pat m = 0
        then toInt32 (i + 1)
        else rk_scan signedChar text pat m pat_h (rk_pow m) r (i + 2)
          (rk_window signedChar text m (i + 1)) := rfl

/-- Where the bytes of the text convert to `u64` unchanged (plain `char` unsigned, or all
text bytes below 128), `window` at position `i` is the hash of `text[i .. i+m)` computed
from scratch. -/
theorem rk_window_eq_rk_hash (signedChar : Bool) (text : List Nat) (m : Nat) (hm : 1 ≤ m)
    (hconv : ∀ j, charToU64 signedChar (text.getD j 0) = text.getD j 0) :
    ∀ i, rk_window signedChar text m i = rk_hash (text.drop i) m RK_BASE := by
  intro i
  induction i with
  | zero => rfl
  | succ i ih =>
    have hroll := rk_roll (text.drop i) m hm
    rw [getD_drop_add, getD_drop_add, List.drop_drop] at hroll
    unfold rk_window rk_step
    rw [ih, hconv, hconv, Nat.add_sub_cancel]
    have e1 : i + 1 + m - 1 = i + m := by omega
    rw [e1]
    exact hroll

/-- C15 (evaluation): with a signed plain `char`, on the text `80 61` (hex) and `m = 1`, at
loop position `i = 1` (where `i + m ≤ n = 2`) the variable `window` holds
`256 * 911382323 + 97`, not the hash `97` of `text[1 .. 2)` computed from scratch. -/
theorem rk_window_off_after_high_byte :
    1 + 1 ≤ [0x80, 0x61].length ∧
    rk_window true [0x80, 0x61] 1 1 = 256 * 911382323 + 97 ∧
    rk_hash ([0x80, 0x61].drop 1) 1 911382323 = 97 ∧
    rk_window true [0x80, 0x61] 1 1 ≠ rk_hash ([0x80, 0x61].drop 1) 1 911382323 := by
  decide

/-! ## The fixed-table variant -/

/-- C16 (evaluation): after `xor_filter_insert` of the two one-byte keys `b` and `h` into
the all-zero table, `xor_filter_maybe_contains` returns `0` for both of them: the two keys
share bucket 5, where their equal fingerprints cancel. -/
theorem updatedxor_false_negative :
    UpdatedXor.xor_filter_maybe_contains
      (UpdatedXor.insert_all UpdatedXor.xor_filter [[98], [104]]) [98] = 0 ∧
    UpdatedXor.xor_filter_maybe_contains
      (UpdatedXor.insert_all UpdatedXor.xor_filter [[98], [104]]) [104] = 0 ∧
    UpdatedXor.derive_hashes (fnv1a_64 [98] 1) = { i0 := 5, i1 := 100, i2 := 33, fp := 5 } ∧
    UpdatedXor.derive_hashes (fnv1a_64 [104] 1) = { i0 := 5, i1 := 168, i2 := 77, fp := 5 } := by
  refine ⟨by rfl, by rfl, by rfl, by rfl⟩

/-- C20: for every hash `h`, `derive_hashes` of `updatedxor.c` returns a first bucket `h0`
equal to the fingerprint `fp`, both being `mix64(h) mod 256`; and `derive_hashes` of
`xor_rk.c` with capacity 256 returns `i0 = fp = mix64(h) mod 256` as well. -/
theorem derive_hashes_bucket_eq_fingerprint (h : Nat) :
    (UpdatedXor.derive_hashes h).i0 = mix64 h % 256 ∧
    (UpdatedXor.derive_hashes h).fp = mix64 h % 256 ∧
    (UpdatedXor.derive_hashes h).i0 = (UpdatedXor.derive_hashes h).fp ∧
    (derive_hashes h 256).i0 = mix64 h % 256 ∧
    (derive_hashes h 256).fp = mix64 h % 256 ∧
    (derive_hashes h 256).i0 = (derive_hashes h 256).fp := by
  have hlt : mix64 h % 256 < 2 ^ 32 := lt_trans (Nat.mod_lt _ (by norm_num)) (by norm_num)
  have hw : wrap32 (mix64 h % 256) = mix64 h % 256 := Nat.mod_eq_of_lt hlt
  have hfp : (mix64 h &&& 0xFF) % 256 = mix64 h % 256 := by
    have := Nat.and_pow_two_sub_one_eq_mod (mix64 h) 8
    norm_num at this
    rw [this]
    norm_num
  have a1 : (UpdatedXor.derive_hashes h).i0 = mix64 h % 256 := hw
  have a2 : (UpdatedXor.derive_hashes h).fp = mix64 h % 256 := rfl
  have a3 : (derive_hashes h 256).i0 = mix64 h % 256 := hw
  have a4 : (derive_hashes h 256).fp = mix64 h % 256 := hfp
  exact ⟨a1, a2, by rw [a1, a2], a3, a4, by rw [a3, a4]⟩

/-! ## The peeling loop, step by step -/

theorem peel_keys_eq_peel_after (keys : List Nat) (capacity : Nat) :
    peel_keys keys capacity = peel_after keys capacity (capacity + 6 * keys.length) := rfl

/-- What an iteration of the peeling loop does: either it only pops the bucket, or it peels
the single live key `k` that references the popped bucket `b`. -/
theorem peel_iter_cases (kinfo : List keyinfo_t) (capacity : Nat) (bucket_counts : List Nat)
    (bucket_lists : List (List Nat))
    (hidx : ∀ k, k < kinfo.length → ∀ x, 1 ≤ refs (kinfo.getD k default) x → x < capacity)
    (hlists : ∀ x k, k ∈ bucket_lists.getD x [] →
      k < kinfo.length ∧ 1 ≤ refs (kinfo.getD k default) x)
    (st : peel_state) (b : Nat) (rest : List Nat) (hinv : peel_inv kinfo capacity st) :
    (peel_iter kinfo bucket_counts bucket_lists st b rest = { st with bucket_stack := rest } ∧
      (st.degree.getD b 0 ≠ 1 ∨
        find_key st.key_removed
          ((bucket_lists.getD b []).take (bucket_counts.getD b 0)) = none)) ∨
    (∃ k, st.degree.getD b 0 = 1 ∧ k < kinfo.length ∧ st.key_removed.getD k 0 = 0 ∧
      refs (kinfo.getD k default) b = 1 ∧ live_refs kinfo st.key_removed b = 1 ∧
      b < capacity ∧
      find_key st.key_removed
        ((bucket_lists.getD b []).take (bucket_counts.getD b 0)) = some k ∧
      peel_iter kinfo bucket_counts bucket_lists st b rest =
        { degree := ((other_buckets (kinfo.getD k default) b).foldl release_bucket
            (st.degree, rest)).1
          bucket_stack := ((other_buckets (kinfo.getD k default) b).foldl release_bucket
            (st.degree, rest)).2
          key_removed := st.key_removed.set k 1
          peel := (k, b) :: st.peel }) := by
  unfold peel_iter
  by_cases hdeg : st.degree.getD b 0 ≠ 1
  · left
    rw [if_pos hdeg]
    exact ⟨rfl, Or.inl hdeg⟩
  · rw [if_neg hdeg]
    have hdeg1 : st.degree.getD b 0 = 1 := not_not.mp hdeg
    cases hfind : find_key st.key_removed
        ((bucket_lists.getD b []).take (bucket_counts.getD b 0)) with
    | none =>
      left
      exact ⟨rfl, Or.inr rfl⟩
    | some k =>
      right
      obtain ⟨hmem, hlive⟩ := find_key_some _ _ _ hfind
      obtain ⟨hk, hrefs⟩ := hlists b k (List.mem_of_mem_take hmem)
      have hb : b < capacity := hidx k hk b hrefs
      have hge := live_refs_ge kinfo st.key_removed k b hk hlive
      have hliveb : live_refs kinfo st.key_removed b = 1 := by
        rcases hinv.degree_ok b hb with h | ⟨h, _⟩
        · rw [← h]; exact hdeg1
        · omega
      exact ⟨k, hdeg1, hk, hlive, by omega, hliveb, hb, rfl, rfl⟩

theorem release_bucket_stack (s : List Nat × List Nat) (ob : Nat) :
    (release_bucket s ob).2 = if s.1.getD ob 0 = 2 then ob :: s.2 else s.2 := by
  unfold release_bucket
  by_cases hpos : 0 < s.1.getD ob 0
  · have hob : ob < s.1.length := by
      by_contra hge
      rw [List.getD_eq_default _ _ (by omega)] at hpos
      exact absurd hpos (by decide)
    rw [if_pos hpos]
    simp only
    rw [getD_set_eq _ _ _ _ hob]
    by_cases h2 : s.1.getD ob 0 = 2
    · rw [if_pos (by omega), if_pos h2]
    · rw [if_neg (by omega), if_neg h2]
  · rw [if_neg hpos, if_neg (by omega)]

/-- The inner loop of lines 235-241: the stack grows by a list `P` of pairwise distinct
buckets, exactly those whose degree was at least 2 and has dropped to at most 1; no degree
grows. -/
theorem release_fold_pushes :
    ∀ (others : List Nat) (s : List Nat × List Nat),
      ∃ P : List Nat, (others.foldl release_bucket s).2 = P ++ s.2 ∧ P.Nodup ∧
        (∀ x ∈ P, 2 ≤ s.1.getD x 0 ∧ (others.foldl release_bucket s).1.getD x 0 ≤ 1) ∧
        (∀ x, (others.foldl release_bucket s).1.getD x 0 ≤ s.1.getD x 0) ∧
        (∀ x, 2 ≤ s.1.getD x 0 → (others.foldl release_bucket s).1.getD x 0 ≤ 1 → x ∈ P) := by
  intro others
  induction others with
  | nil =>
    intro s
    exact ⟨[], rfl, List.nodup_nil, fun x hx => absurd hx (List.not_mem_nil _),
      fun x => le_refl _, fun x h2 h1 => absurd h1 (by simp only [List.foldl_nil]; omega)⟩
  | cons ob others ih =>
    intro s
    rw [List.foldl_cons]
    obtain ⟨P2, hS, hnd, hP, hle, hin⟩ := ih (release_bucket s ob)
    have hdeg := fun x => (release_bucket_degree s ob x).2
    have hstk := release_bucket_stack s ob
    by_cases h2 : s.1.getD ob 0 = 2
    · rw [if_pos h2] at hstk
      have hob1 : (release_bucket s ob).1.getD ob 0 = 1 := by
        rw [hdeg ob, if_pos rfl, h2]
      refine ⟨P2 ++ [ob], ?_, ?_, ?_, ?_, ?_⟩
      · rw [hS, hstk]; simp
      · rw [List.nodup_append]
        refine ⟨hnd, List.nodup_singleton _, ?_⟩
        intro x hx1 hx2
        have hxob : x = ob := by simpa using hx2
        have := (hP x hx1).1
        rw [hxob, hob1] at this
        omega
      · intro x hx
        rcases List.mem_append.mp hx with hx | hx
        · obtain ⟨h1, h3⟩ := hP x hx
          have := hdeg x
          exact ⟨by omega, h3⟩
        · have hxob : x = ob := by simpa using hx
          subst hxob
          have := hle x
          exact ⟨by omega, by omega⟩
      · intro x
        have := hdeg x
        have := hle x
        omega
      · intro x hx2 hx1
        by_cases hxob : x = ob
        · rw [hxob]; simp
        · have h3 := hdeg x
          rw [if_neg (Ne.symm hxob), Nat.sub_zero] at h3
          exact List.mem_append_left _ (hin x (by omega) hx1)
    · rw [if_neg h2] at hstk
      refine ⟨P2, by rw [hS, hstk], hnd, ?_, ?_, ?_⟩
      · intro x hx
        obtain ⟨h1, h3⟩ := hP x hx
        have := hdeg x
        exact ⟨by omega, h3⟩
      · intro x
        have := hdeg x
        have := hle x
        omega
      · intro x hx2 hx1
        apply hin x _ hx1
        have h3 := hdeg x
        by_cases hxob : ob = x
        · subst hxob
          rw [if_pos rfl] at h3
          have h4 := hle ob
          by_contra hlt
          have : s.1.getD ob 0 ≤ 2 := by omega
          omega
        · rw [if_neg hxob, Nat.sub_zero] at h3
          omega

theorem seed_stack_mem (degree : List Nat) :
    ∀ (capacity x : Nat),
      x ∈ seed_stack degree capacity ↔ (x < capacity ∧ degree.getD x 0 = 1) := by
  intro capacity
  unfold seed_stack
  induction capacity with
  | zero => intro x; simp
  | succ c ih =>
    intro x
    rw [List.range_succ, List.foldl_append]
    simp only [List.foldl_cons, List.foldl_nil]
    by_cases hc : degree.getD c 0 = 1
    · rw [if_pos hc, List.mem_cons, ih]
      constructor
      · rintro (h | ⟨h1, h2⟩)
        · subst h; exact ⟨by omega, hc⟩
        · exact ⟨by omega, h2⟩
      · rintro ⟨h1, h2⟩
        by_cases hx : x = c
        · exact Or.inl hx
        · exact Or.inr ⟨by omega, h2⟩
    · rw [if_neg hc, ih]
      constructor
      · rintro ⟨h1, h2⟩
        exact ⟨by omega, h2⟩
      · rintro ⟨h1, h2⟩
        have hx : x ≠ c := fun h => hc (h ▸ h2)
        exact ⟨by omega, h2⟩

theorem seed_stack_nodup (degree : List Nat) :
    ∀ capacity : Nat, (seed_stack degree capacity).Nodup := by
  intro capacity
  induction capacity with
  | zero => simp [seed_stack]
  | succ c ih =>
    have hmem := seed_stack_mem degree c c
    unfold seed_stack at ih hmem ⊢
    rw [List.range_succ, List.foldl_append]
    simp only [List.foldl_cons, List.foldl_nil]
    split_ifs
    · rw [List.nodup_cons]
      refine ⟨?_, ih⟩
      intro h
      have := (hmem.mp h).1
      omega
    · exact ih

theorem find_key_none (removed : List Nat) :
    ∀ l : List Nat, find_key removed l = none → ∀ k ∈ l, removed.getD k 0 ≠ 0 := by
  intro l
  induction l with
  | nil => intro _ k hk; exact absurd hk (List.not_mem_nil _)
  | cons a l ih =>
    intro h k hk
    unfold find_key at h
    split_ifs at h with ha
    rcases List.mem_cons.mp hk with hk | hk
    · rw [hk]; exact ha
    · exact ih h k hk

/-- A bucket with a live reference is referenced by some key that is not removed. -/
theorem live_refs_pos (kinfo : List keyinfo_t) (removed : List Nat) (b : Nat)
    (h : 1 ≤ live_refs kinfo removed b) :
    ∃ k, k < kinfo.length ∧ removed.getD k 0 = 0 ∧ 1 ≤ refs (kinfo.getD k default) b := by
  unfold live_refs at h
  by_contra hno
  have hzero : ∑ i in Finset.range kinfo.length,
      (if removed.getD i 0 = 0 then refs (kinfo.getD i default) b else 0) = 0 := by
    apply Finset.sum_eq_zero
    intro i hi
    by_cases hl : removed.getD i 0 = 0
    · rw [if_pos hl]
      by_contra hne
      exact hno ⟨i, Finset.mem_range.mp hi, hl, by omega⟩
    · rw [if_neg hl]
  omega

theorem append_key_length (lists : List (List Nat)) (b i : Nat) :
    (append_key lists b i).length = lists.length := by
  simp [append_key]

theorem append_key_getD_length (lists : List (List Nat)) (b i x : Nat)
    (hb : b < lists.length) :
    ((append_key lists b i).getD x []).length
      = (lists.getD x []).length + (if b = x then 1 else 0) := by
  unfold append_key
  by_cases h : b = x
  · subst h
    rw [getD_set_eq _ _ _ _ hb, if_pos rfl, List.length_append, List.length_singleton]
  · rw [getD_set_ne _ _ _ _ _ h, if_neg h, Nat.add_zero]

theorem append_key_mono (lists : List (List Nat)) (b i x k : Nat)
    (h : k ∈ lists.getD x []) : k ∈ (append_key lists b i).getD x [] := by
  unfold append_key
  by_cases hx : b = x
  · subst hx
    by_cases hb : b < lists.length
    · rw [getD_set_eq _ _ _ _ hb]
      exact List.mem_append_left _ h
    · rw [List.set_eq_of_length_le (by omega)]
      exact h
  · rw [getD_set_ne _ _ _ _ _ hx]
    exact h

theorem append_key_self (lists : List (List Nat)) (b i : Nat) (hb : b < lists.length) :
    i ∈ (append_key lists b i).getD b [] := by
  unfold append_key
  rw [getD_set_eq _ _ _ _ hb]
  exact List.mem_append_right _ (List.mem_singleton_self i)

/-- The degree array written by the fill pass is the array of the counting pass. -/
theorem fill_lists_snd :
    ∀ (rest : List keyinfo_t) (i : Nat) (s : List (List Nat) × List Nat),
      (fill_lists rest i s).2 = count_refs rest s.2 := by
  intro rest
  induction rest with
  | nil => intro i s; rfl
  | cons e rest ih =>
    intro i s
    unfold fill_lists count_refs
    rw [ih, List.foldl_cons]
    rfl

/-- The length of each bucket list after the fill pass. -/
theorem fill_lists_length :
    ∀ (rest : List keyinfo_t) (i : Nat) (s : List (List Nat) × List Nat),
      (∀ e ∈ rest, e.i0 < s.1.length ∧ e.i1 < s.1.length ∧ e.i2 < s.1.length) →
      (fill_lists rest i s).1.length = s.1.length ∧
      ∀ x, ((fill_lists rest i s).1.getD x []).length
        = (s.1.getD x []).length
          + ∑ j in Finset.range rest.length, refs (rest.getD j default) x := by
  intro rest
  induction rest with
  | nil => intro i s _; simp [fill_lists]
  | cons e rest ih =>
    intro i s hb
    unfold fill_lists
    obtain ⟨h0, h1, h2⟩ := hb e (List.mem_cons_self _ _)
    have hlen : (append_key (append_key (append_key s.1 e.i0 i) e.i1 i) e.i2 i).length
        = s.1.length := by
      simp [append_key_length]
    obtain ⟨ih1, ih2⟩ := ih (i + 1)
      (append_key (append_key (append_key s.1 e.i0 i) e.i1 i) e.i2 i,
        bump (bump (bump s.2 e.i0) e.i1) e.i2)
      (by
        intro e' he'
        simp only [hlen]
        exact hb e' (List.mem_cons_of_mem _ he'))
    refine ⟨by rw [ih1, hlen], ?_⟩
    intro x
    rw [ih2 x]
    simp only
    rw [append_key_getD_length _ _ _ _ (by simpa [append_key_length] using h2),
      append_key_getD_length _ _ _ _ (by simpa [append_key_length] using h1),
      append_key_getD_length _ _ _ _ h0, List.length_cons, Finset.sum_range_succ']
    simp only [List.getD_cons_succ, List.getD_cons_zero]
    unfold refs
    omega

/-- Every key that references a bucket is stored in the list of that bucket. -/
theorem fill_lists_complete (kinfo : List keyinfo_t) :
    ∀ (rest : List keyinfo_t) (i : Nat) (s : List (List Nat) × List Nat),
      kinfo.drop i = rest →
      (∀ e ∈ rest, e.i0 < s.1.length ∧ e.i1 < s.1.length ∧ e.i2 < s.1.length) →
      ∀ x k, (k ∈ s.1.getD x [] ∨
          (i ≤ k ∧ k < kinfo.length ∧ 1 ≤ refs (kinfo.getD k default) x)) →
        k ∈ (fill_lists rest i s).1.getD x [] := by
  intro rest
  induction rest with
  | nil =>
    intro i s hdrop _ x k hk
    rcases hk with hk | ⟨h1, h2, _⟩
    · exact hk
    · have : kinfo.length ≤ i := by
        by_contra hlt
        have hlen := congrArg List.length hdrop
        rw [List.length_drop, List.length_nil] at hlen
        omega
      omega
  | cons e rest ih =>
    intro i s hdrop hb x k hk
    unfold fill_lists
    obtain ⟨h0, h1, h2⟩ := hb e (List.mem_cons_self _ _)
    have hi : i < kinfo.length := by
      by_contra hge
      rw [List.drop_eq_nil_of_le (by omega)] at hdrop
      exact absurd hdrop (by simp)
    have he : kinfo.getD i default = e := by
      have h1 : (kinfo.drop i).getD 0 default = kinfo.getD i default := by
        rw [getD_drop_add]; rfl
      rw [← h1, hdrop]; rfl
    have hdrop' : kinfo.drop (i + 1) = rest := by
      have h2 : kinfo.drop (i + 1) = (kinfo.drop i).drop 1 := by
        rw [List.drop_drop]
      rw [h2, hdrop]; rfl
    have hlen : (append_key (append_key (append_key s.1 e.i0 i) e.i1 i) e.i2 i).length
        = s.1.length := by
      simp [append_key_length]
    apply ih (i + 1) _ hdrop'
      (by
        intro e' he'
        simp only [hlen]
        exact hb e' (List.mem_cons_of_mem _ he'))
    by_cases hki : k = i
    · by_cases hold : k ∈ s.1.getD x []
      · left
        exact append_key_mono _ _ _ _ _ (append_key_mono _ _ _ _ _
          (append_key_mono _ _ _ _ _ hold))
      · have href : 1 ≤ refs (kinfo.getD k default) x := by
          rcases hk with hk | ⟨_, _, h⟩
          · exact absurd hk hold
          · exact h
        rw [hki, he] at href
        left
        rw [hki]
        rcases (refs_pos_iff _ _).mp href with h | h | h
        · rw [← h]
          exact append_key_mono _ _ _ _ _ (append_key_mono _ _ _ _ _
            (append_key_self _ _ _ h0))
        · rw [← h]
          exact append_key_mono _ _ _ _ _
            (append_key_self _ _ _ (by simpa [append_key_length] using h1))
        · rw [← h]
          exact append_key_self _ _ _ (by simpa [append_key_length] using h2)
    · rcases hk with hk | ⟨h3, h4, h5⟩
      · left
        exact append_key_mono _ _ _ _ _ (append_key_mono _ _ _ _ _
          (append_key_mono _ _ _ _ _ hk))
      · right
        exact ⟨by omega, h4, h5⟩

theorem peel_order_ok_mem (kinfo : List keyinfo_t) (capacity : Nat) :
    ∀ l : List (Nat × Nat), peel_order_ok kinfo capacity l →
      ∀ e ∈ l, refs (kinfo.getD e.1 default) e.2 = 1 ∧ e.2 < capacity := by
  intro l
  induction l with
  | nil => intro _ e he; exact absurd he (List.not_mem_nil _)
  | cons a l ih =>
    intro hok e he
    obtain ⟨h1, h2, _, h4⟩ := hok
    rcases List.mem_cons.mp he with he | he
    · rw [he]; exact ⟨h1, h2⟩
    · exact ih h4 e he

/-- An assigned bucket keeps a degree of at most 1. -/
theorem assigned_degree_le (kinfo : List keyinfo_t) (capacity : Nat) (st : peel_state)
    (hinv : peel_inv kinfo capacity st) (x : Nat) (hx : x ∈ st.peel.map Prod.snd) :
    st.degree.getD x 0 ≤ 1 := by
  obtain ⟨e, he, rfl⟩ := List.mem_map.mp hx
  have hdead := hinv.peel_dead e he
  have hlt := (peel_order_ok_mem _ _ _ hinv.peel_ordered e he).2
  rcases hinv.degree_ok e.2 hlt with h | ⟨_, h⟩ <;> omega

/-- The guard `found_key == UINT32_MAX` (line 220) is never taken: a bucket on the stack
whose degree is 1 has a key that is not removed in its list. -/
theorem find_key_found (kinfo : List keyinfo_t) (capacity : Nat) (bucket_counts : List Nat)
    (bucket_lists : List (List Nat))
    (hcomplete : ∀ k, k < kinfo.length → ∀ x, 1 ≤ refs (kinfo.getD k default) x →
      k ∈ (bucket_lists.getD x []).take (bucket_counts.getD x 0))
    (st : peel_state) (hinv : peel_inv_stack kinfo capacity st) (b : Nat)
    (hb : b ∈ st.bucket_stack) (hdeg : st.degree.getD b 0 = 1) :
    find_key st.key_removed ((bucket_lists.getD b []).take (bucket_counts.getD b 0))
      ≠ none := by
  intro hnone
  have hlt := (hinv.stack_degree b hb).2
  have hexact := hinv.degree_exact b hlt (hinv.stack_fresh b hb)
  obtain ⟨k, hk, hlive, href⟩ := live_refs_pos kinfo st.key_removed b (by omega)
  exact find_key_none _ _ hnone k (hcomplete k hk b href) hlive

/-- One iteration of the peeling loop preserves the extended invariant. -/
theorem peel_iter_inv_stack (kinfo : List keyinfo_t) (capacity : Nat)
    (bucket_counts : List Nat) (bucket_lists : List (List Nat))
    (hidx : ∀ k, k < kinfo.length → ∀ x, 1 ≤ refs (kinfo.getD k default) x → x < capacity)
    (hlists : ∀ x k, k ∈ bucket_lists.getD x [] →
      k < kinfo.length ∧ 1 ≤ refs (kinfo.getD k default) x)
    (hcomplete : ∀ k, k < kinfo.length → ∀ x, 1 ≤ refs (kinfo.getD k default) x →
      k ∈ (bucket_lists.getD x []).take (bucket_counts.getD x 0))
    (st : peel_state) (b : Nat) (rest : List Nat) (hs : st.bucket_stack = b :: rest)
    (hinv : peel_inv_stack kinfo capacity st) :
    peel_inv_stack kinfo capacity
      (peel_iter kinfo bucket_counts bucket_lists st b rest) := by
  have hbase := peel_iter_inv kinfo capacity bucket_counts bucket_lists hidx hlists st b rest
    hinv.base
  have hnd : (b :: rest).Nodup := hs ▸ hinv.stack_nodup
  have hbmem : b ∈ st.bucket_stack := by rw [hs]; exact List.mem_cons_self _ _
  have hrestmem : ∀ x, x ∈ rest → x ∈ st.bucket_stack := by
    intro x hx; rw [hs]; exact List.mem_cons_of_mem _ hx
  have hbrest : b ∉ rest := (List.nodup_cons.mp hnd).1
  rcases peel_iter_cases kinfo capacity bucket_counts bucket_lists hidx hlists st b rest
      hinv.base with
    ⟨heq, hskip⟩ | ⟨k, hdeg1, hk, hlive, hrefs1, hliveb, hb, _, heq⟩
  · refine ⟨hbase, ?_, ?_, ?_, ?_, ?_, ?_⟩
    all_goals rw [heq]
    · exact hinv.degree_exact
    · exact hinv.removed_peeled
    · exact (List.nodup_cons.mp hnd).2
    · intro x hx; exact hinv.stack_degree x (hrestmem x hx)
    · intro x hx; exact hinv.stack_fresh x (hrestmem x hx)
    · intro x hx hx1 hxf
      have hmem := hinv.ones_stacked x hx hx1 hxf
      rw [hs] at hmem
      rcases List.mem_cons.mp hmem with hxb | hmem
      · subst hxb
        rcases hskip with hne | hnone
        · exact absurd hx1 hne
        · exact absurd hnone
            (find_key_found kinfo capacity bucket_counts bucket_lists hcomplete st hinv x
              hbmem hx1)
      · exact hmem
  · have hrem := fun x => live_refs_remove kinfo st.key_removed k x hk
      hinv.base.removed_length hlive
    have hfold : ∀ x, ((other_buckets (kinfo.getD k default) b).foldl release_bucket
        (st.degree, rest)).1.getD x 0
          = st.degree.getD x 0 - (other_buckets (kinfo.getD k default) b).count x :=
      fun x => (release_fold_degree
        (other_buckets (kinfo.getD k default) b) (st.degree, rest) x).2
    obtain ⟨P, hS0, hPnd, hP0, hle0, hin0⟩ := release_fold_pushes
      (other_buckets (kinfo.getD k default) b) (st.degree, rest)
    have hS : ((other_buckets (kinfo.getD k default) b).foldl release_bucket
        (st.degree, rest)).2 = P ++ rest := hS0
    have hP : ∀ x ∈ P, 2 ≤ st.degree.getD x 0 ∧
        ((other_buckets (kinfo.getD k default) b).foldl release_bucket
          (st.degree, rest)).1.getD x 0 ≤ 1 := hP0
    have hle : ∀ x, ((other_buckets (kinfo.getD k default) b).foldl release_bucket
        (st.degree, rest)).1.getD x 0 ≤ st.degree.getD x 0 := hle0
    have hin : ∀ x, 2 ≤ st.degree.getD x 0 →
        ((other_buckets (kinfo.getD k default) b).foldl release_bucket
          (st.degree, rest)).1.getD x 0 ≤ 1 → x ∈ P := hin0
    have hklen : k < st.key_removed.length := by
      rw [hinv.base.removed_length]; exact hk
    have hPnew : ∀ x ∈ P, x ≠ b ∧ x ∉ st.peel.map Prod.snd ∧ x ∉ rest ∧ x < capacity := by
      intro x hx
      have h2 : 2 ≤ st.degree.getD x 0 := (hP x hx).1
      refine ⟨?_, ?_, ?_, ?_⟩
      · intro hxb; rw [hxb, hdeg1] at h2; omega
      · intro hxa
        have := assigned_degree_le kinfo capacity st hinv.base x hxa
        omega
      · intro hxr
        have := (hinv.stack_degree x (hrestmem x hxr)).1
        omega
      · by_contra hge
        rw [List.getD_eq_default _ _ (by rw [hinv.base.degree_length]; omega)] at h2
        omega
    refine ⟨hbase, ?_, ?_, ?_, ?_, ?_, ?_⟩
    all_goals rw [heq]
    · intro x hx hxf
      simp only [List.map_cons, List.mem_cons, not_or] at hxf
      have h1 := hinv.degree_exact x hx hxf.2
      have h2 := hfold x
      rw [count_other_buckets, if_neg hxf.1] at h2
      have h3 := hrem x
      simp only at h1 h2 ⊢
      omega
    · intro i hi hrm
      simp only [List.map_cons, List.mem_cons] at hrm ⊢
      by_cases hik : i = k
      · exact Or.inl hik
      · right
        rw [getD_set_ne _ _ _ _ _ (Ne.symm hik)] at hrm
        exact hinv.removed_peeled i hi hrm
    · simp only
      rw [hS]
      rw [List.nodup_append]
      refine ⟨hPnd, (List.nodup_cons.mp hnd).2, ?_⟩
      intro x hx1 hx2
      exact (hPnew x hx1).2.2.1 hx2
    · intro x hx
      simp only at hx ⊢
      rw [hS] at hx
      rcases List.mem_append.mp hx with hx | hx
      · exact ⟨(hP x hx).2, (hPnew x hx).2.2.2⟩
      · have h1 := hinv.stack_degree x (hrestmem x hx)
        have h2 := hle x
        exact ⟨by omega, h1.2⟩
    · intro x hx
      simp only [List.map_cons, List.mem_cons, not_or] at hx ⊢
      rw [hS] at hx
      rcases List.mem_append.mp hx with hx | hx
      · exact ⟨(hPnew x hx).1, (hPnew x hx).2.1⟩
      · exact ⟨fun hxb => hbrest (hxb ▸ hx), hinv.stack_fresh x (hrestmem x hx)⟩
    · intro x hx hx1 hxf
      simp only [List.map_cons, List.mem_cons, not_or] at hxf hx1 ⊢
      rw [hS]
      by_cases hD : st.degree.getD x 0 = 1
      · have hmem := hinv.ones_stacked x hx hD hxf.2
        rw [hs] at hmem
        rcases List.mem_cons.mp hmem with hxb | hmem
        · exact absurd hxb hxf.1
        · exact List.mem_append_right _ hmem
      · have h2 := hle x
        exact List.mem_append_left _ (hin x (by omega) (by omega))

theorem peel_loop_inv_stack (kinfo : List keyinfo_t) (capacity : Nat)
    (bucket_counts : List Nat) (bucket_lists : List (List Nat))
    (hidx : ∀ k, k < kinfo.length → ∀ x, 1 ≤ refs (kinfo.getD k default) x → x < capacity)
    (hlists : ∀ x k, k ∈ bucket_lists.getD x [] →
      k < kinfo.length ∧ 1 ≤ refs (kinfo.getD k default) x)
    (hcomplete : ∀ k, k < kinfo.length → ∀ x, 1 ≤ refs (kinfo.getD k default) x →
      k ∈ (bucket_lists.getD x []).take (bucket_counts.getD x 0)) :
    ∀ (steps : Nat) (st : peel_state), peel_inv_stack kinfo capacity st →
      peel_inv_stack kinfo capacity
        (peel_loop kinfo bucket_counts bucket_lists steps st) := by
  intro steps
  induction steps with
  | zero => intro st h; exact h
  | succ steps ih =>
    intro st h
    unfold peel_loop
    cases hs : st.bucket_stack with
    | nil => exact h
    | cons b rest =>
      exact ih _ (peel_iter_inv_stack kinfo capacity bucket_counts bucket_lists hidx hlists
        hcomplete st b rest hs h)

/-! ## The peeling loop of a key array -/

theorem filled_of_lists_sound (keys : List Nat) (capacity : Nat) :
    ∀ x k, k ∈ (filled_of keys capacity).1.getD x [] →
      k < (key_infos keys capacity).length ∧
      1 ≤ refs ((key_infos keys capacity).getD k default) x := by
  unfold filled_of
  apply fill_lists_mem (key_infos keys capacity) (key_infos keys capacity) 0 _ rfl
  intro x k hk
  rw [getD_replicate_self] at hk
  exact absurd hk (List.not_mem_nil _)

theorem bucket_counts_eq_length (keys : List Nat) (capacity : Nat) (hpos : 1 ≤ capacity)
    (x : Nat) :
    (bucket_counts_of keys capacity).getD x 0
      = ((filled_of keys capacity).1.getD x []).length := by
  have hdeg := fill_lists_degree (key_infos keys capacity) 0
    (List.replicate capacity [], List.replicate capacity 0)
    (by simpa using key_infos_lt keys capacity hpos)
  have hlen := fill_lists_length (key_infos keys capacity) 0
    (List.replicate capacity [], List.replicate capacity 0)
    (by simpa using key_infos_lt keys capacity hpos)
  have hsnd := fill_lists_snd (key_infos keys capacity) 0
    (List.replicate capacity [], List.replicate capacity 0)
  unfold bucket_counts_of filled_of
  rw [← hsnd, hdeg.2.2 x, hlen.2 x, getD_replicate_self, getD_replicate_self]
  rfl

/-- The scan of lines 216-219 sees every key that references the bucket. -/
theorem filled_of_lists_complete (keys : List Nat) (capacity : Nat) (hpos : 1 ≤ capacity) :
    ∀ k, k < (key_infos keys capacity).length →
      ∀ x, 1 ≤ refs ((key_infos keys capacity).getD k default) x →
        k ∈ ((filled_of keys capacity).1.getD x []).take
          ((bucket_counts_of keys capacity).getD x 0) := by
  intro k hk x hx
  rw [bucket_counts_eq_length keys capacity hpos x, List.take_length]
  unfold filled_of
  apply fill_lists_complete (key_infos keys capacity) (key_infos keys capacity) 0 _ rfl
    (by simpa using key_infos_lt keys capacity hpos)
  right
  exact ⟨Nat.zero_le _, hk, hx⟩

theorem peel_init_inv_stack (keys : List Nat) (capacity : Nat) (hpos : 1 ≤ capacity) :
    peel_inv_stack (key_infos keys capacity) capacity (peel_init keys capacity) := by
  have hdeg := fill_lists_degree (key_infos keys capacity) 0
    (List.replicate capacity [], List.replicate capacity 0)
    (by simpa using key_infos_lt keys capacity hpos)
  have hexact : ∀ b, (filled_of keys capacity).2.getD b 0
      = live_refs (key_infos keys capacity) (List.replicate keys.length 0) b := by
    intro b
    unfold filled_of
    rw [hdeg.2.2 b, live_refs_initial, getD_replicate_self, Nat.zero_add]
  refine ⟨⟨?_, ?_, ?_, ?_, ?_, ?_⟩, ?_, ?_, ?_, ?_, ?_, ?_⟩
  · simp [peel_init, key_infos_length]
  · simpa [peel_init, filled_of] using hdeg.1
  · intro b _
    left
    exact hexact b
  · intro e he; exact absurd he (List.not_mem_nil _)
  · intro e he; exact absurd he (List.not_mem_nil _)
  · exact trivial
  · intro b _ _
    exact hexact b
  · intro i _ hrm
    exact absurd (getD_replicate_self keys.length i 0) hrm
  · exact seed_stack_nodup _ _
  · intro x hx
    obtain ⟨h1, h2⟩ := (seed_stack_mem _ _ _).mp hx
    exact ⟨le_of_eq h2, h1⟩
  · intro x _ hmem
    exact absurd hmem (List.not_mem_nil _)
  · intro b hb hdeg1 _
    exact (seed_stack_mem _ _ _).mpr ⟨hb, hdeg1⟩

/-- The extended invariant holds after any number of iterations of the peeling loop. -/
theorem peel_after_inv_stack (keys : List Nat) (capacity : Nat) (hpos : 1 ≤ capacity)
    (steps : Nat) :
    peel_inv_stack (key_infos keys capacity) capacity (peel_after keys capacity steps) := by
  unfold peel_after
  exact peel_loop_inv_stack _ _ _ _ (key_infos_refs_lt keys capacity hpos)
    (filled_of_lists_sound keys capacity) (filled_of_lists_complete keys capacity hpos)
    steps _ (peel_init_inv_stack keys capacity hpos)

theorem peel_length_le (kinfo : List keyinfo_t) (capacity : Nat) (st : peel_state)
    (hinv : peel_inv kinfo capacity st) : st.peel.length ≤ kinfo.length := by
  have hnd := peel_order_nodup _ _ _ hinv.peel_ordered
  have hsub : (st.peel.map Prod.fst).toFinset ⊆ Finset.range kinfo.length := by
    intro x hx
    obtain ⟨e, he, rfl⟩ := List.mem_map.mp (List.mem_toFinset.mp hx)
    exact Finset.mem_range.mpr (hinv.peel_removed e he).1
  have hcard := Finset.card_le_card hsub
  rw [List.toFinset_card_of_nodup hnd, Finset.card_range, List.length_map] at hcard
  exact hcard

theorem nodup_length_le (l : List Nat) (n : Nat) (hnd : l.Nodup) (hlt : ∀ x ∈ l, x < n) :
    l.length ≤ n := by
  have hsub : l.toFinset ⊆ Finset.range n := by
    intro x hx
    exact Finset.mem_range.mpr (hlt x (List.mem_toFinset.mp hx))
  have hcard := Finset.card_le_card hsub
  rw [List.toFinset_card_of_nodup hnd, Finset.card_range] at hcard
  exact hcard

theorem stack_length_le (kinfo : List keyinfo_t) (capacity : Nat) (st : peel_state)
    (hinv : peel_inv_stack kinfo capacity st) : st.bucket_stack.length ≤ capacity :=
  nodup_length_le _ _ hinv.stack_nodup (fun x hx => (hinv.stack_degree x hx).2)

/-- The buckets pushed by one iteration: pairwise distinct, each with a degree of at least 2
before the iteration and at most 1 after it; no degree grows. -/
theorem peel_iter_pushes (kinfo : List keyinfo_t) (capacity : Nat) (bucket_counts : List Nat)
    (bucket_lists : List (List Nat))
    (hidx : ∀ k, k < kinfo.length → ∀ x, 1 ≤ refs (kinfo.getD k default) x → x < capacity)
    (hlists : ∀ x k, k ∈ bucket_lists.getD x [] →
      k < kinfo.length ∧ 1 ≤ refs (kinfo.getD k default) x)
    (st : peel_state) (b : Nat) (rest : List Nat) (hinv : peel_inv kinfo capacity st) :
    (peel_iter kinfo bucket_counts bucket_lists st b rest).bucket_stack
      = pushed_by rest (peel_iter kinfo bucket_counts bucket_lists st b rest) ++ rest ∧
    (pushed_by rest (peel_iter kinfo bucket_counts bucket_lists st b rest)).Nodup ∧
    (∀ x ∈ pushed_by rest (peel_iter kinfo bucket_counts bucket_lists st b rest),
      2 ≤ st.degree.getD x 0 ∧
      (peel_iter kinfo bucket_counts bucket_lists st b rest).degree.getD x 0 ≤ 1) ∧
    (∀ x, (peel_iter kinfo bucket_counts bucket_lists st b rest).degree.getD x 0
      ≤ st.degree.getD x 0) := by
  have hP : ∀ P : List Nat,
      (peel_iter kinfo bucket_counts bucket_lists st b rest).bucket_stack = P ++ rest →
      pushed_by rest (peel_iter kinfo bucket_counts bucket_lists st b rest) = P := by
    intro P h
    unfold pushed_by
    rw [h, List.length_append, Nat.add_sub_cancel, List.take_left']
    rfl
  rcases peel_iter_cases kinfo capacity bucket_counts bucket_lists hidx hlists st b rest
      hinv with
    ⟨heq, _⟩ | ⟨k, _, _, _, _, _, _, _, heq⟩
  · have hstk : (peel_iter kinfo bucket_counts bucket_lists st b rest).bucket_stack
        = [] ++ rest := by rw [heq]; rfl
    rw [hP [] hstk]
    refine ⟨hstk, List.nodup_nil, fun x hx => absurd hx (List.not_mem_nil _), ?_⟩
    intro x
    rw [heq]
  · obtain ⟨P, hS, hPnd, hP2, hle, _⟩ := release_fold_pushes
      (other_buckets (kinfo.getD k default) b) (st.degree, rest)
    have hstk : (peel_iter kinfo bucket_counts bucket_lists st b rest).bucket_stack
        = P ++ rest := by rw [heq]; exact hS
    rw [hP P hstk]
    refine ⟨hstk, hPnd, ?_, ?_⟩
    · intro x hx
      rw [heq]
      exact hP2 x hx
    · intro x
      rw [heq]
      exact hle x

/-- Every bucket is pushed at most once: the buckets seeded and those pushed later form a
list without repetition. -/
theorem push_log_nodup (kinfo : List keyinfo_t) (capacity : Nat) (bucket_counts : List Nat)
    (bucket_lists : List (List Nat))
    (hidx : ∀ k, k < kinfo.length → ∀ x, 1 ≤ refs (kinfo.getD k default) x → x < capacity)
    (hlists : ∀ x k, k ∈ bucket_lists.getD x [] →
      k < kinfo.length ∧ 1 ≤ refs (kinfo.getD k default) x) :
    ∀ (steps : Nat) (st : peel_state) (L : List Nat), peel_inv kinfo capacity st →
      L.Nodup → (∀ x ∈ L, st.degree.getD x 0 ≤ 1) →
      (L ++ push_log kinfo bucket_counts bucket_lists steps st).Nodup := by
  intro steps
  induction steps with
  | zero =>
    intro st L _ hL _
    simpa [push_log] using hL
  | succ steps ih =>
    intro st L hinv hL hdeg
    unfold push_log
    cases hs : st.bucket_stack with
    | nil => simpa using hL
    | cons b rest =>
      simp only
      obtain ⟨_, hPnd, hP2, hle⟩ := peel_iter_pushes kinfo capacity bucket_counts bucket_lists
        hidx hlists st b rest hinv
      rw [← List.append_assoc]
      apply ih _ _ (peel_iter_inv kinfo capacity bucket_counts bucket_lists hidx hlists st b
        rest hinv)
      · rw [List.nodup_append]
        refine ⟨hL, hPnd, ?_⟩
        intro x hx1 hx2
        have := hdeg x hx1
        have := (hP2 x hx2).1
        omega
      · intro x hx
        rcases List.mem_append.mp hx with hx | hx
        · exact le_trans (hle x) (hdeg x hx)
        · exact (hP2 x hx).2

/-- The guard `degree[ob] > 0` (line 237) is never skipped: when a key `k` found in the list
of the popped bucket `b` is peeled, each of its other buckets still has a positive degree
when its turn comes in the inner loop. -/
theorem release_guard_pos (kinfo : List keyinfo_t) (capacity : Nat) (st : peel_state)
    (hidx : ∀ k, k < kinfo.length → ∀ x, 1 ≤ refs (kinfo.getD k default) x → x < capacity)
    (hinv : peel_inv kinfo capacity st) (k b : Nat) (rest : List Nat)
    (hk : k < kinfo.length) (hlive : st.key_removed.getD k 0 = 0)
    (pre : List Nat) (ob : Nat) (post : List Nat)
    (hsplit : other_buckets (kinfo.getD k default) b = pre ++ ob :: post) :
    0 < (pre.foldl release_bucket (st.degree, rest)).1.getD ob 0 := by
  have hcount := count_other_buckets (kinfo.getD k default) b ob
  rw [hsplit, List.count_append, List.count_cons_self] at hcount
  have hob : ob ≠ b := by
    intro h
    rw [if_pos h] at hcount
    omega
  rw [if_neg hob] at hcount
  have hge := live_refs_ge kinfo st.key_removed k ob hk hlive
  have hlt : ob < capacity := hidx k hk ob (by omega)
  have hfold : (pre.foldl release_bucket (st.degree, rest)).1.getD ob 0
      = st.degree.getD ob 0 - pre.count ob :=
    (release_fold_degree pre (st.degree, rest) ob).2
  rw [hfold]
  rcases hinv.degree_ok ob hlt with h | ⟨h, _⟩ <;> omega

theorem release_fold_stack_mono :
    ∀ (l1 l2 : List Nat) (s : List Nat × List Nat),
      (l1.foldl release_bucket s).2.length
        ≤ ((l1 ++ l2).foldl release_bucket s).2.length := by
  intro l1 l2 s
  rw [List.foldl_append]
  obtain ⟨P, hS, _⟩ := release_fold_pushes l2 (l1.foldl release_bucket s)
  rw [hS, List.length_append]
  omega

/-- C18: at every point of the peeling loop of a key array (after any number `steps` of
iterations, with the capacity chosen by `xor8_populate_from_keys`): each bucket has been
pushed at most once (the seeded buckets and the buckets pushed so far are pairwise
distinct); `stack_top ≤ capacity` and `peel_top ≤ nkeys`; for every bucket not used as an
assigned bucket, `degree[b]` is the number of references to `b` from keys not removed; and
in the next iteration, if the popped bucket has degree 1, a key is found
(`found_key != UINT32_MAX`), and every bucket `ob` of the inner loop has `degree[ob] > 0`
when its turn comes, the stack staying within `capacity` after each push. -/
theorem peel_loop_bounds (keys : List Nat) (steps : Nat) :
    (seed_stack (filled_of keys (xor8_capacity_for_n keys.length)).2
        (xor8_capacity_for_n keys.length) ++
      push_log (key_infos keys (xor8_capacity_for_n keys.length))
        (bucket_counts_of keys (xor8_capacity_for_n keys.length))
        (filled_of keys (xor8_capacity_for_n keys.length)).1 steps
        (peel_init keys (xor8_capacity_for_n keys.length))).Nodup ∧
    (peel_after keys (xor8_capacity_for_n keys.length) steps).bucket_stack.length
      ≤ xor8_capacity_for_n keys.length ∧
    (peel_after keys (xor8_capacity_for_n keys.length) steps).peel.length ≤ keys.length ∧
    (∀ b, b < xor8_capacity_for_n keys.length →
      b ∉ (peel_after keys (xor8_capacity_for_n keys.length) steps).peel.map Prod.snd →
      (peel_after keys (xor8_capacity_for_n keys.length) steps).degree.getD b 0
        = live_refs (key_infos keys (xor8_capacity_for_n keys.length))
            (peel_after keys (xor8_capacity_for_n keys.length) steps).key_removed b) ∧
    (∀ b rest,
      (peel_after keys (xor8_capacity_for_n keys.length) steps).bucket_stack = b :: rest →
      (peel_after keys (xor8_capacity_for_n keys.length) steps).degree.getD b 0 = 1 →
      ∃ k,
        find_key (peel_after keys (xor8_capacity_for_n keys.length) steps).key_removed
          (((filled_of keys (xor8_capacity_for_n keys.length)).1.getD b []).take
            ((bucket_counts_of keys (xor8_capacity_for_n keys.length)).getD b 0)) = some k ∧
        ∀ pre ob post,
          other_buckets ((key_infos keys (xor8_capacity_for_n keys.length)).getD k default) b
            = pre ++ ob :: post →
          0 < (pre.foldl release_bucket
            ((peel_after keys (xor8_capacity_for_n keys.length) steps).degree, rest)).1.getD
              ob 0 ∧
          ((pre ++ [ob]).foldl release_bucket
            ((peel_after keys (xor8_capacity_for_n keys.length) steps).degree, rest)).2.length
            ≤ xor8_capacity_for_n keys.length) := by
  have hpos : 1 ≤ xor8_capacity_for_n keys.length := by
    have := xor8_capacity_for_n_ge keys.length; omega
  generalize hcap : xor8_capacity_for_n keys.length = capacity at hpos ⊢
  have hidx := key_infos_refs_lt keys capacity hpos
  have hlists := filled_of_lists_sound keys capacity
  have hcomplete := filled_of_lists_complete keys capacity hpos
  have hinit := peel_init_inv_stack keys capacity hpos
  have hinv := peel_after_inv_stack keys capacity hpos steps
  refine ⟨?_, stack_length_le _ _ _ hinv, ?_, hinv.degree_exact, ?_⟩
  · apply push_log_nodup _ capacity _ _ hidx hlists steps _ _ hinit.base
      (seed_stack_nodup _ _)
    intro x hx
    exact (hinit.stack_degree x hx).1
  · have := peel_length_le _ _ _ hinv.base
    rwa [key_infos_length] at this
  · intro b rest hs hdeg
    have hbmem : b ∈ (peel_after keys capacity steps).bucket_stack := by
      rw [hs]; exact List.mem_cons_self _ _
    have hfound := find_key_found _ capacity _ _ hcomplete _ hinv b hbmem hdeg
    cases hfind : find_key (peel_after keys capacity steps).key_removed
        (((filled_of keys capacity).1.getD b []).take
          ((bucket_counts_of keys capacity).getD b 0)) with
    | none => exact absurd hfind hfound
    | some k =>
      refine ⟨k, rfl, ?_⟩
      intro pre ob post hsplit
      obtain ⟨hmem, hlive⟩ := find_key_some _ _ _ hfind
      obtain ⟨hk, _⟩ := hlists b k (List.mem_of_mem_take hmem)
      refine ⟨release_guard_pos _ capacity _ hidx hinv.base k b rest hk hlive pre ob post
        hsplit, ?_⟩
      have hnext := peel_iter_inv_stack _ capacity (bucket_counts_of keys capacity)
        (filled_of keys capacity).1 hidx hlists hcomplete _ b rest hs hinv
      have hlen := stack_length_le _ _ _ hnext
      have hiter : (peel_iter (key_infos keys capacity) (bucket_counts_of keys capacity)
          (filled_of keys capacity).1 (peel_after keys capacity steps) b rest).bucket_stack
          = ((other_buckets ((key_infos keys capacity).getD k default) b).foldl
              release_bucket ((peel_after keys capacity steps).degree, rest)).2 := by
        unfold peel_iter
        rw [if_neg (by rw [hdeg]; decide), hfind]
      rw [hiter, hsplit] at hlen
      have hmono := release_fold_stack_mono (pre ++ [ob]) post
        ((peel_after keys capacity steps).degree, rest)
      have happ : pre ++ [ob] ++ post = pre ++ ob :: post := by simp
      rw [happ] at hmono
      omega

/-! ## The peel order and the reverse replay -/

theorem live_refs_mono (kinfo : List keyinfo_t) (r1 r2 : List Nat) (b : Nat)
    (h : ∀ t, t < kinfo.length → r1.getD t 0 = 0 → r2.getD t 0 = 0) :
    live_refs kinfo r1 b ≤ live_refs kinfo r2 b := by
  unfold live_refs
  apply Finset.sum_le_sum
  intro t ht
  by_cases h1 : r1.getD t 0 = 0
  · rw [if_pos h1, if_pos (h t (Finset.mem_range.mp ht) h1)]
  · rw [if_neg h1]
    exact Nat.zero_le _

theorem live_refs_pair (kinfo : List keyinfo_t) (removed : List Nat) (i j b : Nat)
    (hi : i < kinfo.length) (hj : j < kinfo.length) (hij : i ≠ j)
    (hli : removed.getD i 0 = 0) (hlj : removed.getD j 0 = 0) :
    refs (kinfo.getD i default) b + refs (kinfo.getD j default) b
      ≤ live_refs kinfo removed b := by
  unfold live_refs
  have hsub : ({i, j} : Finset Nat) ⊆ Finset.range kinfo.length := by
    intro t ht
    rcases Finset.mem_insert.mp ht with h | h
    · rw [h]; exact Finset.mem_range.mpr hi
    · rw [Finset.mem_singleton.mp h]; exact Finset.mem_range.mpr hj
  have hle := Finset.sum_le_sum_of_subset
    (f := fun t => if removed.getD t 0 = 0 then refs (kinfo.getD t default) b else 0) hsub
  rw [Finset.sum_pair hij] at hle
  simp only [hli, hlj, if_true] at hle
  exact hle

/-- A set `S` of keys none of which can be the single live reference of a bucket while all
of `S` is live stays live through an iteration of the peeling loop. -/
theorem unpeelable_iter (kinfo : List keyinfo_t) (capacity : Nat) (bucket_counts : List Nat)
    (bucket_lists : List (List Nat))
    (hidx : ∀ k, k < kinfo.length → ∀ x, 1 ≤ refs (kinfo.getD k default) x → x < capacity)
    (hlists : ∀ x k, k ∈ bucket_lists.getD x [] →
      k < kinfo.length ∧ 1 ≤ refs (kinfo.getD k default) x)
    (S : Nat → Prop)
    (hS : ∀ (removed : List Nat) (b k : Nat),
      (∀ t, t < kinfo.length → S t → removed.getD t 0 = 0) → k < kinfo.length → S k →
      refs (kinfo.getD k default) b = 1 → live_refs kinfo removed b ≠ 1)
    (st : peel_state) (b : Nat) (rest : List Nat) (hinv : peel_inv kinfo capacity st)
    (hlive : ∀ t, t < kinfo.length → S t → st.key_removed.getD t 0 = 0) :
    ∀ t, t < kinfo.length → S t →
      (peel_iter kinfo bucket_counts bucket_lists st b rest).key_removed.getD t 0 = 0 := by
  rcases peel_iter_cases kinfo capacity bucket_counts bucket_lists hidx hlists st b rest
      hinv with
    ⟨heq, _⟩ | ⟨k, _, hk, _, hrefs1, hliveb, _, _, heq⟩
  · rw [heq]; exact hlive
  · intro t ht hSt
    rw [heq]
    have hkt : k ≠ t := by
      intro h
      subst h
      exact hS st.key_removed b k hlive hk hSt hrefs1 hliveb
    show (st.key_removed.set k 1).getD t 0 = 0
    rw [getD_set_ne _ _ _ _ _ hkt]
    exact hlive t ht hSt

theorem unpeelable_loop (kinfo : List keyinfo_t) (capacity : Nat) (bucket_counts : List Nat)
    (bucket_lists : List (List Nat))
    (hidx : ∀ k, k < kinfo.length → ∀ x, 1 ≤ refs (kinfo.getD k default) x → x < capacity)
    (hlists : ∀ x k, k ∈ bucket_lists.getD x [] →
      k < kinfo.length ∧ 1 ≤ refs (kinfo.getD k default) x)
    (S : Nat → Prop)
    (hS : ∀ (removed : List Nat) (b k : Nat),
      (∀ t, t < kinfo.length → S t → removed.getD t 0 = 0) → k < kinfo.length → S k →
      refs (kinfo.getD k default) b = 1 → live_refs kinfo removed b ≠ 1) :
    ∀ (steps : Nat) (st : peel_state), peel_inv kinfo capacity st →
      (∀ t, t < kinfo.length → S t → st.key_removed.getD t 0 = 0) →
      ∀ t, t < kinfo.length → S t →
        (peel_loop kinfo bucket_counts bucket_lists steps st).key_removed.getD t 0 = 0 := by
  intro steps
  induction steps with
  | zero => intro st _ h; exact h
  | succ steps ih =>
    intro st hinv hlive
    unfold peel_loop
    cases hs : st.bucket_stack with
    | nil => exact hlive
    | cons b rest =>
      exact ih _
        (peel_iter_inv kinfo capacity bucket_counts bucket_lists hidx hlists st b rest hinv)
        (unpeelable_iter kinfo capacity bucket_counts bucket_lists hidx hlists S hS st b rest
          hinv hlive)

/-- A key array with a non-empty set of keys that can never be peeled is not peeled
completely, and none of these keys is in the peel order. -/
theorem unpeelable_fails (keys : List Nat) (capacity : Nat) (hpos : 1 ≤ capacity)
    (S : Nat → Prop)
    (hS : ∀ (removed : List Nat) (b k : Nat),
      (∀ t, t < (key_infos keys capacity).length → S t → removed.getD t 0 = 0) →
      k < (key_infos keys capacity).length → S k →
      refs ((key_infos keys capacity).getD k default) b = 1 →
      live_refs (key_infos keys capacity) removed b ≠ 1) :
    (∀ e ∈ (peel_keys keys capacity).peel, e.1 < keys.length → ¬ S e.1) ∧
    ((∃ t, t < keys.length ∧ S t) →
      (peel_keys keys capacity).peel.length ≠ keys.length) := by
  have hinv := peel_keys_inv keys capacity hpos
  have hlive : ∀ t, t < (key_infos keys capacity).length → S t →
      (peel_keys keys capacity).key_removed.getD t 0 = 0 := by
    rw [peel_keys_eq_peel_after]
    unfold peel_after
    apply unpeelable_loop _ capacity _ _ (key_infos_refs_lt keys capacity hpos)
      (filled_of_lists_sound keys capacity) S hS _ _ (peel_init_inv_stack keys capacity hpos).base
    intro t _ _
    exact getD_replicate_self _ _ _
  have hnot : ∀ e ∈ (peel_keys keys capacity).peel, e.1 < keys.length → ¬ S e.1 := by
    intro e he hlt hSe
    have h1 := (hinv.peel_removed e he).2
    exact h1 (hlive e.1 (by rw [key_infos_length]; exact hlt) hSe)
  refine ⟨hnot, ?_⟩
  rintro ⟨t, ht, hSt⟩ hfull
  obtain ⟨e, he, het⟩ := peel_keys_cover keys capacity hpos hfull t ht
  exact hnot e he (by rw [het]; exact ht) (by rw [het]; exact hSt)

/-- Two copies of the same key hash can never be peeled. -/
theorem duplicates_unpeelable (keys : List Nat) (capacity i j : Nat)
    (hi : i < keys.length) (hj : j < keys.length) (hij : i ≠ j)
    (heq : keys.getD i 0 = keys.getD j 0) :
    ∀ (removed : List Nat) (b k : Nat),
      (∀ t, t < (key_infos keys capacity).length → (t = i ∨ t = j) →
        removed.getD t 0 = 0) →
      k < (key_infos keys capacity).length → (k = i ∨ k = j) →
      refs ((key_infos keys capacity).getD k default) b = 1 →
      live_refs (key_infos keys capacity) removed b ≠ 1 := by
  intro removed b k hlive _ hk href
  have hi' : i < (key_infos keys capacity).length := by rw [key_infos_length]; exact hi
  have hj' : j < (key_infos keys capacity).length := by rw [key_infos_length]; exact hj
  have hsame : (key_infos keys capacity).getD i default
      = (key_infos keys capacity).getD j default := by
    rw [key_infos_getD _ _ _ hi, key_infos_getD _ _ _ hj, heq]
  have hpair := live_refs_pair (key_infos keys capacity) removed i j b hi' hj' hij
    (hlive i hi' (Or.inl rfl)) (hlive j hj' (Or.inr rfl))
  have hboth : refs ((key_infos keys capacity).getD i default) b = 1 ∧
      refs ((key_infos keys capacity).getD j default) b = 1 := by
    rcases hk with h | h
    · rw [h] at href; exact ⟨href, hsame ▸ href⟩
    · rw [h] at href; exact ⟨hsame.symm ▸ href, href⟩
  omega

theorem populate_fails_of_duplicate (xf : xor8_t) (keys : List Nat) (i j : Nat)
    (hi : i < keys.length) (hj : j < keys.length) (hij : i ≠ j)
    (heq : keys.getD i 0 = keys.getD j 0) :
    (∀ e ∈ (peel_keys keys (xor8_capacity_for_n keys.length)).peel, e.1 ≠ i ∧ e.1 ≠ j) ∧
    xor8_populate_from_keys xf keys = (0, { capacity := 0, finger := [] }) ∧
    xor8_build_with_retries xf keys = (0, { capacity := 0, finger := [] }) := by
  have hpos : 1 ≤ xor8_capacity_for_n keys.length := by
    have := xor8_capacity_for_n_ge keys.length; omega
  obtain ⟨hnot, hfail⟩ := unpeelable_fails keys _ hpos (fun t => t = i ∨ t = j)
    (duplicates_unpeelable keys _ i j hi hj hij heq)
  have hne := hfail ⟨i, hi, Or.inl rfl⟩
  have hpop : (xor8_populate_from_keys xf keys).1 ≠ 1 := by
    intro hok
    exact hne (xor8_populate_success xf keys (by omega) hok).1
  refine ⟨?_, (xor8_populate_failure xf keys hpop).2.2,
    build_attempts_failure keys xf hpop 5 xf (by decide)⟩
  intro e he
  constructor
  · intro h
    exact hnot e he (by rw [h]; exact hi) (Or.inl h)
  · intro h
    exact hnot e he (by rw [h]; exact hj) (Or.inr h)

/-- C17: for every key array in which the same hash value occurs at two different indices
`i ≠ j`, neither copy is ever peeled, `xor8_populate_from_keys` returns `0` (filter
released) and so does `xor8_build_with_retries`; in particular a text in which the window
of length `m` at position `p` occurs again at position `q` cannot be indexed for that `m`. -/
theorem xor8_duplicate_keys_fail (xf : xor8_t) (keys : List Nat) (i j : Nat)
    (hi : i < keys.length) (hj : j < keys.length) (hij : i ≠ j)
    (heq : keys.getD i 0 = keys.getD j 0) :
    (∀ e ∈ (peel_keys keys (xor8_capacity_for_n keys.length)).peel, e.1 ≠ i ∧ e.1 ≠ j) ∧
    (xor8_populate_from_keys xf keys).1 = 0 ∧
    (xor8_build_with_retries xf keys).1 = 0 ∧
    (∀ (text : List Nat) (text_len m p q : Nat), text_len - m + 1 < 2 ^ 32 →
      p < q → q + m ≤ text_len →
      (∀ t, t < m → text.getD (p + t) 0 = text.getD (q + t) 0) →
      (xor8_build_with_retries xf (build_substring_keys text text_len m)).1 = 0) := by
  obtain ⟨h1, h2, h3⟩ := populate_fails_of_duplicate xf keys i j hi hj hij heq
  refine ⟨h1, by rw [h2], by rw [h3], ?_⟩
  intro text text_len m p q hsize hpq hq hsame
  obtain ⟨hp1, hp2⟩ := build_substring_keys_getD text text_len m p hsize (by omega)
  obtain ⟨hq1, hq2⟩ := build_substring_keys_getD text text_len m q hsize hq
  have hkeys : (build_substring_keys text text_len m).getD p 0
      = (build_substring_keys text text_len m).getD q 0 := by
    rw [hp2, hq2]
    apply fnv1a_64_congr
    intro t ht
    rw [getD_drop_add, getD_drop_add]
    exact hsame t ht
  rw [(populate_fails_of_duplicate xf _ p q hp1 hq1 (by omega) hkeys).2.2]

theorem xor8_duplicate_keys_fail_witness :
    (0 : Nat) < [7, 7].length ∧ (1 : Nat) < [7, 7].length ∧ (0 : Nat) ≠ 1 ∧
    [7, 7].getD 0 0 = [7, 7].getD 1 0 ∧
    (xor8_populate_from_keys { capacity := 0, finger := [] } [7, 7]).1 = 0 ∧
    (xor8_build_with_retries { capacity := 0, finger := [] } [7, 7]).1 = 0 :=
  ⟨by decide, by decide, by decide, by decide,
   (xor8_duplicate_keys_fail { capacity := 0, finger := [] } [7, 7] 0 1 (by decide)
      (by decide) (by decide) (by decide)).2.1,
   (xor8_duplicate_keys_fail { capacity := 0, finger := [] } [7, 7] 0 1 (by decide)
      (by decide) (by decide) (by decide)).2.2.1⟩

/-! ## Build success and the 2-core -/

theorem live_refs_cons (a : keyinfo_t) (l : List keyinfo_t) (R : List Nat) (b : Nat) :
    live_refs (a :: l) R b
      = (if R.getD 0 0 = 0 then refs a b else 0) + live_refs l (R.drop 1) b := by
  unfold live_refs
  rw [List.length_cons, Finset.sum_range_succ']
  simp only [List.getD_cons_succ, List.getD_cons_zero]
  rw [Nat.add_comm]
  congr 1
  apply Finset.sum_congr rfl
  intro t _
  rw [getD_drop_add, Nat.add_comm 1 t]

/-- A sub-multiset of the keys is the set of live keys of some removal mask. -/
theorem multiset_to_mask :
    ∀ (l : List keyinfo_t) (T : Multiset keyinfo_t), T ≤ (l : Multiset keyinfo_t) →
      ∃ R : List Nat, (∀ b, live_refs l R b = (T.map (fun k => refs k b)).sum) ∧
        (T ≠ 0 → ∃ t, t < l.length ∧ R.getD t 0 = 0) := by
  intro l
  induction l with
  | nil =>
    intro T hT
    have hT0 : T = 0 := by
      rw [Multiset.coe_nil] at hT
      exact Multiset.le_zero.mp hT
    refine ⟨[], ?_, fun h => absurd hT0 h⟩
    intro b
    rw [hT0]
    simp [live_refs]
  | cons a l ih =>
    intro T hT
    rw [← Multiset.cons_coe] at hT
    by_cases ha : a ∈ T
    · have hle : T.erase a ≤ (l : Multiset keyinfo_t) :=
        Multiset.erase_le_iff_le_cons.mpr hT
      obtain ⟨R, hR, _⟩ := ih (T.erase a) hle
      refine ⟨0 :: R, ?_, fun _ => ⟨0, by simp, rfl⟩⟩
      intro b
      rw [live_refs_cons]
      have hd : (0 :: R).drop 1 = R := rfl
      have hg : (0 :: R).getD 0 0 = 0 := rfl
      rw [hd, hg, if_pos rfl, hR b]
      conv_rhs => rw [← Multiset.cons_erase ha]
      rw [Multiset.map_cons, Multiset.sum_cons]
    · have hle : T ≤ (l : Multiset keyinfo_t) := (Multiset.le_cons_of_not_mem ha).mp hT
      obtain ⟨R, hR, hne⟩ := ih T hle
      refine ⟨1 :: R, ?_, ?_⟩
      · intro b
        rw [live_refs_cons]
        have hd : (1 :: R).drop 1 = R := rfl
        have hg : (1 :: R).getD 0 0 = 1 := rfl
        rw [hd, hg, if_neg (by decide), hR b, Nat.zero_add]
      · intro hT0
        obtain ⟨t, ht, hRt⟩ := hne hT0
        exact ⟨t + 1, by simpa using ht, by simpa using hRt⟩

/-- The live keys of a removal mask form a sub-multiset of the keys. -/
theorem mask_to_multiset :
    ∀ (l : List keyinfo_t) (R : List Nat),
      ∃ T : Multiset keyinfo_t, T ≤ (l : Multiset keyinfo_t) ∧
        (∀ b, (T.map (fun k => refs k b)).sum = live_refs l R b) ∧
        ((∃ t, t < l.length ∧ R.getD t 0 = 0) → T ≠ 0) := by
  intro l
  induction l with
  | nil =>
    intro R
    refine ⟨0, le_refl _, ?_, ?_⟩
    · intro b; simp [live_refs]
    · rintro ⟨t, ht, _⟩
      exact absurd ht (by simp)
  | cons a l ih =>
    intro R
    obtain ⟨T, hle, hsum, hne⟩ := ih (R.drop 1)
    have hle' : T ≤ ((a :: l : List keyinfo_t) : Multiset keyinfo_t) := by
      rw [← Multiset.cons_coe]
      exact le_trans hle (Multiset.le_cons_self _ _)
    by_cases h0 : R.getD 0 0 = 0
    · refine ⟨a ::ₘ T, ?_, ?_, fun _ => Multiset.cons_ne_zero⟩
      · rw [← Multiset.cons_coe]
        exact Multiset.cons_le_cons a hle
      · intro b
        rw [live_refs_cons, if_pos h0, Multiset.map_cons, Multiset.sum_cons, hsum b]
    · refine ⟨T, hle', ?_, ?_⟩
      · intro b
        rw [live_refs_cons, if_neg h0, hsum b, Nat.zero_add]
      · rintro ⟨t, ht, hRt⟩
        cases t with
        | zero => exact absurd hRt h0
        | succ t =>
          apply hne
          refine ⟨t, by simpa using ht, ?_⟩
          rw [getD_drop_add, Nat.add_comm 1 t]
          exact hRt

theorem cover_length_le (l : List Nat) (n : Nat) (h : ∀ i, i < n → i ∈ l) : n ≤ l.length := by
  have hsub : Finset.range n ⊆ l.toFinset := by
    intro x hx
    exact List.mem_toFinset.mpr (h x (Finset.mem_range.mp hx))
  have hcard := Finset.card_le_card hsub
  rw [Finset.card_range] at hcard
  exact le_trans hcard (List.toFinset_card_le l)

/-- When the peeling loop has ended, no bucket is referenced exactly once by the keys that
are left. -/
theorem peel_keys_closed (keys : List Nat) (capacity : Nat) (hpos : 1 ≤ capacity) (b : Nat) :
    live_refs (key_infos keys capacity) (peel_keys keys capacity).key_removed b ≠ 1 := by
  have hinv : peel_inv_stack (key_infos keys capacity) capacity (peel_keys keys capacity) := by
    rw [peel_keys_eq_peel_after]
    exact peel_after_inv_stack keys capacity hpos _
  have hempty := peel_keys_stack_empty keys capacity hpos
  by_cases hb : b < capacity
  · by_cases hass : b ∈ (peel_keys keys capacity).peel.map Prod.snd
    · obtain ⟨e, he, rfl⟩ := List.mem_map.mp hass
      rw [hinv.base.peel_dead e he]
      decide
    · rw [← hinv.degree_exact b hb hass]
      intro h1
      have := hinv.ones_stacked b hb h1 hass
      rw [hempty] at this
      exact absurd this (List.not_mem_nil _)
  · have hzero : live_refs (key_infos keys capacity) (peel_keys keys capacity).key_removed b
        = 0 := by
      unfold live_refs
      apply Finset.sum_eq_zero
      intro t ht
      have hnot : refs ((key_infos keys capacity).getD t default) b = 0 := by
        by_contra hne
        have := key_infos_refs_lt keys capacity hpos t (Finset.mem_range.mp ht) b (by omega)
        omega
      rw [hnot]
      simp
    rw [hzero]
    decide

/-- A key array is peeled completely exactly when it has no non-empty 2-core. -/
theorem peel_complete_iff (keys : List Nat) (capacity : Nat) (hpos : 1 ≤ capacity) :
    (peel_keys keys capacity).peel.length = keys.length ↔
      ¬ has_core (key_infos keys capacity) := by
  constructor
  · rintro hfull ⟨T, hle, hne, hclosed⟩
    obtain ⟨R, hR, hex⟩ := multiset_to_mask _ T hle
    obtain ⟨t, ht, hRt⟩ := hex hne
    have hfail := (unpeelable_fails keys capacity hpos (fun t => R.getD t 0 = 0) (by
      intro removed b k hlive hk hSk href
      have h1 := live_refs_mono (key_infos keys capacity) R removed b hlive
      have h2 := live_refs_ge (key_infos keys capacity) R k b hk hSk
      have h3 := hclosed b
      rw [← hR b] at h3
      omega)).2
    rw [key_infos_length] at ht
    exact hfail ⟨t, ht, hRt⟩ hfull
  · intro hno
    by_contra hne
    have hinv : peel_inv_stack (key_infos keys capacity) capacity
        (peel_keys keys capacity) := by
      rw [peel_keys_eq_peel_after]
      exact peel_after_inv_stack keys capacity hpos _
    obtain ⟨T, hle, hsum, hT⟩ := mask_to_multiset (key_infos keys capacity)
      (peel_keys keys capacity).key_removed
    apply hno
    refine ⟨T, hle, hT ?_, ?_⟩
    · by_contra hall
      have hcover : ∀ i, i < keys.length →
          i ∈ (peel_keys keys capacity).peel.map Prod.fst := by
        intro i hi
        apply hinv.removed_peeled i (by rw [key_infos_length]; exact hi)
        intro h0
        exact hall ⟨i, by rw [key_infos_length]; exact hi, h0⟩
      have h1 := cover_length_le _ _ hcover
      rw [List.length_map] at h1
      have h2 := peel_keys_length_le keys capacity hpos
      omega
    · intro b
      rw [hsum b]
      exact peel_keys_closed keys capacity hpos b

theorem has_core_perm (l l' : List keyinfo_t) (h : l.Perm l') :
    has_core l ↔ has_core l' := by
  unfold has_core
  rw [Multiset.coe_eq_coe.mpr h]

theorem populate_success_iff (xf : xor8_t) (keys : List Nat) :
    (xor8_populate_from_keys xf keys).1 = 1 ↔
      ¬ has_core (key_infos keys (xor8_capacity_for_n keys.length)) := by
  have hpos : 1 ≤ xor8_capacity_for_n keys.length := by
    have := xor8_capacity_for_n_ge keys.length; omega
  rw [← peel_complete_iff keys _ hpos]
  by_cases h0 : keys.length = 0
  · have hnil : keys = [] := List.length_eq_zero.mp h0
    subst hnil
    constructor
    · intro _; rfl
    · intro _; rfl
  · constructor
    · intro hok
      exact (xor8_populate_success xf keys (by omega) hok).1
    · intro hfull
      simp only [xor8_populate_from_keys, h0, if_false, hfull, ne_eq, not_true_eq_false]

/-- C19: for every key array and every permutation of it, `xor8_populate_from_keys` returns
`1` on the permuted array exactly when it returns `1` on the original, because it returns
`1` exactly when the keys have no non-empty 2-core (a non-empty sub-multiset of the keys in
which no bucket is referenced exactly once); so a retry on shuffled keys fails whenever the
build on the original keys fails. -/
theorem xor8_populate_perm (xf xf' : xor8_t) (keys keys' : List Nat)
    (hperm : keys.Perm keys') :
    ((xor8_populate_from_keys xf keys).1 = 1 ↔ (xor8_populate_from_keys xf' keys').1 = 1) ∧
    ((xor8_populate_from_keys xf keys).1 = 1 ↔
      ¬ has_core (key_infos keys (xor8_capacity_for_n keys.length))) ∧
    ((xor8_populate_from_keys xf keys).1 ≠ 1 →
      (xor8_build_with_retries xf' keys').1 = 0) := by
  have hiff : (xor8_populate_from_keys xf keys).1 = 1 ↔
      (xor8_populate_from_keys xf' keys').1 = 1 := by
    rw [populate_success_iff, populate_success_iff, hperm.length_eq]
    have hp : (key_infos keys (xor8_capacity_for_n keys'.length)).Perm
        (key_infos keys' (xor8_capacity_for_n keys'.length)) := by
      unfold key_infos
      exact hperm.map _
    rw [has_core_perm _ _ hp]
  refine ⟨hiff, populate_success_iff xf keys, ?_⟩
  intro hfail
  have hfail' : (xor8_populate_from_keys xf' keys').1 ≠ 1 := fun h => hfail (hiff.mpr h)
  unfold xor8_build_with_retries
  rw [build_attempts_failure keys' xf' hfail' 5 xf' (by decide)]

theorem xor8_populate_perm_witness :
    [1, 2, 3].Perm [3, 1, 2] ∧
    (xor8_populate_from_keys { capacity := 0, finger := [] } [1, 2, 3]).1 = 1 ∧
    (xor8_populate_from_keys { capacity := 0, finger := [] } [3, 1, 2]).1 = 1 ∧
    [7, 8, 7].Perm [7, 7, 8] ∧
    (xor8_populate_from_keys { capacity := 0, finger := [] } [7, 8, 7]).1 ≠ 1 ∧
    (xor8_build_with_retries { capacity := 0, finger := [] } [7, 7, 8]).1 = 0 :=
  ⟨by decide, by decide,
   (xor8_populate_perm { capacity := 0, finger := [] } { capacity := 0, finger := [] }
      [1, 2, 3] [3, 1, 2] (by decide)).1.mp (by decide),
   by decide, by decide,
   (xor8_populate_perm { capacity := 0, finger := [] } { capacity := 0, finger := [] }
      [7, 8, 7] [7, 7, 8] (by decide)).2.2 (by decide)⟩

end XorFilter
